import Mathlib

/-!
# Verification of the covrs coverage tool against its specification

Shallow embedding of the core algorithms of the `covrs` repository
(coverage-report ingestion, storage, diff coverage) as Lean definitions,
with theorems settling the specification claims.

Source files embedded: `src/report.rs` (range coalescer), `src/diff.rs`
(unified diff parser), `src/parsers/mod.rs` and the per-format parsers
(format detection, Cobertura branch handling, Go cover block expansion),
and `src/db.rs` (the SQLite-backed coverage store and its queries).
-/

namespace Covrs

/-! ## Range coalescer (`src/report.rs`)

`coalesce_ranges` compresses a sorted list of missed line numbers into
inclusive `(start, end)` ranges, bridging gaps of up to `MAX_BRIDGE_GAP`
lines when no line in the gap is instrumentable.  The Rust code tests
instrumentability with `all_instrumentable.binary_search(&l).is_err()`;
`binarySearch` below is the same lower/upper-half search over a list.
-/

/-- `MAX_BRIDGE_GAP` from `src/report.rs`. -/
def MAX_BRIDGE_GAP : Nat := 2

/-- Core loop of Rust slice `binary_search`: search `t` in `xs` between
indices `lo` (inclusive) and `hi` (exclusive), returning `true` when found
(the Rust call site only uses `is_err()`, i.e. the found/not-found bit).
`fuel` is an upper bound on `hi - lo`, which strictly decreases on every
iteration; with `fuel := xs.length` the search never runs out. -/
def binarySearchGo (xs : List Nat) (t : Nat) : Nat → Nat → Nat → Bool
  | _, _, 0 => false
  | lo, hi, fuel + 1 =>
    if lo < hi then
      if xs.getD ((lo + hi) / 2) 0 = t then true
      else if xs.getD ((lo + hi) / 2) 0 < t then binarySearchGo xs t ((lo + hi) / 2 + 1) hi fuel
      else binarySearchGo xs t lo ((lo + hi) / 2) fuel
    else false

/-- `xs.binary_search(&t).is_ok()` for a list embedding of the slice. -/
def binarySearch (xs : List Nat) (t : Nat) : Bool :=
  binarySearchGo xs t 0 xs.length xs.length

/-- The integer lines strictly between `e` and `line` — the Rust iterator
`(end + 1..line)`. -/
def gapLines (e line : Nat) : List Nat := List.range' (e + 1) (line - (e + 1))

/-- Loop of `coalesce_ranges` (`src/report.rs` lines 262-275): walking the
remaining lines with the current open range `(start, end)`. -/
def coalesceGo (inst : List Nat) (start e : Nat) : List Nat → List (Nat × Nat)
  | [] => [(start, e)]
  | line :: rest =>
    let gap := line - e - 1
    if gap ≤ MAX_BRIDGE_GAP &&
        (gapLines e line).all (fun l => !binarySearch inst l) then
      coalesceGo inst start line rest
    else
      (start, e) :: coalesceGo inst line line rest

/-- `coalesce_ranges` from `src/report.rs`: coalesce sorted missed lines into
inclusive ranges, bridging gaps of at most `MAX_BRIDGE_GAP` lines in which no
line is instrumentable. -/
def coalesce_ranges (lines : List Nat) (all_instrumentable : List Nat) :
    List (Nat × Nat) :=
  match lines with
  | [] => []
  | l0 :: rest => coalesceGo all_instrumentable l0 l0 rest

/-- The coalescing rule exactly as the specification words it: extend the
open range to `L` iff the gap is at most `MAX_BRIDGE_GAP` and every integer
line strictly between `end` and `L` is absent from the instrumentable set. -/
def coalesceSpecGo (inst : List Nat) (start e : Nat) : List Nat → List (Nat × Nat)
  | [] => [(start, e)]
  | line :: rest =>
    if line - e - 1 ≤ MAX_BRIDGE_GAP ∧ ∀ l ∈ gapLines e line, l ∉ inst then
      coalesceSpecGo inst start line rest
    else
      (start, e) :: coalesceSpecGo inst line line rest

/-- Range coalescing as described by the specification (§4.4.1), used as the
reference against which `coalesce_ranges` is compared. -/
def coalesceRangesSpec (lines : List Nat) (inst : List Nat) : List (Nat × Nat) :=
  match lines with
  | [] => []
  | l0 :: rest => coalesceSpecGo inst l0 l0 rest

/-! ## Unified diff parser (`src/diff.rs`)

Lines of text are embedded as `List Char` (a Rust `&str` is a sequence of
characters; Lean's `String` is a structure over `List Char`).  `parse_diff`
takes the whole diff text and first splits it into lines exactly as Rust's
`str::lines` does. -/

/-- One line of text. -/
abbrev Line := List Char

/-- Split a character list at every occurrence of `c`, keeping empty pieces
(the behaviour of Rust `str::split`). -/
def splitOnChar (c : Char) : List Char → List (List Char)
  | [] => [[]]
  | a :: rest =>
    if a = c then [] :: splitOnChar c rest
    else
      match splitOnChar c rest with
      | [] => [[a]]
      | r :: rs => (a :: r) :: rs

/-- Rust `str::strip_prefix`: `some` of the remainder when `p` is a prefix. -/
def stripLeading (p s : Line) : Option Line :=
  if p.isPrefixOf s then some (s.drop p.length) else none

/-- Rust `str::lines`: split on `'\n'`, drop the empty piece a trailing
newline produces, and strip one trailing `'\r'` from each line. -/
def rustLines (s : String) : List Line :=
  let parts := splitOnChar '\n' s.data
  let parts := if parts.getLast? = some [] then parts.dropLast else parts
  parts.map fun l => if l.getLast? = some '\r' then l.dropLast else l

/-- Accumulating digit parser behind `u32::from_str`. -/
def digitsValGo (acc : Nat) : List Char → Option Nat
  | [] => some acc
  | c :: r =>
    if c.isDigit then digitsValGo (acc * 10 + (c.toNat - '0'.toNat)) r else none

/-- Rust `u32::from_str`: an optional leading `'+'`, then one or more digits,
value below `2^32`. -/
def parseU32 (s : Line) : Option Nat :=
  let t := match s with
    | '+' :: r => r
    | _ => s
  match t with
  | [] => none
  | _ =>
    match digitsValGo 0 t with
    | some n => if n < 4294967296 then some n else none
    | none => none

/-- `parse_hunk_header` from `src/diff.rs`: extract the "new" start line from
a hunk header such as `@@ -10,5 +20,8 @@`. -/
def parse_hunk_header (line : Line) : Option Nat :=
  match stripLeading ("@@ ".data) line with
  | none => none
  | some afterAt =>
    match splitOnChar ' ' afterAt with
    | _ :: p1 :: _ =>
      match p1 with
      | '+' :: newPart => parseU32 ((splitOnChar ',' newPart).headD [])
      | _ => none
    | _ => none

/-- `result.entry(file).or_default().push(n)`: append a line number to the
per-file list, creating the entry on first use. -/
def pushAdded (res : List (Line × List Nat)) (file : Line) (n : Nat) :
    List (Line × List Nat) :=
  if res.any (fun p => p.1 = file) then
    res.map fun p => if p.1 = file then (p.1, p.2 ++ [n]) else p
  else res ++ [(file, [n])]

/-- Mutable state of the `parse_diff` loop. -/
structure DiffState where
  result : List (Line × List Nat)
  currentFile : Option Line
  newLineNumber : Nat
deriving DecidableEq

/-- One iteration of the `parse_diff` loop (`src/diff.rs` lines 109-144). -/
def parseDiffStep (st : DiffState) (line : Line) : DiffState :=
  match stripLeading ("+++ ".data) line with
  | some rest =>
    if rest = "/dev/null".data then { st with currentFile := none }
    else
      let path :=
        match stripLeading ("b/".data) rest with
        | some p => p
        | none =>
          match stripLeading ("a/".data) rest with
          | some p => p
          | none => rest
      { st with currentFile := some path }
  | none =>
    if ("@@ ".data).isPrefixOf line then
      match parse_hunk_header line with
      | some n => { st with newLineNumber := n }
      | none => st
    else
      match st.currentFile with
      | none => st
      | some file =>
        if ("\\".data).isPrefixOf line then st
        else if ("+".data).isPrefixOf line && !(("+++".data).isPrefixOf line) then
          { st with result := pushAdded st.result file st.newLineNumber,
                    newLineNumber := st.newLineNumber + 1 }
        else if ("-".data).isPrefixOf line && !(("---".data).isPrefixOf line) then
          st
        else
          { st with newLineNumber := st.newLineNumber + 1 }

/-- Run the `parse_diff` loop over a list of lines. -/
def parseDiffLines (lines : List Line) : List (Line × List Nat) :=
  (lines.foldl parseDiffStep ⟨[], none, 0⟩).result

/-- `parse_diff` from `src/diff.rs`: map each target file of a unified diff
to the list of added new-file line numbers. -/
def parse_diff (text : String) : List (Line × List Nat) :=
  parseDiffLines (rustLines text)

/-- The list of added line numbers recorded for file `p` (empty when the
parser created no entry for `p`). -/
def diffLinesFor (res : List (Line × List Nat)) (p : Line) : List Nat :=
  match res.find? (fun q => q.1 = p) with
  | some q => q.2
  | none => []

/-! ### Structured unified diffs (the specification side of C3)

A structured diff fixes what "the patch applies" means: each file carries
hunks whose bodies are context/added/removed lines, and applying the hunks
to an original file produces the new file.  Rendering a structured diff
produces unified diff text lines. -/

/-- One body line of a hunk. -/
inductive BodyLine where
  | ctx (s : Line)
  | add (s : Line)
  | del (s : Line)
  | noNewlineMark
deriving DecidableEq

/-- A hunk: its literal header line, the positions it encodes, and its body. -/
structure Hunk where
  header : Line
  oldStart : Nat
  newStart : Nat
  body : List BodyLine
deriving DecidableEq

/-- A file section of a unified diff (`path = none` encodes `/dev/null`). -/
structure FileDiff where
  oldHeader : Line
  path : Option Line
  hunks : List Hunk
deriving DecidableEq

def renderBody : BodyLine → Line
  | .ctx s => ' ' :: s
  | .add s => '+' :: s
  | .del s => '-' :: s
  | .noNewlineMark => "\\ No newline at end of file".data

def renderHunk (h : Hunk) : List Line :=
  h.header :: h.body.map renderBody

def renderFile (f : FileDiff) : List Line :=
  f.oldHeader
    :: ("+++ ".data ++ (match f.path with
        | none => "/dev/null".data
        | some p => "b/".data ++ p))
    :: (f.hunks.map renderHunk).flatten

def renderDiff (fs : List FileDiff) : List Line :=
  (fs.map renderFile).flatten

/-- The old-file lines a hunk body consumes, in order. -/
def bodyOldLines (body : List BodyLine) : List Line :=
  body.filterMap fun b => match b with
    | .ctx s => some s
    | .del s => some s
    | _ => none

/-- The new-file lines a hunk body produces, in order. -/
def bodyNewLines (body : List BodyLine) : List Line :=
  body.filterMap fun b => match b with
    | .ctx s => some s
    | .add s => some s
    | _ => none

/-- The old-file lines a hunk consumes, in order. -/
def hunkOldLines (h : Hunk) : List Line := bodyOldLines h.body

/-- Number of old-file lines a hunk consumes. -/
def hunkOldLen (h : Hunk) : Nat := (bodyOldLines h.body).length

/-- The new-file lines a hunk produces, in order. -/
def hunkNewLines (h : Hunk) : List Line := bodyNewLines h.body

/-- Number of new-file lines a hunk produces. -/
def hunkNewLen (h : Hunk) : Nat := (bodyNewLines h.body).length

/-- First old-file line a hunk affects: for a pure insertion (`oldCount` 0)
the unified diff convention places the header's start *before* the
insertion point, so the affected position is one further. -/
def hunkAStart (h : Hunk) : Nat :=
  if hunkOldLen h = 0 then h.oldStart + 1 else h.oldStart

/-- Positional well-formedness of a hunk list: hunks appear in order, and
whenever a hunk emits new-file lines its `newStart` is consistent with the
accumulated drift (`pos`/`newPos` are the current old/new file positions). -/
def hunksPos : Nat → Nat → List Hunk → Prop
  | _, _, [] => True
  | pos, newPos, h :: rest =>
    pos ≤ hunkAStart h ∧ 1 ≤ pos ∧
    (0 < hunkNewLen h → h.newStart = newPos + (hunkAStart h - pos)) ∧
    hunksPos (hunkAStart h + hunkOldLen h)
      (newPos + (hunkAStart h - pos) + hunkNewLen h) rest

/-- The hunks' context/removed lines match the original file (so the patch
actually applies to `orig`). -/
def hunksMatch (orig : List Line) : List Hunk → Prop
  | [] => True
  | h :: rest =>
    hunkAStart h - 1 + hunkOldLen h ≤ orig.length ∧
    (orig.drop (hunkAStart h - 1)).take (hunkOldLen h) = hunkOldLines h ∧
    hunksMatch orig rest

/-- Apply a hunk list to the original file, starting at old position `pos`
(1-based); produces the tail of the new file from `pos` on. -/
def applyGo (orig : List Line) : Nat → List Hunk → List Line
  | pos, [] => orig.drop (pos - 1)
  | pos, h :: rest =>
    (orig.drop (pos - 1)).take (hunkAStart h - pos) ++ hunkNewLines h
      ++ applyGo orig (hunkAStart h + hunkOldLen h) rest

/-- The new file obtained by applying all hunks of a file section. -/
def applyFileDiff (orig : List Line) (f : FileDiff) : List Line :=
  applyGo orig 1 f.hunks

/-- The added lines of one hunk, paired with the new-file line number each
one occupies: the counter starts at `newStart` and advances over context
and added lines. -/
def hunkAddedGo : Nat → List BodyLine → List (Nat × Line)
  | _, [] => []
  | n, .ctx _ :: r => hunkAddedGo (n + 1) r
  | n, .add s :: r => (n, s) :: hunkAddedGo (n + 1) r
  | n, .del _ :: r => hunkAddedGo n r
  | n, .noNewlineMark :: r => hunkAddedGo n r

def hunkAdded (h : Hunk) : List (Nat × Line) :=
  hunkAddedGo h.newStart h.body

/-- All added lines of a file section with their new-file line numbers. -/
def fileAdded (f : FileDiff) : List (Nat × Line) :=
  (f.hunks.map hunkAdded).flatten

/-- Per-line well-formedness of a rendered hunk: the header is a real hunk
header encoding `newStart`, and no added (removed) body line begins with
`++` (`--`), which would collide with the `+++`/`---` file header syntax. -/
def hunkLineWF (h : Hunk) : Prop :=
  ("@@ ".data).isPrefixOf h.header ∧ parse_hunk_header h.header = some h.newStart ∧
  ∀ b ∈ h.body,
    (∀ s, b = .add s → ¬ ("++".data).isPrefixOf s) ∧
    (∀ s, b = .del s → ¬ ("--".data).isPrefixOf s)

/-- Per-line well-formedness of a file section: the old-file header starts
with `--- `, and every hunk is line-well-formed. -/
def fileLineWF (f : FileDiff) : Prop :=
  ("--- ".data).isPrefixOf f.oldHeader ∧ ∀ h ∈ f.hunks, hunkLineWF h


/-- Push a whole list of added line numbers for one file, in order. -/
def pushAll (res : List (Line × List Nat)) (file : Line) (ns : List Nat) :
    List (Line × List Nat) :=
  ns.foldl (fun r n => pushAdded r file n) res

/-- The per-file result accumulation `parse_diff` performs on a structured
diff: for every file section with a real path, push all its added-line
numbers. -/
def collectAdded (fs : List FileDiff) (r : List (Line × List Nat)) :
    List (Line × List Nat) :=
  fs.foldl
    (fun r f =>
      match f.path with
      | some p => pushAll r p ((fileAdded f).map Prod.fst)
      | none => r)
    r


/-- Decidability of the per-body-line conditions of `hunkLineWF`. -/
instance hunkBodyCondDecidable (b : BodyLine) :
    Decidable ((∀ s, b = .add s → ¬ ("++".data).isPrefixOf s = true) ∧
               (∀ s, b = .del s → ¬ ("--".data).isPrefixOf s = true)) :=
  match b with
  | .ctx _ => isTrue ⟨(fun _ h => nomatch h), (fun _ h => nomatch h)⟩
  | .add s =>
    if h : ("++".data).isPrefixOf s = true then
      isFalse fun hc => (hc.1 s rfl) h
    else
      isTrue ⟨(fun s' hs => by cases hs; exact h), (fun _ hs => nomatch hs)⟩
  | .del s =>
    if h : ("--".data).isPrefixOf s = true then
      isFalse fun hc => (hc.2 s rfl) h
    else
      isTrue ⟨(fun _ hs => nomatch hs), (fun s' hs => by cases hs; exact h)⟩
  | .noNewlineMark => isTrue ⟨(fun _ h => nomatch h), (fun _ h => nomatch h)⟩

instance hunkLineWFDecidable (h : Hunk) : Decidable (hunkLineWF h) :=
  inferInstanceAs (Decidable (_ ∧ _ ∧ ∀ b ∈ h.body, _))

instance fileLineWFDecidable (f : FileDiff) : Decidable (fileLineWF f) :=
  inferInstanceAs (Decidable (_ ∧ ∀ h ∈ f.hunks, _))

instance hunksPosDecidable : ∀ (pos newPos : Nat) (hs : List Hunk),
    Decidable (hunksPos pos newPos hs)
  | _, _, [] => isTrue trivial
  | pos, newPos, h :: rest =>
    letI := hunksPosDecidable (hunkAStart h + hunkOldLen h)
      (newPos + (hunkAStart h - pos) + hunkNewLen h) rest
    inferInstanceAs (Decidable (pos ≤ hunkAStart h ∧ 1 ≤ pos ∧
      (0 < hunkNewLen h → h.newStart = newPos + (hunkAStart h - pos)) ∧
      hunksPos (hunkAStart h + hunkOldLen h)
        (newPos + (hunkAStart h - pos) + hunkNewLen h) rest))

instance hunksMatchDecidable (orig : List Line) : ∀ (hs : List Hunk),
    Decidable (hunksMatch orig hs)
  | [] => isTrue trivial
  | h :: rest =>
    letI := hunksMatchDecidable orig rest
    inferInstanceAs (Decidable (hunkAStart h - 1 + hunkOldLen h ≤ orig.length ∧
      (orig.drop (hunkAStart h - 1)).take (hunkOldLen h) = hunkOldLines h ∧
      hunksMatch orig rest))


/-! ## Format detection (`src/parsers/mod.rs` and the per-parser
`can_parse` implementations)

Content is embedded as `List Char` (the first ~4 KiB sniffed head of the
input file); a path is embedded by the two features `can_parse`
implementations consult: the file name and `Path::extension()`. -/

/-- The path features consulted by detection. -/
structure PathInfo where
  fileName : Line
  ext : Option Line
deriving DecidableEq

/-- `sniff_head`: the first 4096 bytes of content. -/
def sniffHead (content : List Char) : List Char := content.take 4096

/-- Rust `str::contains` for a literal needle. -/
def containsSub (needle : Line) : Line → Bool
  | [] => needle.isEmpty
  | c :: t => needle.isPrefixOf (c :: t) || containsSub needle t

/-- Rust `str::trim_start`. -/
def trimStartChars (l : Line) : Line := l.dropWhile (·.isWhitespace)

/-- Rust `str::trim_end`. -/
def trimEndChars (l : Line) : Line := (l.reverse.dropWhile (·.isWhitespace)).reverse

/-- Rust `str::trim`. -/
def trimChars (l : Line) : Line := trimEndChars (trimStartChars l)

/-- `str::lines` over an already-decoded character list (same rule as
`rustLines`). -/
def linesOfChars (cs : List Char) : List Line :=
  let parts := splitOnChar '\n' cs
  let parts := if parts.getLast? = some [] then parts.dropLast else parts
  parts.map fun l => if l.getLast? = some '\r' then l.dropLast else l

/-- ASCII lowercasing of a line (Rust `to_lowercase` on the inputs the
detector compares, which are ASCII extensions and file names). -/
def toLowerLine (l : Line) : Line := l.map Char.toLower

/-- `looks_like_xml` from `src/parsers/mod.rs`. -/
def looks_like_xml (head : Line) : Bool :=
  containsSub ("<?xml".data) head ||
    (match trimStartChars head with
      | '<' :: _ => true
      | _ => false)

/-- `LcovParser::can_parse` (`src/parsers/lcov.rs`). -/
def lcovCanParse (p : PathInfo) (content : List Char) : Bool :=
  (match p.ext with
    | some e => toLowerLine e = "info".data || toLowerLine e = "lcov".data
    | none => false)
  ||
  (let head := sniffHead content
   (linesOfChars head).any (fun l => ("SF:".data).isPrefixOf l)
    && (linesOfChars head).any
        (fun l => ("DA:".data).isPrefixOf l || ("FN:".data).isPrefixOf l))

/-- The last index at which `needle` occurs in `hay` (Rust `str::rfind`
with a literal pattern), as an index into the character list. -/
def findLastSub (hay needle : Line) : Option Nat :=
  ((List.range (hay.length + 1)).filter
    (fun i => needle.isPrefixOf (hay.drop i))).getLast?

/-- Rust `str::split_whitespace` (fuel-based recursion on the remaining
length, which strictly decreases). -/
def splitWsGo : Nat → Line → List Line
  | 0, _ => []
  | fuel + 1, l =>
    let l' := l.dropWhile (·.isWhitespace)
    match l' with
    | [] => []
    | _ =>
      (l'.takeWhile fun c => !c.isWhitespace)
        :: splitWsGo fuel (l'.dropWhile fun c => !c.isWhitespace)

def splitWs (l : Line) : List Line := splitWsGo (l.length + 1) l

/-- `looks_like_go_block` (`src/parsers/gocover.rs`). -/
def looksLikeGoBlock (line : Line) : Bool :=
  match findLastSub line (".go:".data) with
  | none => false
  | some idx =>
    let after := line.drop (idx + 4)
    after.contains ',' && decide (2 ≤ (splitWs after).length)

/-- `GocoverParser::can_parse` (`src/parsers/gocover.rs`). -/
def gocoverCanParse (p : PathInfo) (content : List Char) : Bool :=
  (match p.ext with
    | some e =>
      toLowerLine e = "coverprofile".data || toLowerLine e = "gocov".data
    | none => false)
  ||
  (let head := sniffHead content
   (match (linesOfChars head).head? with
     | some first => ("mode: ".data).isPrefixOf first
     | none => false)
    || (linesOfChars head).any looksLikeGoBlock)

/-- `looks_like_istanbul` (`src/parsers/istanbul.rs`). -/
def looksLikeIstanbul (head : Line) : Bool :=
  let trimmed := trimChars head
  (match trimmed with
    | '{' :: _ => true
    | _ => false)
  && containsSub ("\"statementMap\"".data) trimmed
  && containsSub ("\"fnMap\"".data) trimmed

/-- `IstanbulParser::can_parse` (`src/parsers/istanbul.rs`). -/
def istanbulCanParse (p : PathInfo) (content : List Char) : Bool :=
  (toLowerLine p.fileName = "coverage-final.json".data)
    || looksLikeIstanbul (sniffHead content)

/-- `JacocoParser::can_parse` (`src/parsers/jacoco.rs`). -/
def jacocoCanParse (_p : PathInfo) (content : List Char) : Bool :=
  let head := sniffHead content
  looks_like_xml head && containsSub ("<report".data) head &&
    (containsSub ("jacoco".data) head || containsSub ("JACOCO".data) head
      || containsSub ("<package".data) head)

/-- `CoberturaParser::can_parse` (`src/parsers/cobertura.rs` lines 46-49):
XML with a `<coverage` element — with *no* exclusion of the `clover=`
attribute. -/
def coberturaCanParse (_p : PathInfo) (content : List Char) : Bool :=
  let head := sniffHead content
  looks_like_xml head && containsSub ("<coverage".data) head

/-- The `Format` enum of `src/parsers/mod.rs` — note there is no Clover
variant. -/
inductive Format where
  | cobertura
  | gocover
  | istanbul
  | jacoco
  | lcov
deriving DecidableEq

/-- `all()` from `src/parsers/mod.rs`: the registered parsers in detection
priority order.  No Clover parser is registered. -/
def allParsers : List Format := [.lcov, .gocover, .istanbul, .jacoco, .cobertura]

/-- Dispatch of `can_parse` over the registered parsers. -/
def canParse : Format → PathInfo → List Char → Bool
  | .cobertura => coberturaCanParse
  | .gocover => gocoverCanParse
  | .istanbul => istanbulCanParse
  | .jacoco => jacocoCanParse
  | .lcov => lcovCanParse

/-- `detect` from `src/parsers/mod.rs`: the first registered parser whose
`can_parse` accepts. -/
def detect (p : PathInfo) (content : List Char) : Option Format :=
  allParsers.find? fun f => canParse f p content


/-! ## In-memory coverage model (`src/model.rs`) -/

/-- `LineCoverage` from `src/model.rs`. -/
structure LineCoverage where
  line_number : Nat
  hit_count : Nat
deriving DecidableEq

/-- `BranchCoverage` from `src/model.rs`. -/
structure BranchCoverage where
  line_number : Nat
  branch_index : Nat
  hit_count : Nat
deriving DecidableEq

/-- `FunctionCoverage` from `src/model.rs`. -/
structure FunctionCoverage where
  name : String
  start_line : Option Nat
  end_line : Option Nat
  hit_count : Nat
deriving DecidableEq

/-- `FileCoverage` from `src/model.rs`. -/
structure FileCoverage where
  path : String
  lines : List LineCoverage
  branches : List BranchCoverage
  functions : List FunctionCoverage
deriving DecidableEq

/-- `FileCoverage::new`. -/
def FileCoverage.new (path : String) : FileCoverage := ⟨path, [], [], []⟩

/-! ## Cobertura parser (`src/parsers/cobertura.rs`)

The parser is embedded at the XML-event level (the `quick_xml` reader
abstraction the Rust code folds over): start/empty/text/end events with
string attribute lists. -/

/-- One XML event as delivered by the reader. -/
inductive XmlEvent where
  | start (name : String) (attrs : List (String × String))
  | emptyTag (name : String) (attrs : List (String × String))
  | text (s : String)
  | endTag (name : String)

/-- `get_attr`: first attribute with the given name. -/
def getAttr (attrs : List (String × String)) (name : String) : Option String :=
  (attrs.find? fun a => a.1 = name).map (·.2)

/-- `u32::from_str` on a `String`. -/
def parseU32Str (s : String) : Option Nat := parseU32 s.data

/-- `u64::from_str`: optional `+`, digits, value below `2^64`. -/
def parseU64 (s : Line) : Option Nat :=
  let t := match s with
    | '+' :: r => r
    | _ => s
  match t with
  | [] => none
  | _ =>
    match digitsValGo 0 t with
    | some n => if n < 18446744073709551616 then some n else none
    | none => none

def parseU64Str (s : String) : Option Nat := parseU64 s.data

/-- Stable insertion into a list sorted by `le`: the new element goes after
every existing element that is `le` it. -/
def insertByLe (le : α → α → Bool) (a : α) : List α → List α
  | [] => [a]
  | b :: t => if le b a then b :: insertByLe le a t else a :: b :: t

/-- Stable sort by `le` (insertion sort).  A stable sort is extensionally
unique, so this equals Rust's stable `sort_by_key`. -/
def sortByLe (le : α → α → Bool) (l : List α) : List α :=
  l.foldl (fun acc a => insertByLe le a acc) []

/-- Digit-string value (the regex capture groups are digit runs). -/
def digitsVal (ds : List Char) : Nat :=
  ds.foldl (fun n c => n * 10 + (c.toNat - '0'.toNat)) 0

/-- Try the pattern `(\d+/\d+)` with surrounding parentheses at the head
of the character list: `( digits / digits )`. -/
def parseParen (l : Line) : Option (Nat × Nat) :=
  match l with
  | '(' :: rest =>
    let ds := rest.takeWhile Char.isDigit
    if ds.isEmpty then none
    else
      match rest.drop ds.length with
      | '/' :: rest2 =>
        let ds2 := rest2.takeWhile Char.isDigit
        if ds2.isEmpty then none
        else
          match rest2.drop ds2.length with
          | ')' :: _ => some (digitsVal ds, digitsVal ds2)
          | _ => none
      | _ => none
  | _ => none

/-- The pre-compiled `BRANCH_RE` regex `\((\d+)/(\d+)\)`: first match
scanning left to right. -/
def branchReGo : Line → Option (Nat × Nat)
  | [] => none
  | c :: t =>
    match parseParen (c :: t) with
    | some r => some r
    | none => branchReGo t

def branchRe (s : String) : Option (Nat × Nat) := branchReGo s.data

/-- Association list for the `HashMap<u32, _>` state maps. -/
def alistGet (m : List (Nat × Nat)) (k : Nat) : Option Nat :=
  (m.find? fun q => q.1 = k).map (·.2)

def alistPut (m : List (Nat × Nat)) (k v : Nat) : List (Nat × Nat) :=
  if m.any (fun q => q.1 = k) then
    m.map fun q => if q.1 = k then (k, v) else q
  else m ++ [(k, v)]

/-- `source.trim_end_matches('/')`. -/
def trimEndSlashes (s : String) : String :=
  ⟨(s.data.reverse.dropWhile (· = '/')).reverse⟩

/-- `resolve_source_path` from `src/parsers/cobertura.rs`. -/
def resolve_source_path (filename : String) (sources : List String) : String :=
  if ("/".data).isPrefixOf filename.data then filename
  else
    match sources.find? (fun s => !(trimEndSlashes s).isEmpty) with
    | some s => trimEndSlashes s ++ "/" ++ filename
    | none => filename

/-- The attribute values the `<line>` handler extracts in one pass
(last occurrence of a duplicated attribute wins, as in the Rust loop). -/
structure LineAttrs where
  number : Option Nat
  hits : Nat
  isBranch : Bool
  condCov : Option String

def scanLineAttrs (attrs : List (String × String)) : LineAttrs :=
  attrs.foldl
    (fun (a : LineAttrs) kv =>
      if kv.1 = "number" then { a with number := parseU32Str kv.2 }
      else if kv.1 = "hits" then { a with hits := (parseU64Str kv.2).getD 0 }
      else if kv.1 = "branch" then { a with isBranch := kv.2 = "true" }
      else if kv.1 = "condition-coverage" then { a with condCov := some kv.2 }
      else a)
    ⟨none, 0, false, none⟩

/-- Line de-duplication: keep the maximum hit count per line number,
preserving first-seen order (`line_index_map`). -/
def recordLine (file : FileCoverage) (limap : List (Nat × Nat)) (L hit : Nat) :
    FileCoverage × List (Nat × Nat) :=
  match alistGet limap L with
  | some idx =>
    let cur := file.lines.getD idx ⟨L, 0⟩
    if hit > cur.hit_count then
      ({ file with lines := file.lines.set idx ⟨cur.line_number, hit⟩ }, limap)
    else (file, limap)
  | none =>
    ({ file with lines := file.lines ++ [⟨L, hit⟩] },
      alistPut limap L file.lines.length)

/-- The `for i in 0..total` branch-arm loop: one arm per condition, the
first `covered` arms hit, with the per-line running index. -/
def pushArms (file : FileCoverage) (bidx : List (Nat × Nat)) (L covered total : Nat) :
    FileCoverage × List (Nat × Nat) :=
  (List.range total).foldl
    (fun st i =>
      let idx := (alistGet st.2 L).getD 0
      ({ st.1 with branches := st.1.branches
          ++ [⟨L, idx, if i < covered then 1 else 0⟩] },
        alistPut st.2 L (idx + 1)))
    (file, bidx)

/-- Mutable state of the Cobertura event loop. -/
structure CobState where
  files : List FileCoverage
  currentFile : Option FileCoverage
  inMethod : Bool
  currentMethodName : Option String
  methodHit : Bool
  methodStartLine : Option Nat
  branchIndices : List (Nat × Nat)
  lineIndexMap : List (Nat × Nat)
  sources : List String
  inSource : Bool

/-- Handler for `Start`/`Empty` events (`is_start_event` distinguishes the
self-closing `<source/>` case). -/
def cobStart (st : CobState) (name : String) (attrs : List (String × String))
    (isStart : Bool) : CobState :=
  if name = "source" then
    if isStart then { st with inSource := true } else st
  else if name = "class" then
    match getAttr attrs "filename" with
    | some filename =>
      { st with
        currentFile := some (FileCoverage.new (resolve_source_path filename st.sources)),
        branchIndices := [], lineIndexMap := [] }
    | none => st
  else if name = "method" then
    { st with
        inMethod := true,
        currentMethodName := getAttr attrs "name",
        methodHit := false,
        methodStartLine := none }
  else if name = "line" then
    match st.currentFile with
    | none => st
    | some file =>
      let a := scanLineAttrs attrs
      match a.number with
      | none => st
      | some L =>
        let rl := recordLine file st.lineIndexMap L a.hits
        let st1 := { st with currentFile := some rl.1, lineIndexMap := rl.2 }
        let st2 :=
          if st.inMethod then
            { st1 with
              methodStartLine :=
                match st1.methodStartLine with
                | none => some L
                | s => s,
              methodHit := st1.methodHit || decide (0 < a.hits) }
          else st1
        if a.isBranch && (alistGet st2.branchIndices L).isNone then
          match a.condCov with
          | some cond =>
            match branchRe cond with
            | some (v1, v2) =>
              let covered := if v1 < 4294967296 then v1 else 0
              let total := if v2 < 4294967296 then v2 else 0
              match st2.currentFile with
              | some f2 =>
                let pa := pushArms f2 st2.branchIndices L covered total
                { st2 with currentFile := some pa.1, branchIndices := pa.2 }
              | none => st2
            | none => st2
          | none => st2
        else st2
  else st

/-- One step of the Cobertura event loop (`src/parsers/cobertura.rs`
lines 78-247). -/
def cobStep (st : CobState) (ev : XmlEvent) : CobState :=
  match ev with
  | .start name attrs => cobStart st name attrs true
  | .emptyTag name attrs => cobStart st name attrs false
  | .text s =>
    if st.inSource then { st with sources := st.sources ++ [s], inSource := false }
    else st
  | .endTag name =>
    if name = "source" then { st with inSource := false }
    else if name = "class" then
      match st.currentFile with
      | some f => { st with files := st.files ++ [f], currentFile := none }
      | none => st
    else if name = "method" then
      if st.inMethod then
        match st.currentFile, st.currentMethodName with
        | some f, some nm =>
          { st with
            currentFile := some { f with functions := f.functions
              ++ [⟨nm, st.methodStartLine, none, if st.methodHit then 1 else 0⟩] },
            currentMethodName := none, inMethod := false, methodStartLine := none }
        | _, _ =>
          { st with
              currentMethodName := none,
              inMethod := false,
              methodStartLine := none }
      else st
    else st

/-- `parse` from `src/parsers/cobertura.rs`: fold the events, flush an
unclosed file, and sort each file's lines by line number. -/
def cobertura_parse (events : List XmlEvent) : List FileCoverage :=
  let st := events.foldl cobStep ⟨[], none, false, none, false, none, [], [], [], false⟩
  let files :=
    match st.currentFile with
    | some f => st.files ++ [f]
    | none => st.files
  files.map fun f =>
    { f with lines := sortByLe (fun a b => a.line_number ≤ b.line_number) f.lines }


/-! ## Go cover parser (`src/parsers/gocover.rs`) -/

/-- A parsed coverage block. -/
structure Block where
  start_line : Nat
  end_line : Nat
  count : Nat
deriving DecidableEq

/-- Rust `str::split_once` on a character. -/
def splitOnceChar (c : Char) : Line → Option (Line × Line)
  | [] => none
  | a :: t =>
    if a = c then some ([], t)
    else (splitOnceChar c t).map fun p => (a :: p.1, p.2)

/-- `parse_block_line` from `src/parsers/gocover.rs`: anchor on the last
`.go:`, then read `startLine.startCol,endLine.endCol numStmt count`. -/
def parse_block_line (line : Line) : Option (Line × Block) :=
  match findLastSub line (".go:".data) with
  | none => none
  | some i =>
    let colon_pos := i + 3
    let file := line.take colon_pos
    let rest := line.drop (colon_pos + 1)
    match splitOnceChar ' ' rest with
    | none => none
    | some (range, tail) =>
      match splitOnceChar ',' range with
      | none => none
      | some (start, e) =>
        match splitOnceChar '.' start with
        | none => none
        | some (s1, _) =>
          match parseU32 s1 with
          | none => none
          | some start_line =>
            match splitOnceChar '.' e with
            | none => none
            | some (e1, _) =>
              match parseU32 e1 with
              | none => none
              | some end_line =>
                match splitWs tail with
                | _ :: cntStr :: _ =>
                  (parseU64 cntStr).map fun count =>
                    (file, ⟨start_line, end_line, count⟩)
                | _ => none

/-- Association list keyed by file path for the per-file block groups. -/
def balistGet (m : List (Line × List Block)) (k : Line) : Option (List Block) :=
  (m.find? fun q => q.1 = k).map (·.2)

def balistAppend (m : List (Line × List Block)) (k : Line) (b : Block) :
    List (Line × List Block) :=
  if m.any (fun q => q.1 = k) then
    m.map fun q => if q.1 = k then (q.1, q.2 ++ [b]) else q
  else m ++ [(k, [b])]

/-- Process one raw input line of a Go cover profile: trim, skip blanks and
the `mode:` header, otherwise try to parse a block line. -/
def goLineStep (st : List Line × List (Line × List Block)) (raw : Line) :
    List Line × List (Line × List Block) :=
  let line := trimChars raw
  if line.isEmpty || ("mode:".data).isPrefixOf line then st
  else
    match parse_block_line line with
    | some (file, block) =>
      (if st.2.any (fun q => q.1 = file) then st.1 else st.1 ++ [file],
        balistAppend st.2 file block)
    | none => st

/-- One line of one block folded into the per-line hit map:
`entry(line).or_insert(0)`, then update when the count is larger. -/
def goLineUpd (b : Block) (m : List (Nat × Nat)) (ln : Nat) : List (Nat × Nat) :=
  let m1 := if (alistGet m ln).isSome then m else alistPut m ln 0
  if b.count > (alistGet m1 ln).getD 0 then alistPut m1 ln b.count else m1

/-- One block folded into the per-line hit map, over its inclusive range. -/
def foldBlockLines (m : List (Nat × Nat)) (b : Block) : List (Nat × Nat) :=
  (List.range' b.start_line (b.end_line + 1 - b.start_line)).foldl (goLineUpd b) m

/-- The `line_hits` map of `blocks_to_file_coverage`. -/
def lineHitsOfBlocks (blocks : List Block) : List (Nat × Nat) :=
  blocks.foldl foldBlockLines []

/-- `blocks_to_file_coverage` from `src/parsers/gocover.rs`: expand blocks
to per-line maximum hit counts, sorted by line number. -/
def blocks_to_file_coverage (path : String) (blocks : List Block) : FileCoverage :=
  ⟨path,
    sortByLe (fun a b => a.line_number ≤ b.line_number)
      ((lineHitsOfBlocks blocks).map fun q => LineCoverage.mk q.1 q.2),
    [], []⟩

/-- `parse_streaming_reader` from `src/parsers/gocover.rs`, over the list
of raw input lines: group blocks by path in first-seen order, then emit one
`FileCoverage` per path. -/
def gocover_parse_lines (input : List Line) : List FileCoverage :=
  let st := input.foldl goLineStep ([], [])
  st.1.map fun p => blocks_to_file_coverage ⟨p⟩ ((balistGet st.2 p).getD [])

/-- `parse` of the Go cover parser over raw text. -/
def gocover_parse (s : String) : List FileCoverage :=
  gocover_parse_lines (linesOfChars s.data)

/-- The block lines a Go cover input successfully parses, in order. -/
def goBlocksOf (input : List Line) : List (Line × Block) :=
  input.filterMap fun raw =>
    let line := trimChars raw
    if line.isEmpty || ("mode:".data).isPrefixOf line then none
    else parse_block_line line

/-- First-seen-order deduplicated keys. -/
def dedupFirstSeen (ps : List (Line × Block)) : List Line :=
  ps.foldl (fun acc p => if acc.contains p.1 then acc else acc ++ [p.1]) []

/-- All blocks recorded for one path, in input order. -/
def blocksForPath (ps : List (Line × Block)) (p : Line) : List Block :=
  (ps.filter fun q => q.1 = p).map (·.2)

/-- The maximum count over all blocks covering line `L` (0 when none). -/
def maxCount (blocks : List Block) (L : Nat) : Nat :=
  blocks.foldl
    (fun m b => if b.start_line ≤ L ∧ L ≤ b.end_line then max m b.count else m) 0

/-! ## Coverage store (`src/db.rs`)

The SQL schema itself (`schema.sql`) is not part of `src/`; its row shapes and
constraints (surrogate ids, UNIQUE report name and source_file path, composite
primary keys, ON DELETE CASCADE) are modelled from the spec, section 3. All
query logic below is translated from the SQL text in `src/db.rs`. -/

/-- Modelled from the spec: a `report` table row (surrogate id; `name` UNIQUE;
`source_format`, `source_file?`, `created_at`). -/
structure ReportRow where
  id : Nat
  name : String
  source_format : String
  source_file : Option String
  created_at : String
deriving DecidableEq

/-- Modelled from the spec: a `source_file` table row (surrogate id; `path` UNIQUE). -/
structure SourceFileRow where
  id : Nat
  path : String
deriving DecidableEq

/-- Modelled from the spec: a `line_coverage` row,
PK `(report_id, source_file_id, line_number)`. -/
structure LineRow where
  report_id : Nat
  source_file_id : Nat
  line_number : Nat
  hit_count : Nat
deriving DecidableEq

/-- Modelled from the spec: a `branch_coverage` row,
PK `(report_id, source_file_id, line_number, branch_index)`. -/
structure BranchRow where
  report_id : Nat
  source_file_id : Nat
  line_number : Nat
  branch_index : Nat
  hit_count : Nat
deriving DecidableEq

/-- Modelled from the spec: a `function_coverage` row, conflict key
`(report_id, source_file_id, name, COALESCE(start_line, -1))`. Line numbers
are `u32`, so `COALESCE(start_line, -1)` separates NULL from every real value:
comparing `start_line : Option Nat` directly is an exact model of that key. -/
structure FuncRow where
  report_id : Nat
  source_file_id : Nat
  name : String
  start_line : Option Nat
  end_line : Option Nat
  hit_count : Nat
deriving DecidableEq

/-- The database state: the five tables plus the two surrogate-id counters
(modelled from the spec's surrogate ids; SQLite assigns fresh rowids). -/
structure DBState where
  reports : List ReportRow
  sourceFiles : List SourceFileRow
  lineCov : List LineRow
  branchCov : List BranchRow
  funcCov : List FuncRow
  nextReportId : Nat
  nextFileId : Nat
deriving DecidableEq

/-- Modelled from the spec: `DELETE FROM report WHERE name = ?1` with
`ON DELETE CASCADE` taking all coverage rows of the deleted reports. -/
def deleteReportCascade (st : DBState) (name : String) : DBState :=
  let deadIds := (st.reports.filter fun r => r.name = name).map (·.id)
  { st with
    reports := st.reports.filter fun r => ¬ r.name = name,
    lineCov := st.lineCov.filter fun l => ¬ l.report_id ∈ deadIds,
    branchCov := st.branchCov.filter fun b => ¬ b.report_id ∈ deadIds,
    funcCov := st.funcCov.filter fun f => ¬ f.report_id ∈ deadIds }

/-- `DELETE FROM source_file WHERE id NOT IN (SELECT DISTINCT source_file_id
FROM line_coverage UNION … branch_coverage UNION … function_coverage)` from
`insert_coverage_streaming` (`src/db.rs` lines 74-83). -/
def purgeOrphans (st : DBState) : DBState :=
  { st with
    sourceFiles := st.sourceFiles.filter fun sf =>
      st.lineCov.any (fun l => l.source_file_id = sf.id)
      || st.branchCov.any (fun b => b.source_file_id = sf.id)
      || st.funcCov.any (fun f => f.source_file_id = sf.id) }

/-- `INSERT OR REPLACE INTO line_coverage`: the conflicting row (same
PK `(report_id, source_file_id, line_number)`) is deleted and the new row
inserted. -/
def upsertLine (rows : List LineRow) (r : LineRow) : List LineRow :=
  (rows.filter fun x => ¬(x.report_id = r.report_id
    ∧ x.source_file_id = r.source_file_id ∧ x.line_number = r.line_number)) ++ [r]

/-- `INSERT OR REPLACE INTO branch_coverage` (PK adds `branch_index`). -/
def upsertBranch (rows : List BranchRow) (r : BranchRow) : List BranchRow :=
  (rows.filter fun x => ¬(x.report_id = r.report_id
    ∧ x.source_file_id = r.source_file_id ∧ x.line_number = r.line_number
    ∧ x.branch_index = r.branch_index)) ++ [r]

/-- The conflict key of `function_coverage` inserts. -/
def funcKeyMatch (x r : FuncRow) : Prop :=
  x.report_id = r.report_id ∧ x.source_file_id = r.source_file_id
    ∧ x.name = r.name ∧ x.start_line = r.start_line

instance (x r : FuncRow) : Decidable (funcKeyMatch x r) := by
  unfold funcKeyMatch
  infer_instance

/-- `INSERT INTO function_coverage … ON CONFLICT(report_id, source_file_id,
name, COALESCE(start_line, -1)) DO UPDATE SET hit_count = excluded.hit_count,
end_line = excluded.end_line`. -/
def upsertFunc (rows : List FuncRow) (r : FuncRow) : List FuncRow :=
  if rows.any fun x => funcKeyMatch x r then
    rows.map fun x =>
      if funcKeyMatch x r then { x with hit_count := r.hit_count, end_line := r.end_line }
      else x
  else rows ++ [r]

/-- The mutable state threaded through the per-file loop of
`insert_coverage_tx`: the `source_file` table (with its id counter) and the
three coverage tables being appended to. -/
structure IngestAcc where
  sourceFiles : List SourceFileRow
  nextFileId : Nat
  lineCov : List LineRow
  branchCov : List BranchRow
  funcCov : List FuncRow
deriving DecidableEq

/-- One `FileCoverage` processed by the closure in `insert_coverage_tx`
(`src/db.rs` lines 227-260): resolve the source-file id
(`get_or_insert_source_file_owned`: `INSERT … ON CONFLICT(path) DO UPDATE SET
path = path RETURNING id` — reuse the existing id, else a fresh one), then
upsert every line, branch and function row under the current report id. -/
def ingestFile (rid : Nat) (acc : IngestAcc) (fc : FileCoverage) : IngestAcc :=
  let fsn : Nat × List SourceFileRow × Nat :=
    match acc.sourceFiles.find? fun sf => sf.path = fc.path with
    | some sf => (sf.id, acc.sourceFiles, acc.nextFileId)
    | none => (acc.nextFileId, acc.sourceFiles ++ [⟨acc.nextFileId, fc.path⟩],
        acc.nextFileId + 1)
  { sourceFiles := fsn.2.1,
    nextFileId := fsn.2.2,
    lineCov := fc.lines.foldl
      (fun rs l => upsertLine rs ⟨rid, fsn.1, l.line_number, l.hit_count⟩) acc.lineCov,
    branchCov := fc.branches.foldl
      (fun rs b => upsertBranch rs ⟨rid, fsn.1, b.line_number, b.branch_index, b.hit_count⟩)
      acc.branchCov,
    funcCov := fc.functions.foldl
      (fun rs f => upsertFunc rs ⟨rid, fsn.1, f.name, f.start_line, f.end_line, f.hit_count⟩)
      acc.funcCov }

/-- `insert_coverage_tx` from `src/db.rs`: insert the report row (the UNIQUE
name constraint turns a duplicate into an error), then stream every file's
rows. Returns the new report id and the updated state. -/
def insert_coverage_tx (st : DBState) (name source_format : String)
    (source_file : Option String) (files : List FileCoverage) (now : String) :
    Except String (Nat × DBState) :=
  if st.reports.any fun r => r.name = name then
    .error ("Report '" ++ name ++ "' already exists.")
  else
    let rid := st.nextReportId
    let acc := files.foldl (ingestFile rid)
      ⟨st.sourceFiles, st.nextFileId, st.lineCov, st.branchCov, st.funcCov⟩
    .ok (rid,
      { reports := st.reports ++ [⟨rid, name, source_format, source_file, now⟩],
        sourceFiles := acc.sourceFiles,
        lineCov := acc.lineCov,
        branchCov := acc.branchCov,
        funcCov := acc.funcCov,
        nextReportId := rid + 1,
        nextFileId := acc.nextFileId })

/-- `insert_coverage_streaming` from `src/db.rs` lines 56-88: one transaction;
if `overwrite`, first delete the same-named report (cascade), insert, then
purge orphaned `source_file` rows before committing. -/
def insert_coverage_streaming (st : DBState) (name source_format : String)
    (source_file : Option String) (files : List FileCoverage) (overwrite : Bool)
    (now : String) : Except String (Nat × DBState) :=
  let st1 := if overwrite then deleteReportCascade st name else st
  match insert_coverage_tx st1 name source_format source_file files now with
  | .error e => .error e
  | .ok (rid, st2) => .ok (rid, if overwrite then purgeOrphans st2 else st2)

/-! ### Query helpers (`src/db.rs`) -/

/-- `needs_union`: `SELECT COUNT(*) FROM report` compared with 1. -/
def needs_union (st : DBState) : Bool := st.reports.length > 1

/-- The projection of `line_coverage` that every query reads:
`(source_file_id, line_number, hit_count)` — no query reads `report_id`. -/
def lineView (st : DBState) : List (Nat × Nat × Nat) :=
  st.lineCov.map fun l => (l.source_file_id, l.line_number, l.hit_count)

/-- The projection of `branch_coverage` the queries read. -/
def branchView (st : DBState) : List (Nat × Nat × Nat × Nat) :=
  st.branchCov.map fun b => (b.source_file_id, b.line_number, b.branch_index, b.hit_count)

/-- The projection of `function_coverage` the queries read. -/
def funcView (st : DBState) : List (Nat × String × Option Nat × Option Nat × Nat) :=
  st.funcCov.map fun f => (f.source_file_id, f.name, f.start_line, f.end_line, f.hit_count)

/-- Distinct keys in first-appearance order (`SELECT DISTINCT` / the distinct
group keys of a `GROUP BY`). -/
def firstSeen {κ : Type} [DecidableEq κ] (ks : List κ) : List κ :=
  ks.foldl (fun acc k => if k ∈ acc then acc else acc ++ [k]) []

/-- `MAX(hit_count)` over the line rows of one `(source_file_id, line_number)`
group (SQL `MAX` of a non-empty group of naturals). -/
def maxHitLine (lv : List (Nat × Nat × Nat)) (f ln : Nat) : Nat :=
  lv.foldl (fun m r => if r.1 = f ∧ r.2.1 = ln then max m r.2.2 else m) 0

/-- `union_source(union, UnionKind::LinePerFile)`: the grouped
`(source_file_id, line_number, MAX(hit_count))` subquery when `union`,
the raw table otherwise. -/
def linePerFileSrc (union : Bool) (lv : List (Nat × Nat × Nat)) :
    List (Nat × Nat × Nat) :=
  if union then
    (firstSeen (lv.map fun r => (r.1, r.2.1))).map fun k => (k.1, k.2, maxHitLine lv k.1 k.2)
  else lv

/-- `MAX(hit_count)` over one `(source_file_id, line_number, branch_index)`
branch group. -/
def maxHitBranch (bv : List (Nat × Nat × Nat × Nat)) (k : Nat × Nat × Nat) : Nat :=
  bv.foldl (fun m r => if r.1 = k.1 ∧ r.2.1 = k.2.1 ∧ r.2.2.1 = k.2.2 then max m r.2.2.2 else m) 0

/-- `union_source(union, UnionKind::BranchPerFile)`. -/
def branchPerFileSrc (union : Bool) (bv : List (Nat × Nat × Nat × Nat)) :
    List (Nat × Nat × Nat × Nat) :=
  if union then
    (firstSeen (bv.map fun r => (r.1, r.2.1, r.2.2.1))).map fun k =>
      (k.1, k.2.1, k.2.2, maxHitBranch bv k)
  else bv

/-- `MAX(hit_count)` over one `(source_file_id, name, COALESCE(start_line, -1))`
function group. -/
def maxHitFunc (fv : List (Nat × String × Option Nat × Option Nat × Nat))
    (k : Nat × String × Option Nat) : Nat :=
  fv.foldl (fun m r => if r.1 = k.1 ∧ r.2.1 = k.2.1 ∧ r.2.2.1 = k.2.2 then max m r.2.2.2.2 else m) 0

/-- `union_source(union, UnionKind::Function)`: grouped `(…, MAX(hit_count))`
when `union`, the raw table otherwise (projected to key and hit count). -/
def funcSrc (union : Bool) (fv : List (Nat × String × Option Nat × Option Nat × Nat)) :
    List ((Nat × String × Option Nat) × Nat) :=
  if union then
    (firstSeen (fv.map fun r => (r.1, r.2.1, r.2.2.1))).map fun k => (k, maxHitFunc fv k)
  else fv.map fun r => ((r.1, r.2.1, r.2.2.1), r.2.2.2.2)

/-- `LineDetail` from `src/model.rs`. -/
structure LineDetail where
  line_number : Nat
  hit_count : Nat
deriving DecidableEq

/-- `ReportSummary` from `src/model.rs`. -/
structure ReportSummary where
  total_files : Nat
  total_lines : Nat
  covered_lines : Nat
  total_branches : Nat
  covered_branches : Nat
  total_functions : Nat
  covered_functions : Nat
deriving DecidableEq

/-- `FileSummary` from `src/model.rs`. -/
structure FileSummary where
  path : String
  total_lines : Nat
  covered_lines : Nat
  total_branches : Nat
  covered_branches : Nat
deriving DecidableEq

/-- `FileDiffCoverage` from `src/model.rs`. -/
structure FileDiffCoverage where
  path : String
  covered_lines : List Nat
  missed_lines : List Nat
deriving DecidableEq

/-- Byte-order comparison of strings (SQLite's default TEXT collation orders
by code-point sequence), used for the `ORDER BY` clauses on paths. -/
def chLe : List Char → List Char → Bool
  | [], _ => true
  | _ :: _, [] => false
  | a :: as, b :: bs =>
    if a.toNat = b.toNat then chLe as bs
    else decide (a.toNat < b.toNat)

def strLeB (a b : String) : Bool := chLe a.data b.data

/-- `get_lines` from `src/db.rs` lines 598-632: resolve the source-file id by
path (error when absent); with more than one report, `SELECT line_number,
MAX(hit_count) … GROUP BY line_number ORDER BY line_number`; otherwise read
the raw rows `ORDER BY line_number`. -/
def get_lines (st : DBState) (source_path : String) : Except String (List LineDetail) :=
  match st.sourceFiles.find? fun sf => sf.path = source_path with
  | none => .error ("Source file not found: " ++ source_path)
  | some sf =>
    let rows := (lineView st).filter fun r => r.1 = sf.id
    if needs_union st then
      .ok ((sortByLe (fun a b : Nat => a ≤ b) (firstSeen (rows.map (·.2.1)))).map
        fun ln => ⟨ln, maxHitLine rows sf.id ln⟩)
    else
      .ok ((sortByLe (fun a b => a.2.1 ≤ b.2.1) rows).map fun r => ⟨r.2.1, r.2.2⟩)

/-- The per-chunk query of `diff_coverage` (`src/db.rs` lines 416-427), over
the whole line set (chunks partition `lns`, and grouping keys never span
chunks): `SELECT line_number, MAX(hit_count) … WHERE source_file_id = ? AND
line_number IN (…) GROUP BY line_number` under union, the raw rows otherwise. -/
def diffQueryRows (st : DBState) (fid : Nat) (lns : List Nat) : List (Nat × Nat) :=
  let rows := (lineView st).filter fun r => r.1 = fid ∧ r.2.1 ∈ lns
  if needs_union st then
    (firstSeen (rows.map (·.2.1))).map fun ln => (ln, maxHitLine rows fid ln)
  else
    rows.map fun r => (r.2.1, r.2.2)

/-- `diff_coverage` from `src/db.rs` lines 385-473: per diff file, resolve the
source-file id (skip unknown paths and empty line lists), partition the
queried rows into covered (`hit_count > 0`) and missed, sort both, accumulate
totals, and finally sort the per-file results by path. -/
def diff_coverage (st : DBState) (diff_lines : List (String × List Nat)) :
    List FileDiffCoverage × Nat × Nat :=
  let step := fun (acc : List FileDiffCoverage × Nat × Nat) (pr : String × List Nat) =>
    match st.sourceFiles.find? fun sf => sf.path = pr.1 with
    | none => acc
    | some sf =>
      if pr.2.isEmpty then acc
      else
        let rows := diffQueryRows st sf.id pr.2
        let covered := sortByLe (fun a b : Nat => a ≤ b)
          ((rows.filter fun r => r.2 > 0).map (·.1))
        let missed := sortByLe (fun a b : Nat => a ≤ b)
          ((rows.filter fun r => ¬ r.2 > 0).map (·.1))
        if covered.isEmpty ∧ missed.isEmpty then acc
        else
          (acc.1 ++ [⟨pr.1, covered, missed⟩],
            acc.2.1 + covered.length,
            acc.2.2 + covered.length + missed.length)
  let r := diff_lines.foldl step ([], 0, 0)
  (sortByLe (fun a b => strLeB a.path b.path) r.1, r.2)

/-- `rate` from `src/model.rs` (over exact rationals instead of `f64`). -/
def rate (covered total : Nat) : ℚ :=
  if total = 0 then 0 else (covered : ℚ) / (total : ℚ)

/-- `get_summary` from `src/db.rs` lines 477-530: fail on zero reports, else
aggregate `COUNT(DISTINCT source_file_id)`, `COUNT(*)` and
`SUM(CASE WHEN hit_count > 0 THEN 1 ELSE 0 END)` over the (possibly grouped)
line, branch and function sources. -/
def get_summary (st : DBState) : Except String ReportSummary :=
  if st.reports.length = 0 then
    .error "No reports in database."
  else
    let union := needs_union st
    let lrows := linePerFileSrc union (lineView st)
    let brows := branchPerFileSrc union (branchView st)
    let frows := funcSrc union (funcView st)
    .ok
      { total_files := (firstSeen (lrows.map (·.1))).length,
        total_lines := lrows.length,
        covered_lines := (lrows.filter fun r => r.2.2 > 0).length,
        total_branches := brows.length,
        covered_branches := (brows.filter fun r => r.2.2.2 > 0).length,
        total_functions := frows.length,
        covered_functions := (frows.filter fun r => r.2 > 0).length }

/-- `get_file_summaries` from `src/db.rs` lines 533-570: join the line source
with `source_file`, group by path (paths are UNIQUE, so a path group is one
source-file id), left-join the per-file branch aggregates, `ORDER BY path`. -/
def get_file_summaries (st : DBState) : List FileSummary :=
  let lrows := linePerFileSrc (needs_union st) (lineView st)
  let brows := branchPerFileSrc (needs_union st) (branchView st)
  let withLines := st.sourceFiles.filter fun sf => lrows.any fun r => r.1 = sf.id
  (sortByLe (fun a b => strLeB a.path b.path) withLines).map fun sf =>
    let rs := lrows.filter fun r => r.1 = sf.id
    let bs := brows.filter fun r => r.1 = sf.id
    { path := sf.path,
      total_lines := rs.length,
      covered_lines := (rs.filter fun r => r.2.2 > 0).length,
      total_branches := bs.length,
      covered_branches := (bs.filter fun r => r.2.2.2 > 0).length }

/-- `get_file_line_rate` from `src/db.rs` lines 575-595: `SELECT COUNT(*),
SUM(CASE WHEN hit_count > 0 THEN 1 ELSE 0 END) FROM {line_src} JOIN
source_file ON … WHERE path = ?1`. SQL `SUM` over zero rows is NULL (there is
no COALESCE here), and rusqlite's `row.get::<u64>` of a NULL column fails with
`InvalidColumnType`; the `total == 0 → None` branch below is therefore
unreachable. -/
def get_file_line_rate (st : DBState) (path : String) : Except String (Option ℚ) :=
  let src := linePerFileSrc (needs_union st) (lineView st)
  let rows := src.filter fun r =>
    st.sourceFiles.any fun sf => sf.id = r.1 ∧ sf.path = path
  let total := rows.length
  let covered : Option Nat :=
    if rows.isEmpty then none else some (rows.filter fun r => r.2.2 > 0).length
  match covered with
  | none => .error "InvalidColumnType: NULL SUM read as u64"
  | some c => if total = 0 then .ok none else .ok (some (rate c total))

/-- The well-formedness invariant maintained by the store (spec, section 3):
all surrogate ids are below their counters, every coverage row's ids are below
the counters, and `source_file` paths are UNIQUE. -/
def DBWF (st : DBState) : Prop :=
  (∀ r ∈ st.reports, r.id < st.nextReportId)
  ∧ (∀ l ∈ st.lineCov, l.report_id < st.nextReportId)
  ∧ (∀ b ∈ st.branchCov, b.report_id < st.nextReportId)
  ∧ (∀ f ∈ st.funcCov, f.report_id < st.nextReportId)
  ∧ (∀ sf ∈ st.sourceFiles, sf.id < st.nextFileId)
  ∧ (∀ l ∈ st.lineCov, l.source_file_id < st.nextFileId)
  ∧ (∀ b ∈ st.branchCov, b.source_file_id < st.nextFileId)
  ∧ (∀ f ∈ st.funcCov, f.source_file_id < st.nextFileId)
  ∧ (st.sourceFiles.map SourceFileRow.path).Nodup

instance (st : DBState) : Decidable (DBWF st) := by
  unfold DBWF
  infer_instance

/-- Renaming one report id (the only observable difference between re-ingesting
the same payload and the original ingest). -/
def retagLine (r1 r2 : Nat) (l : LineRow) : LineRow :=
  if l.report_id = r1 then { l with report_id := r2 } else l

def retagBranch (r1 r2 : Nat) (b : BranchRow) : BranchRow :=
  if b.report_id = r1 then { b with report_id := r2 } else b

def retagFunc (r1 r2 : Nat) (f : FuncRow) : FuncRow :=
  if f.report_id = r1 then { f with report_id := r2 } else f

/-- The orphan-purge keep predicate of `insert_coverage_streaming`, over the
ingest accumulator's coverage tables. -/
def keepB (a : IngestAcc) (sf : SourceFileRow) : Bool :=
  a.lineCov.any (fun l => l.source_file_id = sf.id)
  || a.branchCov.any (fun b => b.source_file_id = sf.id)
  || a.funcCov.any (fun f => f.source_file_id = sf.id)

/-- Some coverage row of the accumulator references source-file id `f`. -/
def refAcc (a : IngestAcc) (f : Nat) : Prop :=
  (∃ l ∈ a.lineCov, l.source_file_id = f)
  ∨ (∃ b ∈ a.branchCov, b.source_file_id = f)
  ∨ (∃ x ∈ a.funcCov, x.source_file_id = f)

/-- Well-formedness threaded along an ingest under report id `r1`: every row's
report id is `r1` or older, all source-file ids (and the ids rows reference)
are below the id counter, and paths stay unique. -/
def Run1WF (r1 : Nat) (a : IngestAcc) : Prop :=
  (∀ l ∈ a.lineCov, l.report_id = r1 ∨ l.report_id < r1)
  ∧ (∀ b ∈ a.branchCov, b.report_id = r1 ∨ b.report_id < r1)
  ∧ (∀ f ∈ a.funcCov, f.report_id = r1 ∨ f.report_id < r1)
  ∧ (∀ sf ∈ a.sourceFiles, sf.id < a.nextFileId)
  ∧ (∀ l ∈ a.lineCov, l.source_file_id < a.nextFileId)
  ∧ (∀ b ∈ a.branchCov, b.source_file_id < a.nextFileId)
  ∧ (∀ f ∈ a.funcCov, f.source_file_id < a.nextFileId)
  ∧ (a.sourceFiles.map SourceFileRow.path).Nodup

/-- The frame invariant threaded through the per-file ingest fold: the
original tables are a prefix, everything added belongs to the fresh report,
fresh source files get ids at or above the original counter and new paths. -/
def FrameInv (st : DBState) (rid : Nat) (acc : IngestAcc) : Prop :=
  (∃ a, acc.sourceFiles = st.sourceFiles ++ a
      ∧ ∀ sf ∈ a, st.nextFileId ≤ sf.id
        ∧ sf.path ∉ st.sourceFiles.map SourceFileRow.path)
  ∧ st.nextFileId ≤ acc.nextFileId
  ∧ (∃ a, acc.lineCov = st.lineCov ++ a ∧ ∀ l ∈ a, l.report_id = rid)
  ∧ (∃ a, acc.branchCov = st.branchCov ++ a ∧ ∀ b ∈ a, b.report_id = rid)
  ∧ (∃ a, acc.funcCov = st.funcCov ++ a ∧ ∀ f ∈ a, f.report_id = rid)


/-! ## Theorems -/

/-! ### Binary search correctness (for sorted instrumentable-line lists) -/

theorem binarySearchGo_sound (xs : List Nat) (t : Nat) :
    ∀ fuel lo hi, hi ≤ xs.length → binarySearchGo xs t lo hi fuel = true → t ∈ xs := by
  intro fuel
  induction fuel with
  | zero => intro lo hi _ h; simp [binarySearchGo] at h
  | succ n ih =>
    intro lo hi hhi h
    rw [binarySearchGo] at h
    by_cases hlt : lo < hi
    · rw [if_pos hlt] at h
      have hmid : (lo + hi) / 2 < xs.length := by omega
      have hget : xs.getD ((lo + hi) / 2) 0 = xs[(lo + hi) / 2] := by
        rw [List.getD_eq_getElem?_getD, List.getElem?_eq_getElem hmid, Option.getD_some]
      by_cases he : xs.getD ((lo + hi) / 2) 0 = t
      · rw [← he, hget]; exact List.getElem_mem hmid
      · rw [if_neg he] at h
        by_cases hv : xs.getD ((lo + hi) / 2) 0 < t
        · rw [if_pos hv] at h; exact ih _ _ hhi h
        · rw [if_neg hv] at h; exact ih _ _ (by omega) h
    · rw [if_neg hlt] at h; exact absurd h (by simp)

theorem binarySearchGo_complete (xs : List Nat) (t : Nat)
    (hsorted : xs.Pairwise (· < ·)) :
    ∀ fuel lo hi i, (hi' : i < xs.length) → lo ≤ i → i < hi → hi ≤ xs.length →
      hi - lo ≤ fuel → xs[i] = t → binarySearchGo xs t lo hi fuel = true := by
  have hmono : ∀ (i j : Nat) (hi2 : i < xs.length) (hj : j < xs.length),
      i < j → xs[i] < xs[j] := by
    intro i j hi2 hj hij
    simpa [List.get_eq_getElem] using
      List.pairwise_iff_get.mp hsorted ⟨i, hi2⟩ ⟨j, hj⟩ hij
  intro fuel
  induction fuel with
  | zero => intro lo hi i _ h1 h2 _ h4 _; omega
  | succ n ih =>
    intro lo hi i hilen h1 h2 hhi hfuel hit
    have hlt : lo < hi := by omega
    rw [binarySearchGo, if_pos hlt]
    have hmidlt : (lo + hi) / 2 < xs.length := by omega
    have hget : xs.getD ((lo + hi) / 2) 0 = xs[(lo + hi) / 2] := by
      rw [List.getD_eq_getElem?_getD, List.getElem?_eq_getElem hmidlt, Option.getD_some]
    by_cases he : xs.getD ((lo + hi) / 2) 0 = t
    · rw [if_pos he]
    · rw [if_neg he]
      by_cases hv : xs.getD ((lo + hi) / 2) 0 < t
      · rw [if_pos hv]
        -- the target sits strictly right of mid
        have hmi : (lo + hi) / 2 < i := by
          rcases Nat.lt_trichotomy i ((lo + hi) / 2) with h' | h' | h'
          · have hlt2 := hmono i ((lo + hi) / 2) hilen hmidlt h'
            rw [hit] at hlt2
            rw [hget] at hv
            omega
          · subst h'
            rw [hget, hit] at he
            exact absurd rfl he
          · exact h'
        exact ih _ _ i hilen (by omega) h2 hhi (by omega) hit
      · rw [if_neg hv]
        -- the target sits strictly left of mid
        have hmi : i < (lo + hi) / 2 := by
          rcases Nat.lt_trichotomy i ((lo + hi) / 2) with h' | h' | h'
          · exact h'
          · subst h'
            rw [hget, hit] at he
            exact absurd rfl he
          · have hlt2 := hmono ((lo + hi) / 2) i hmidlt hilen h'
            rw [hit] at hlt2
            rw [hget] at hv
            omega
        exact ih _ _ i hilen h1 hmi (by omega) (by omega) hit

/-- On a sorted list, `binary_search` finds exactly the members. -/
theorem binarySearch_iff_mem (xs : List Nat) (t : Nat)
    (hsorted : xs.Pairwise (· < ·)) : binarySearch xs t = true ↔ t ∈ xs := by
  constructor
  · exact binarySearchGo_sound xs t xs.length 0 xs.length le_rfl
  · intro hmem
    obtain ⟨i, hi, hit⟩ := List.mem_iff_getElem.mp hmem
    exact binarySearchGo_complete xs t hsorted xs.length 0 xs.length i hi
      (Nat.zero_le i) hi le_rfl (by omega) hit

theorem binarySearch_eq_false_iff (xs : List Nat) (t : Nat)
    (hsorted : xs.Pairwise (· < ·)) : binarySearch xs t = false ↔ t ∉ xs := by
  rw [Bool.eq_false_iff, Ne, binarySearch_iff_mem xs t hsorted]

/-- With a sorted instrumentable list, the implementation loop agrees with the
specification loop for every open range and remaining input. -/
theorem coalesceGo_eq_spec (inst : List Nat) (hinst : inst.Pairwise (· < ·)) :
    ∀ (rest : List Nat) (start e : Nat),
      coalesceGo inst start e rest = coalesceSpecGo inst start e rest := by
  intro rest
  induction rest with
  | nil => intro start e; rfl
  | cons line rest ih =>
    intro start e
    simp only [coalesceGo, coalesceSpecGo]
    have hcond : (decide (line - e - 1 ≤ MAX_BRIDGE_GAP) &&
        (gapLines e line).all (fun l => !binarySearch inst l)) = true ↔
        (line - e - 1 ≤ MAX_BRIDGE_GAP ∧ ∀ l ∈ gapLines e line, l ∉ inst) := by
      simp only [Bool.and_eq_true, decide_eq_true_eq, List.all_eq_true, Bool.not_eq_true',
        binarySearch_eq_false_iff inst _ hinst]
    by_cases h : line - e - 1 ≤ MAX_BRIDGE_GAP ∧ ∀ l ∈ gapLines e line, l ∉ inst
    · rw [if_pos (hcond.mpr h), if_pos h, ih]
    · rw [if_neg (fun hc => h (hcond.mp hc)), if_neg h, ih]

/-! ### Structural invariants of the coalescer loop -/

/-- The first emitted range always starts at the `start` of the open range. -/
theorem coalesceGo_head (inst : List Nat) :
    ∀ (rest : List Nat) (start e : Nat),
      (coalesceGo inst start e rest).head?.map Prod.fst = some start := by
  intro rest
  induction rest with
  | nil => intro start e; rfl
  | cons line rest ih =>
    intro start e
    simp only [coalesceGo]
    split
    · exact ih start line
    · rfl

/-- Every endpoint of every emitted range is drawn from the lines fed into
the loop. -/
theorem coalesceGo_mem (inst L : List Nat) :
    ∀ (rest : List Nat) (start e : Nat), start ∈ L → e ∈ L → (∀ x ∈ rest, x ∈ L) →
      ∀ p ∈ coalesceGo inst start e rest, p.1 ∈ L ∧ p.2 ∈ L := by
  intro rest
  induction rest with
  | nil =>
    intro start e hs he _ p hp
    simp only [coalesceGo, List.mem_singleton] at hp
    subst hp; exact ⟨hs, he⟩
  | cons line rest ih =>
    intro start e hs he hrest p hp
    have hline : line ∈ L := hrest line (List.mem_cons_self _ _)
    have hrest' : ∀ x ∈ rest, x ∈ L := fun x hx => hrest x (List.mem_cons_of_mem _ hx)
    simp only [coalesceGo] at hp
    split at hp
    · exact ih start line hs hline hrest' p hp
    · rcases List.mem_cons.mp hp with h | h
      · subst h; exact ⟨hs, he⟩
      · exact ih line line hline hline hrest' p h

/-- With sorted input, every emitted range satisfies `start ≤ end` and the
ranges are strictly increasing and pairwise disjoint. -/
theorem coalesceGo_le_chain (inst : List Nat) :
    ∀ (rest : List Nat) (start e : Nat), List.Chain (· < ·) e rest → start ≤ e →
      (∀ p ∈ coalesceGo inst start e rest, p.1 ≤ p.2)
        ∧ List.Chain' (fun a b => a.2 < b.1) (coalesceGo inst start e rest) := by
  intro rest
  induction rest with
  | nil =>
    intro start e _ hse
    refine ⟨?_, ?_⟩
    · intro p hp
      simp only [coalesceGo, List.mem_singleton] at hp
      subst hp; exact hse
    · exact List.chain'_singleton _
  | cons line rest ih =>
    intro start e hchain hse
    rcases List.chain_cons.mp hchain with ⟨hel, hch⟩
    constructor
    · intro p hp
      simp only [coalesceGo] at hp
      split at hp
      · exact (ih start line hch (by omega)).1 p hp
      · rcases List.mem_cons.mp hp with h | h
        · subst h; exact hse
        · exact (ih line line hch le_rfl).1 p h
    · simp only [coalesceGo]
      split
      · exact (ih start line hch (by omega)).2
      · rw [List.chain'_cons']
        refine ⟨fun b hb => ?_, (ih line line hch le_rfl).2⟩
        have hhead := coalesceGo_head inst rest line line
        have : b.1 = line := by
          cases hh : (coalesceGo inst line line rest).head? with
          | none => rw [hh] at hb; simp at hb
          | some q =>
            rw [hh] at hb hhead
            simp only [Option.map_some', Option.some.injEq] at hhead
            simp only [Option.mem_def, Option.some.injEq] at hb
            rw [← hb]
            exact hhead
        simpa [this] using hel

/-! ### Claim theorems for the range coalescer -/

/-- **C2** (range coalescer rule): for sorted, deduplicated missed lines and a
sorted instrumentable-line list, `coalesce_ranges` follows exactly the
specification's rule — start at `lines[0]`, extend to the next line `L` iff
`L - end - 1 ≤ 2` and every integer strictly between `end` and `L` is absent
from the instrumentable set, otherwise close and restart, flushing at the
end — and on the two concrete examples it yields `[(1,5)]` resp.
`[(1,2),(4,5)]`. -/
theorem c2_range_coalescer (lines inst : List Nat)
    (hlines : List.Pairwise (· < ·) lines) (hinst : List.Pairwise (· < ·) inst) :
    coalesce_ranges lines inst = coalesceRangesSpec lines inst
    ∧ coalesce_ranges [1, 2, 4, 5] [1, 2, 4, 5] = [(1, 5)]
    ∧ coalesce_ranges [1, 2, 4, 5] [1, 2, 3, 4, 5] = [(1, 2), (4, 5)] := by
  refine ⟨?_, by decide, by decide⟩
  cases lines with
  | nil => rfl
  | cons l0 rest => exact coalesceGo_eq_spec inst hinst rest l0 l0

/-- Witness for C2 at concrete sorted inputs. -/
theorem c2_range_coalescer_witness :
    coalesce_ranges [1, 2, 4, 5] [1, 2, 4, 5] = coalesceRangesSpec [1, 2, 4, 5] [1, 2, 4, 5]
    ∧ coalesce_ranges [1, 2, 4, 5] [1, 2, 4, 5] = [(1, 5)]
    ∧ coalesce_ranges [1, 2, 4, 5] [1, 2, 3, 4, 5] = [(1, 2), (4, 5)] :=
  c2_range_coalescer [1, 2, 4, 5] [1, 2, 4, 5] (by decide) (by decide)

/-- **C9** (implicit coalescer output invariant): on a non-empty sorted
deduplicated input, every returned range `(start, end)` has `start ≤ end`
with both endpoints drawn from the input list, the ranges are strictly
increasing and pairwise disjoint, and the first range starts at the first
input line. -/
theorem c9_coalescer_invariants (lines inst : List Nat)
    (hne : lines ≠ []) (hsorted : List.Pairwise (· < ·) lines) :
    (∀ p ∈ coalesce_ranges lines inst, p.1 ≤ p.2 ∧ p.1 ∈ lines ∧ p.2 ∈ lines)
    ∧ List.Chain' (fun a b => a.2 < b.1) (coalesce_ranges lines inst)
    ∧ (coalesce_ranges lines inst).head?.map Prod.fst = lines.head? := by
  cases lines with
  | nil => exact absurd rfl hne
  | cons l0 rest =>
    have hchain : List.Chain (· < ·) l0 rest := List.chain_iff_pairwise.mpr hsorted
    have hmem := coalesceGo_mem inst (l0 :: rest) rest l0 l0
      (List.mem_cons_self _ _) (List.mem_cons_self _ _)
      (fun x hx => List.mem_cons_of_mem _ hx)
    have hlech := coalesceGo_le_chain inst rest l0 l0 hchain le_rfl
    refine ⟨fun p hp => ⟨hlech.1 p hp, (hmem p hp).1, (hmem p hp).2⟩, hlech.2, ?_⟩
    exact coalesceGo_head inst rest l0 l0

/-- Witness for C9 at a concrete sorted input. -/
theorem c9_coalescer_invariants_witness :
    (∀ p ∈ coalesce_ranges [1, 2, 4, 5] [1, 2, 3, 4, 5],
        p.1 ≤ p.2 ∧ p.1 ∈ [1, 2, 4, 5] ∧ p.2 ∈ [1, 2, 4, 5])
    ∧ List.Chain' (fun a b => a.2 < b.1) (coalesce_ranges [1, 2, 4, 5] [1, 2, 3, 4, 5])
    ∧ (coalesce_ranges [1, 2, 4, 5] [1, 2, 3, 4, 5]).head?.map Prod.fst
        = ([1, 2, 4, 5] : List Nat).head? :=
  c9_coalescer_invariants [1, 2, 4, 5] [1, 2, 3, 4, 5] (by decide) (by decide)

/-! ### Structured-diff bookkeeping lemmas (for C3) -/

@[simp] theorem bodyNewLines_nil : bodyNewLines [] = [] := rfl

@[simp] theorem bodyNewLines_ctx (s : Line) (r : List BodyLine) :
    bodyNewLines (.ctx s :: r) = s :: bodyNewLines r := by
  simp [bodyNewLines, List.filterMap_cons]

@[simp] theorem bodyNewLines_add (s : Line) (r : List BodyLine) :
    bodyNewLines (.add s :: r) = s :: bodyNewLines r := by
  simp [bodyNewLines, List.filterMap_cons]

@[simp] theorem bodyNewLines_del (s : Line) (r : List BodyLine) :
    bodyNewLines (.del s :: r) = bodyNewLines r := by
  simp [bodyNewLines, List.filterMap_cons]

@[simp] theorem bodyNewLines_mark (r : List BodyLine) :
    bodyNewLines (.noNewlineMark :: r) = bodyNewLines r := by
  simp [bodyNewLines, List.filterMap_cons]

@[simp] theorem bodyOldLines_nil : bodyOldLines [] = [] := rfl

@[simp] theorem bodyOldLines_ctx (s : Line) (r : List BodyLine) :
    bodyOldLines (.ctx s :: r) = s :: bodyOldLines r := by
  simp [bodyOldLines, List.filterMap_cons]

@[simp] theorem bodyOldLines_add (s : Line) (r : List BodyLine) :
    bodyOldLines (.add s :: r) = bodyOldLines r := by
  simp [bodyOldLines, List.filterMap_cons]

@[simp] theorem bodyOldLines_del (s : Line) (r : List BodyLine) :
    bodyOldLines (.del s :: r) = s :: bodyOldLines r := by
  simp [bodyOldLines, List.filterMap_cons]

@[simp] theorem bodyOldLines_mark (r : List BodyLine) :
    bodyOldLines (.noNewlineMark :: r) = bodyOldLines r := by
  simp [bodyOldLines, List.filterMap_cons]

/-- Every added line recorded by `hunkAddedGo n body` carries a number in
`[n, n + newLen)` and is found at that offset of the hunk's new lines. -/
theorem hunkAddedGo_spec :
    ∀ (body : List BodyLine) (n : Nat) (p : Nat × Line), p ∈ hunkAddedGo n body →
      n ≤ p.1 ∧ p.1 < n + (bodyNewLines body).length ∧
        (bodyNewLines body)[p.1 - n]? = some p.2 := by
  intro body
  induction body with
  | nil => intro n p hp; simp [hunkAddedGo] at hp
  | cons b r ih =>
    intro n p hp
    cases b with
    | ctx s =>
      rw [hunkAddedGo] at hp
      obtain ⟨h1, h2, h3⟩ := ih (n + 1) p hp
      refine ⟨by omega, by simp; omega, ?_⟩
      have heq : p.1 - n = (p.1 - (n + 1)) + 1 := by omega
      simp only [bodyNewLines_ctx, heq, List.getElem?_cons_succ]
      exact h3
    | add s =>
      rw [hunkAddedGo] at hp
      rcases List.mem_cons.mp hp with h | h
      · subst h
        exact ⟨le_rfl, by simp, by simp⟩
      · obtain ⟨h1, h2, h3⟩ := ih (n + 1) p h
        refine ⟨by omega, by simp; omega, ?_⟩
        have heq : p.1 - n = (p.1 - (n + 1)) + 1 := by omega
        simp only [bodyNewLines_add, heq, List.getElem?_cons_succ]
        exact h3
    | del s =>
      rw [hunkAddedGo] at hp
      obtain ⟨h1, h2, h3⟩ := ih n p hp
      exact ⟨h1, by simp; omega, by simpa using h3⟩
    | noNewlineMark =>
      rw [hunkAddedGo] at hp
      obtain ⟨h1, h2, h3⟩ := ih n p hp
      exact ⟨h1, by simp; omega, by simpa using h3⟩

/-- The numbers recorded for one hunk strictly increase. -/
theorem hunkAddedGo_sorted :
    ∀ (body : List BodyLine) (n : Nat),
      List.Pairwise (· < ·) ((hunkAddedGo n body).map Prod.fst) := by
  intro body
  induction body with
  | nil => intro n; simp [hunkAddedGo]
  | cons b r ih =>
    intro n
    cases b with
    | ctx s => rw [hunkAddedGo]; exact ih (n + 1)
    | add s =>
      rw [hunkAddedGo]
      simp only [List.map_cons, List.pairwise_cons]
      refine ⟨fun q hq => ?_, ih (n + 1)⟩
      obtain ⟨p, hp, hpq⟩ := List.mem_map.mp hq
      have := (hunkAddedGo_spec r (n + 1) p hp).1
      omega
    | del s => rw [hunkAddedGo]; exact ih n
    | noNewlineMark => rw [hunkAddedGo]; exact ih n


/-! ### Hunk-list lemmas: ordering and patch application (for C3) -/

theorem hunksAdded_lb :
    ∀ (hs : List Hunk) (pos newPos : Nat), hunksPos pos newPos hs →
      ∀ p ∈ (hs.map hunkAdded).flatten, newPos ≤ p.1 := by
  intro hs
  induction hs with
  | nil => intro pos newPos _ p hp; simp at hp
  | cons h rest ih =>
    intro pos newPos hw p hp
    obtain ⟨hpa, hpos1, heq, hrec⟩ := hw
    simp only [List.map_cons, List.flatten_cons, List.mem_append] at hp
    rcases hp with hp | hp
    · obtain ⟨h1, h2, _⟩ := hunkAddedGo_spec h.body h.newStart p hp
      have hlen : 0 < hunkNewLen h := by
        simp only [hunkNewLen]
        omega
      have := heq hlen
      omega
    · have := ih _ _ hrec p hp
      omega

theorem hunksAdded_sorted :
    ∀ (hs : List Hunk) (pos newPos : Nat), hunksPos pos newPos hs →
      List.Pairwise (· < ·) (((hs.map hunkAdded).flatten).map Prod.fst) := by
  intro hs
  induction hs with
  | nil => intro pos newPos _; simp
  | cons h rest ih =>
    intro pos newPos hw
    obtain ⟨hpa, hpos1, heq, hrec⟩ := hw
    simp only [List.map_cons, List.flatten_cons, List.map_append]
    rw [List.pairwise_append]
    refine ⟨hunkAddedGo_sorted h.body h.newStart, ih _ _ hrec, ?_⟩
    intro a ha b hb
    obtain ⟨p, hp, hpa'⟩ := List.mem_map.mp ha
    obtain ⟨q, hq, hqb⟩ := List.mem_map.mp hb
    obtain ⟨h1, h2, _⟩ := hunkAddedGo_spec h.body h.newStart p hp
    have hlen : 0 < hunkNewLen h := by simp only [hunkNewLen]; omega
    have hst := heq hlen
    have hqlb := hunksAdded_lb rest _ _ hrec q hq
    subst hpa' hqb
    simp only [hunkNewLen] at hlen h2 hqlb ⊢
    omega

theorem applyGo_added :
    ∀ (hs : List Hunk) (pos newPos : Nat) (orig : List Line),
      hunksPos pos newPos hs → hunksMatch orig hs →
      ∀ p ∈ (hs.map hunkAdded).flatten,
        (applyGo orig pos hs)[p.1 - newPos]? = some p.2 := by
  intro hs
  induction hs with
  | nil => intro pos newPos orig _ _ p hp; simp at hp
  | cons h rest ih =>
    intro pos newPos orig hw hm p hp
    obtain ⟨hpa, hpos1, heq, hrec⟩ := hw
    obtain ⟨hb1, hb2, hmrec⟩ := hm
    have hseg : ((orig.drop (pos - 1)).take (hunkAStart h - pos)).length
        = hunkAStart h - pos := by
      simp only [List.length_take, List.length_drop]
      omega
    simp only [List.map_cons, List.flatten_cons, List.mem_append] at hp
    rw [applyGo]
    rcases hp with hp | hp
    · obtain ⟨h1, h2, h3⟩ := hunkAddedGo_spec h.body h.newStart p hp
      have hlen : 0 < hunkNewLen h := by simp only [hunkNewLen]; omega
      have hst := heq hlen
      rw [List.append_assoc, List.getElem?_append_right (by omega),
        List.getElem?_append_left (by simp only [hunkNewLines, hunkNewLen] at *; omega)]
      rw [hseg]
      have hidx : p.1 - newPos - (hunkAStart h - pos) = p.1 - h.newStart := by omega
      rw [hidx]
      exact h3
    · have hqlb := hunksAdded_lb rest _ _ hrec p hp
      have hrecr := ih _ _ orig hrec hmrec p hp
      rw [List.append_assoc, List.getElem?_append_right (by omega),
        List.getElem?_append_right (by simp only [hunkNewLines, hunkNewLen] at *; omega)]
      rw [hseg]
      have hidx : p.1 - newPos - (hunkAStart h - pos) - (hunkNewLines h).length
          = p.1 - (newPos + (hunkAStart h - pos) + hunkNewLen h) := by
        simp only [hunkNewLines, hunkNewLen] at *
        omega
      rw [hidx]
      exact hrecr


/-! ### Parser single-step lemmas (for C3) -/

theorem parseDiffStep_ctx (st : DiffState) (file : Line) (hc : st.currentFile = some file)
    (s : Line) :
    parseDiffStep st (' ' :: s) = { st with newLineNumber := st.newLineNumber + 1 } := by
  simp [parseDiffStep, stripLeading, List.isPrefixOf, hc]

theorem parseDiffStep_del (st : DiffState) (file : Line) (hc : st.currentFile = some file)
    (s : Line) (hd : ¬ ("--".data).isPrefixOf s = true) :
    parseDiffStep st ('-' :: s) = st := by
  simp [parseDiffStep, stripLeading, List.isPrefixOf, hc, hd]

theorem parseDiffStep_add (st : DiffState) (file : Line) (hc : st.currentFile = some file)
    (s : Line) (ha : ¬ ("++".data).isPrefixOf s = true) :
    parseDiffStep st ('+' :: s) =
      { st with result := pushAdded st.result file st.newLineNumber,
                newLineNumber := st.newLineNumber + 1 } := by
  have h2 : ¬ (['+', '+', ' '] <+: s) := by
    intro hp
    exact ha (List.isPrefixOf_iff_prefix.mpr
      ((show ("++".data) <+: ['+', '+', ' '] from ⟨[' '], rfl⟩).trans hp))
  simp [parseDiffStep, stripLeading, List.isPrefixOf, hc, ha, h2]

theorem parseDiffStep_mark (st : DiffState) (file : Line) (hc : st.currentFile = some file) :
    parseDiffStep st (renderBody .noNewlineMark) = st := by
  simp [renderBody, parseDiffStep, stripLeading, List.isPrefixOf, hc]


theorem pushAll_nil (res : List (Line × List Nat)) (file : Line) :
    pushAll res file [] = res := rfl

theorem pushAll_cons (res : List (Line × List Nat)) (file : Line) (n : Nat) (ns : List Nat) :
    pushAll res file (n :: ns) = pushAll (pushAdded res file n) file ns := rfl

theorem pushAll_append (res : List (Line × List Nat)) (file : Line) (ns ms : List Nat) :
    pushAll res file (ns ++ ms) = pushAll (pushAll res file ns) file ms := by
  simp [pushAll, List.foldl_append]

/-- Folding the parser over a rendered hunk body: every added line is pushed
for the current file (with the running counter), and the counter advances by
the number of new-file lines. -/
theorem foldBody :
    ∀ (body : List BodyLine) (st : DiffState) (file : Line),
      st.currentFile = some file →
      (∀ b ∈ body,
        (∀ s, b = .add s → ¬ ("++".data).isPrefixOf s = true) ∧
        (∀ s, b = .del s → ¬ ("--".data).isPrefixOf s = true)) →
      List.foldl parseDiffStep st (body.map renderBody) =
        { result := pushAll st.result file
            ((hunkAddedGo st.newLineNumber body).map Prod.fst),
          currentFile := some file,
          newLineNumber := st.newLineNumber + (bodyNewLines body).length } := by
  intro body
  induction body with
  | nil =>
    intro st file hc _
    simp only [List.map_nil, List.foldl_nil, hunkAddedGo, List.map_nil, pushAll_nil,
      bodyNewLines_nil, List.length_nil, Nat.add_zero]
    cases st
    simp_all
  | cons b r ih =>
    intro st file hc hwf
    have hwfb := hwf b (List.mem_cons_self _ _)
    have hwfr := fun x hx => hwf x (List.mem_cons_of_mem _ hx)
    cases b with
    | ctx s =>
      simp only [List.map_cons, List.foldl_cons, renderBody]
      rw [parseDiffStep_ctx st file hc s]
      rw [ih { st with newLineNumber := st.newLineNumber + 1 } file hc hwfr]
      simp only [hunkAddedGo, bodyNewLines_ctx, List.length_cons]
      congr 1
      omega
    | add s =>
      simp only [List.map_cons, List.foldl_cons, renderBody]
      rw [parseDiffStep_add st file hc s (hwfb.1 s rfl)]
      rw [ih { st with result := pushAdded st.result file st.newLineNumber,
                       newLineNumber := st.newLineNumber + 1 } file hc hwfr]
      simp only [hunkAddedGo, bodyNewLines_add, List.length_cons, List.map_cons,
        pushAll_cons]
      congr 1
      omega
    | del s =>
      simp only [List.map_cons, List.foldl_cons, renderBody]
      rw [parseDiffStep_del st file hc s (hwfb.2 s rfl)]
      rw [ih _ file hc hwfr]
      simp only [hunkAddedGo, bodyNewLines_del]
    | noNewlineMark =>
      simp only [List.map_cons, List.foldl_cons]
      rw [parseDiffStep_mark st file hc]
      rw [ih _ file hc hwfr]
      simp only [hunkAddedGo, bodyNewLines_mark]


theorem parseDiffStep_header (st : DiffState) (h : Hunk) (hwf : hunkLineWF h) :
    parseDiffStep st h.header = { st with newLineNumber := h.newStart } := by
  obtain ⟨hpre, hparse, _⟩ := hwf
  obtain ⟨t, ht⟩ := List.isPrefixOf_iff_prefix.mp hpre
  have hshape : h.header = '@' :: '@' :: ' ' :: t := by rw [← ht]; rfl
  rw [hshape] at hparse ⊢
  have h1 : stripLeading ("+++ ".data) ('@' :: '@' :: ' ' :: t) = none := rfl
  have h2 : ("@@ ".data).isPrefixOf ('@' :: '@' :: ' ' :: t) = true := by
    simp [List.isPrefixOf]
  simp [parseDiffStep, h1, h2, hparse]

/-- Folding the parser over one rendered hunk with an open file. -/
theorem foldHunk (h : Hunk) (hwf : hunkLineWF h) (st : DiffState) (file : Line)
    (hc : st.currentFile = some file) :
    List.foldl parseDiffStep st (renderHunk h) =
      { result := pushAll st.result file ((hunkAdded h).map Prod.fst),
        currentFile := some file,
        newLineNumber := h.newStart + (bodyNewLines h.body).length } := by
  rw [renderHunk, List.foldl_cons, parseDiffStep_header st h hwf]
  rw [foldBody h.body { st with newLineNumber := h.newStart } file hc
    (fun b hb => (hwf.2.2 b hb))]
  rfl

/-- Folding the parser over all rendered hunks of a file with an open file:
all added lines get pushed, the file stays open. -/
theorem foldHunks :
    ∀ (hs : List Hunk), (∀ h ∈ hs, hunkLineWF h) →
      ∀ (st : DiffState) (file : Line), st.currentFile = some file →
      ∃ k, List.foldl parseDiffStep st ((hs.map renderHunk).flatten) =
        { result := pushAll st.result file (((hs.map hunkAdded).flatten).map Prod.fst),
          currentFile := some file,
          newLineNumber := k } := by
  intro hs
  induction hs with
  | nil =>
    intro _ st file hc
    refine ⟨st.newLineNumber, ?_⟩
    simp only [List.map_nil, List.flatten_nil, List.foldl_nil, pushAll_nil]
    cases st
    simp_all
  | cons h rest ih =>
    intro hwf st file hc
    have hwfh := hwf h (List.mem_cons_self _ _)
    have hwfr := fun x hx => hwf x (List.mem_cons_of_mem _ hx)
    simp only [List.map_cons, List.flatten_cons, List.foldl_append]
    rw [foldHunk h hwfh st file hc]
    obtain ⟨k, hk⟩ := ih hwfr
      { result := pushAll st.result file ((hunkAdded h).map Prod.fst),
        currentFile := some file,
        newLineNumber := h.newStart + (bodyNewLines h.body).length } file rfl
    refine ⟨k, ?_⟩
    rw [hk]
    simp only [List.map_append, pushAll_append]


theorem stripLeading_append (p x : Line) : stripLeading p (p ++ x) = some x := by
  have h1 : p.isPrefixOf (p ++ x) = true :=
    List.isPrefixOf_iff_prefix.mpr ⟨x, rfl⟩
  simp [stripLeading, h1]

theorem parseDiffStep_fileHeader (st : DiffState) (p : Line) :
    parseDiffStep st ("+++ ".data ++ ("b/".data ++ p)) =
      { st with currentFile := some p } := by
  have h1 : stripLeading ("+++ ".data) ('+' :: '+' :: '+' :: ' ' :: ('b' :: '/' :: p))
      = some ('b' :: '/' :: p) := stripLeading_append ("+++ ".data) ('b' :: '/' :: p)
  have h2 : stripLeading ("b/".data) ('b' :: '/' :: p) = some p :=
    stripLeading_append ("b/".data) p
  have hne : ¬ (('b' :: '/' :: p) = "/dev/null".data) := by simp
  simp [parseDiffStep, h1, h2, hne]

theorem parseDiffStep_devNull (st : DiffState) :
    parseDiffStep st ("+++ ".data ++ "/dev/null".data) =
      { st with currentFile := none } := rfl

theorem parseDiffStep_oldHeader (st : DiffState) (line : Line)
    (h : ("--- ".data).isPrefixOf line = true) :
    ∃ m, parseDiffStep st line = { st with newLineNumber := m } := by
  obtain ⟨t, ht⟩ := List.isPrefixOf_iff_prefix.mp h
  have hshape : line = '-' :: '-' :: '-' :: ' ' :: t := by rw [← ht]; rfl
  subst hshape
  have h0 : stripLeading ("+++ ".data) ('-' :: '-' :: '-' :: ' ' :: t) = none := rfl
  cases hcur : st.currentFile with
  | none =>
    refine ⟨st.newLineNumber, ?_⟩
    obtain ⟨res, cur, n⟩ := st
    dsimp only at hcur
    subst hcur
    rfl
  | some file =>
    refine ⟨st.newLineNumber + 1, ?_⟩
    simp [parseDiffStep, hcur, h0, List.isPrefixOf]

theorem parseDiffStep_body_none (st : DiffState) (hc : st.currentFile = none)
    (b : BodyLine)
    (ha : ∀ s, b = .add s → ¬ ("++".data).isPrefixOf s = true) :
    parseDiffStep st (renderBody b) = st := by
  cases b with
  | ctx s => simp [renderBody, parseDiffStep, stripLeading, List.isPrefixOf, hc]
  | add s =>
    have h2 : ¬ (['+', '+', ' '] <+: s) := by
      intro hp
      exact (ha s rfl) (List.isPrefixOf_iff_prefix.mpr
        ((show ("++".data) <+: ['+', '+', ' '] from ⟨[' '], rfl⟩).trans hp))
    simp [renderBody, parseDiffStep, stripLeading, List.isPrefixOf, hc, h2]
  | del s => simp [renderBody, parseDiffStep, stripLeading, List.isPrefixOf, hc]
  | noNewlineMark => simp [renderBody, parseDiffStep, stripLeading, List.isPrefixOf, hc]

theorem foldBody_none :
    ∀ (body : List BodyLine) (st : DiffState), st.currentFile = none →
      (∀ b ∈ body, ∀ s, b = .add s → ¬ ("++".data).isPrefixOf s = true) →
      List.foldl parseDiffStep st (body.map renderBody) = st := by
  intro body
  induction body with
  | nil => intro st _ _; rfl
  | cons b r ih =>
    intro st hc hwf
    simp only [List.map_cons, List.foldl_cons]
    rw [parseDiffStep_body_none st hc b (hwf b (List.mem_cons_self _ _))]
    exact ih st hc fun x hx => hwf x (List.mem_cons_of_mem _ hx)

theorem foldHunks_none :
    ∀ (hs : List Hunk), (∀ h ∈ hs, hunkLineWF h) →
      ∀ (st : DiffState), st.currentFile = none →
      ∃ k, List.foldl parseDiffStep st ((hs.map renderHunk).flatten) =
        { st with newLineNumber := k } := by
  intro hs
  induction hs with
  | nil =>
    intro _ st hc
    refine ⟨st.newLineNumber, ?_⟩
    cases st
    simp
  | cons h rest ih =>
    intro hwf st hc
    have hwfh := hwf h (List.mem_cons_self _ _)
    simp only [List.map_cons, List.flatten_cons, List.foldl_append, renderHunk,
      List.foldl_cons]
    rw [parseDiffStep_header st h hwfh]
    rw [foldBody_none h.body { st with newLineNumber := h.newStart } hc
      (fun b hb s hbs => (hwfh.2.2 b hb).1 s hbs)]
    obtain ⟨k, hk⟩ := ih (fun x hx => hwf x (List.mem_cons_of_mem _ hx))
      { st with newLineNumber := h.newStart } hc
    exact ⟨k, hk⟩


/-- Folding the parser over one rendered file section with a real path. -/
theorem foldFileSome (f : FileDiff) (p : Line) (hp : f.path = some p)
    (hwf : fileLineWF f) (st : DiffState) :
    ∃ k, List.foldl parseDiffStep st (renderFile f) =
      { result := pushAll st.result p ((fileAdded f).map Prod.fst),
        currentFile := some p, newLineNumber := k } := by
  obtain ⟨hold, hhunks⟩ := hwf
  obtain ⟨m, hm⟩ := parseDiffStep_oldHeader st f.oldHeader hold
  simp only [renderFile, hp, List.foldl_cons]
  rw [hm, parseDiffStep_fileHeader]
  exact foldHunks f.hunks hhunks _ p rfl

/-- Folding the parser over a `/dev/null` file section leaves the result
untouched. -/
theorem foldFileNone (f : FileDiff) (hp : f.path = none) (hwf : fileLineWF f)
    (st : DiffState) :
    ∃ k, List.foldl parseDiffStep st (renderFile f) =
      { st with currentFile := none, newLineNumber := k } := by
  obtain ⟨hold, hhunks⟩ := hwf
  obtain ⟨m, hm⟩ := parseDiffStep_oldHeader st f.oldHeader hold
  simp only [renderFile, hp, List.foldl_cons]
  rw [hm, parseDiffStep_devNull]
  exact foldHunks_none f.hunks hhunks _ rfl

/-- Folding the parser over a whole rendered diff accumulates exactly the
per-file added-line pushes. -/
theorem foldFiles :
    ∀ (fs : List FileDiff), (∀ f ∈ fs, fileLineWF f) → ∀ (st : DiffState),
      ∃ cur k, List.foldl parseDiffStep st (renderDiff fs) =
        { result := collectAdded fs st.result, currentFile := cur,
          newLineNumber := k } := by
  intro fs
  induction fs with
  | nil =>
    intro _ st
    exact ⟨st.currentFile, st.newLineNumber, by cases st; rfl⟩
  | cons f rest ih =>
    intro hwf st
    have hwff := hwf f (List.mem_cons_self _ _)
    have hwfr := fun x hx => hwf x (List.mem_cons_of_mem _ hx)
    simp only [renderDiff, List.map_cons, List.flatten_cons, List.foldl_append]
    cases hfp : f.path with
    | some p =>
      obtain ⟨k1, hk1⟩ := foldFileSome f p hfp hwff st
      rw [hk1]
      obtain ⟨cur, k2, hk2⟩ := ih hwfr
        { result := pushAll st.result p ((fileAdded f).map Prod.fst),
          currentFile := some p, newLineNumber := k1 }
      refine ⟨cur, k2, ?_⟩
      rw [show renderDiff rest = (rest.map renderFile).flatten from rfl] at hk2
      rw [hk2]
      simp only [collectAdded, List.foldl_cons, hfp]
    | none =>
      obtain ⟨k1, hk1⟩ := foldFileNone f hfp hwff st
      rw [hk1]
      obtain ⟨cur, k2, hk2⟩ := ih hwfr
        { st with currentFile := none, newLineNumber := k1 }
      refine ⟨cur, k2, ?_⟩
      rw [show renderDiff rest = (rest.map renderFile).flatten from rfl] at hk2
      rw [hk2]
      simp only [collectAdded, List.foldl_cons, hfp]


theorem pushAdded_keyMiss (res : List (Line × List Nat)) (file : Line) (n : Nat)
    (h : ∀ q ∈ res, q.1 ≠ file) :
    pushAdded res file n = res ++ [(file, [n])] := by
  have hany : res.any (fun p => p.1 = file) = false := by
    rw [List.any_eq_false]
    intro q hq
    simp [h q hq]
  simp [pushAdded, hany]

theorem pushAdded_keyHit_last (res : List (Line × List Nat)) (acc : List Nat)
    (file : Line) (n : Nat) (h : ∀ q ∈ res, q.1 ≠ file) :
    pushAdded (res ++ [(file, acc)]) file n = res ++ [(file, acc ++ [n])] := by
  have hany : (res ++ [(file, acc)]).any (fun p => p.1 = file) = true := by
    rw [List.any_eq_true]
    exact ⟨(file, acc), by simp, by simp⟩
  rw [pushAdded, if_pos hany, List.map_append]
  congr 1
  · have : List.map (fun p => if p.1 = file then (p.1, p.2 ++ [n]) else p) res
        = List.map id res :=
      List.map_congr_left fun q hq => by simp [h q hq]
    rw [this, List.map_id]
  · simp

theorem pushAll_shift :
    ∀ (ns : List Nat) (res : List (Line × List Nat)) (file : Line) (acc : List Nat),
      (∀ q ∈ res, q.1 ≠ file) →
      pushAll (res ++ [(file, acc)]) file ns = res ++ [(file, acc ++ ns)] := by
  intro ns
  induction ns with
  | nil => intro res file acc _; simp [pushAll_nil]
  | cons n ns ih =>
    intro res file acc h
    rw [pushAll_cons, pushAdded_keyHit_last res acc file n h, ih res file (acc ++ [n]) h]
    simp

theorem pushAll_keyMiss (ns : List Nat) (res : List (Line × List Nat)) (file : Line)
    (h : ∀ q ∈ res, q.1 ≠ file) (hne : ns ≠ []) :
    pushAll res file ns = res ++ [(file, ns)] := by
  cases ns with
  | nil => exact absurd rfl hne
  | cons n ns =>
    rw [pushAll_cons, pushAdded_keyMiss res file n h, pushAll_shift ns res file [n] h]
    rfl

theorem diffLinesFor_nilKeys (res : List (Line × List Nat)) (p : Line)
    (h : ∀ q ∈ res, q.1 ≠ p) : diffLinesFor res p = [] := by
  have : res.find? (fun q => q.1 = p) = none := by
    rw [List.find?_eq_none]
    intro q hq
    simp [h q hq]
  simp [diffLinesFor, this]

theorem diffLinesFor_last (res : List (Line × List Nat)) (p : Line) (ns : List Nat)
    (h : ∀ q ∈ res, q.1 ≠ p) : diffLinesFor (res ++ [(p, ns)]) p = ns := by
  have hnone : res.find? (fun q => q.1 = p) = none := by
    rw [List.find?_eq_none]
    intro q hq
    simp [h q hq]
  rw [diffLinesFor, List.find?_append, hnone]
  rw [List.find?_cons_of_pos _ (by simp)]
  rfl

theorem diffLinesFor_pushAdded_ne (res : List (Line × List Nat)) (pq p : Line)
    (n : Nat) (hne : pq ≠ p) :
    diffLinesFor (pushAdded res pq n) p = diffLinesFor res p := by
  rw [pushAdded]
  split
  · rw [diffLinesFor, List.find?_map]
    have hcomp : ((fun q : Line × List Nat => decide (q.1 = p))
        ∘ (fun q : Line × List Nat => if q.1 = pq then (q.1, q.2 ++ [n]) else q))
        = (fun q : Line × List Nat => decide (q.1 = p)) := by
      funext q
      by_cases hq : q.1 = pq <;> simp [hq]
    rw [hcomp, diffLinesFor]
    cases hf : res.find? (fun q => decide (q.1 = p)) with
    | none => rfl
    | some q =>
      have hq : q.1 = p := by simpa using List.find?_some hf
      have hqne : ¬ (q.1 = pq) := by rw [hq]; exact fun h' => hne h'.symm
      simp [hqne]
  · rw [diffLinesFor, List.find?_append, diffLinesFor]
    cases hf : res.find? (fun q => decide (q.1 = p)) with
    | some q => rfl
    | none =>
      have hsingle : List.find? (fun q : Line × List Nat => decide (q.1 = p)) [(pq, [n])]
          = none := by
        rw [List.find?_eq_none]
        intro x hx
        simp at hx
        simp [hx, hne]
      rw [hsingle]
      rfl

theorem diffLinesFor_pushAll_ne :
    ∀ (ns : List Nat) (res : List (Line × List Nat)) (pq p : Line), pq ≠ p →
      diffLinesFor (pushAll res pq ns) p = diffLinesFor res p := by
  intro ns
  induction ns with
  | nil => intro res pq p _; rfl
  | cons n ns ih =>
    intro res pq p hne
    rw [pushAll_cons, ih _ pq p hne, diffLinesFor_pushAdded_ne res pq p n hne]

theorem collectAdded_cons (g : FileDiff) (rest : List FileDiff)
    (res : List (Line × List Nat)) :
    collectAdded (g :: rest) res = collectAdded rest
      (match g.path with
        | some q => pushAll res q ((fileAdded g).map Prod.fst)
        | none => res) := by
  rw [collectAdded, List.foldl_cons]
  rfl

theorem diffLinesFor_collect_ne :
    ∀ (fs : List FileDiff) (res : List (Line × List Nat)) (p : Line),
      (∀ g ∈ fs, ∀ q, g.path = some q → q ≠ p) →
      diffLinesFor (collectAdded fs res) p = diffLinesFor res p := by
  intro fs
  induction fs with
  | nil => intro res p _; rfl
  | cons g rest ih =>
    intro res p h
    rw [collectAdded_cons]
    cases hgp : g.path with
    | some q =>
      rw [ih _ p (fun x hx => h x (List.mem_cons_of_mem _ hx))]
      exact diffLinesFor_pushAll_ne _ res q p (h g (List.mem_cons_self _ _) q hgp)
    | none =>
      exact ih _ p (fun x hx => h x (List.mem_cons_of_mem _ hx))

theorem pushAdded_keys (res : List (Line × List Nat)) (file : Line) (n : Nat)
    (q' : Line × List Nat) (hq : q' ∈ pushAdded res file n) :
    q'.1 = file ∨ ∃ q ∈ res, q'.1 = q.1 := by
  rw [pushAdded] at hq
  split at hq
  · obtain ⟨q, hqm, hqe⟩ := List.mem_map.mp hq
    by_cases hc : q.1 = file
    · right; exact ⟨q, hqm, by rw [← hqe]; simp [hc]⟩
    · right; exact ⟨q, hqm, by rw [← hqe]; simp [hc]⟩
  · rcases List.mem_append.mp hq with hq' | hq'
    · right; exact ⟨q', hq', rfl⟩
    · left; simp at hq'; rw [hq']


theorem pushAll_keys :
    ∀ (ns : List Nat) (res : List (Line × List Nat)) (file : Line)
      (q' : Line × List Nat), q' ∈ pushAll res file ns →
      q'.1 = file ∨ ∃ q ∈ res, q'.1 = q.1 := by
  intro ns
  induction ns with
  | nil => intro res file q' hq; right; exact ⟨q', hq, rfl⟩
  | cons n ns ih =>
    intro res file q' hq
    rw [pushAll_cons] at hq
    rcases ih _ file q' hq with h | ⟨q, hqm, hqe⟩
    · left; exact h
    · rcases pushAdded_keys res file n q hqm with h | ⟨q2, hq2, hq2e⟩
      · left; rw [hqe, h]
      · right; exact ⟨q2, hq2, by rw [hqe, hq2e]⟩

/-- The central accumulator lemma: with pairwise-distinct file paths, the
entry recorded for a file is exactly its added-line numbers. -/
theorem diffLinesFor_collectAdded :
    ∀ (fs : List FileDiff) (r : List (Line × List Nat)) (f : FileDiff) (p : Line),
      f ∈ fs → f.path = some p → (∀ q ∈ r, q.1 ≠ p) →
      (fs.filterMap FileDiff.path).Nodup →
      diffLinesFor (collectAdded fs r) p = (fileAdded f).map Prod.fst := by
  intro fs
  induction fs with
  | nil => intro r f p hf; simp at hf
  | cons g rest ih =>
    intro r f p hf hp hr hnodup
    rcases List.mem_cons.mp hf with hfg | hfr
    · subst hfg
      rw [collectAdded_cons]
      have hfilter : (f :: rest).filterMap FileDiff.path
          = p :: rest.filterMap FileDiff.path := by
        rw [List.filterMap_cons, hp]
      rw [hfilter] at hnodup
      have hnotin : ∀ g' ∈ rest, ∀ q, g'.path = some q → q ≠ p := by
        intro g' hg' q hq heq
        subst heq
        exact (List.nodup_cons.mp hnodup).1
          (List.mem_filterMap.mpr ⟨g', hg', hq⟩)
      have hmain : diffLinesFor (pushAll r p ((fileAdded f).map Prod.fst)) p
          = (fileAdded f).map Prod.fst := by
        cases hns : (fileAdded f).map Prod.fst with
        | nil => exact diffLinesFor_nilKeys r p hr
        | cons n ns =>
          rw [pushAll_keyMiss _ r p hr (by simp)]
          exact diffLinesFor_last r p _ hr
      rw [hp]
      rw [diffLinesFor_collect_ne rest _ p hnotin]
      exact hmain
    · rw [collectAdded_cons]
      have hfilter2 : p ∈ rest.filterMap FileDiff.path :=
        List.mem_filterMap.mpr ⟨f, hfr, hp⟩
      have hnodup' : (rest.filterMap FileDiff.path).Nodup := by
        rw [List.filterMap_cons] at hnodup
        cases hgp : g.path with
        | some q => rw [hgp] at hnodup; exact (List.nodup_cons.mp hnodup).2
        | none => rw [hgp] at hnodup; exact hnodup
      cases hgp : g.path with
      | some q =>
        have hqp : q ≠ p := by
          intro heq
          subst heq
          rw [List.filterMap_cons, hgp] at hnodup
          exact (List.nodup_cons.mp hnodup).1 hfilter2
        refine ih _ f p hfr hp ?_ hnodup'
        intro q' hq'
        rcases pushAll_keys _ r q q' hq' with h | ⟨q2, hq2, hq2e⟩
        · rw [h]; exact hqp
        · rw [hq2e]; exact hr q2 hq2
      | none => exact ih r f p hfr hp hr hnodup'


/-- How `parse_diff` acts on any rendered well-formed structured diff: it
accumulates exactly the per-file added-line pushes. -/
theorem parse_diff_renders (fs : List FileDiff) (text : String)
    (htext : rustLines text = renderDiff fs)
    (hwf : ∀ f ∈ fs, fileLineWF f) :
    parse_diff text = collectAdded fs [] := by
  rw [parse_diff, htext, parseDiffLines]
  obtain ⟨cur, k, hk⟩ := foldFiles fs hwf ⟨[], none, 0⟩
  rw [hk]

/-- **C3, counterexample**: the unified diff below (rendered from a
structured diff, shown applicable to the original file `["c"]`, whose
patch adds the line `++x` at new-file line 2) makes `parse_diff` emit *no*
added line for file `f` — the added line's text begins with `++`, so its
rendering `+++x` is not counted.  The claim "the returned list contains
exactly the added `+` body lines with their post-patch line numbers for
every unified diff text" is therefore false as stated. -/
theorem c3_diff_line_numbers_counterexample :
    rustLines "--- a/f\n+++ b/f\n@@ -1,1 +1,2 @@\n c\n+++x"
      = renderDiff [⟨"--- a/f".data, some "f".data,
          [⟨"@@ -1,1 +1,2 @@".data, 1, 1,
            [BodyLine.ctx "c".data, BodyLine.add "++x".data]⟩]⟩]
    ∧ hunksPos 1 1 [⟨"@@ -1,1 +1,2 @@".data, 1, 1,
            [BodyLine.ctx "c".data, BodyLine.add "++x".data]⟩]
    ∧ hunksMatch ["c".data] [⟨"@@ -1,1 +1,2 @@".data, 1, 1,
            [BodyLine.ctx "c".data, BodyLine.add "++x".data]⟩]
    ∧ applyFileDiff ["c".data] ⟨"--- a/f".data, some "f".data,
          [⟨"@@ -1,1 +1,2 @@".data, 1, 1,
            [BodyLine.ctx "c".data, BodyLine.add "++x".data]⟩]⟩
        = ["c".data, "++x".data]
    ∧ fileAdded ⟨"--- a/f".data, some "f".data,
          [⟨"@@ -1,1 +1,2 @@".data, 1, 1,
            [BodyLine.ctx "c".data, BodyLine.add "++x".data]⟩]⟩
        = [(2, "++x".data)]
    ∧ diffLinesFor
        (parse_diff "--- a/f\n+++ b/f\n@@ -1,1 +1,2 @@\n c\n+++x") ("f".data)
        = [] := by
  exact ⟨by decide, by decide, by decide, by decide, by decide, by decide⟩

/-- **C3** (amended): for every unified diff rendered from a well-formed
structured diff — hunks in order with consistent positions, no added body
line beginning `++` and no removed body line beginning `--`, target paths
pairwise distinct — `parse_diff` returns for each target file exactly the
added `+` body lines' new-file line numbers; that list strictly increases
(sorted, duplicate-free); and whenever the hunks apply to an original file,
each added line occupies exactly the emitted line number of the patched
file. -/
theorem c3_diff_line_numbers (fs : List FileDiff) (text : String)
    (htext : rustLines text = renderDiff fs)
    (hwf : ∀ f ∈ fs, fileLineWF f)
    (hpos : ∀ f ∈ fs, hunksPos 1 1 f.hunks)
    (hdist : (fs.filterMap FileDiff.path).Nodup)
    (f : FileDiff) (hf : f ∈ fs) (p : Line) (hp : f.path = some p) :
    diffLinesFor (parse_diff text) p = (fileAdded f).map Prod.fst
    ∧ List.Pairwise (· < ·) ((fileAdded f).map Prod.fst)
    ∧ ∀ orig, hunksMatch orig f.hunks →
        ∀ pr ∈ fileAdded f, 1 ≤ pr.1 ∧ (applyFileDiff orig f)[pr.1 - 1]? = some pr.2 := by
  refine ⟨?_, ?_, ?_⟩
  · rw [parse_diff_renders fs text htext hwf]
    exact diffLinesFor_collectAdded fs [] f p hf hp (by simp) hdist
  · exact hunksAdded_sorted f.hunks 1 1 (hpos f hf)
  · intro orig hm pr hpr
    refine ⟨hunksAdded_lb f.hunks 1 1 (hpos f hf) pr hpr, ?_⟩
    exact applyGo_added f.hunks 1 1 orig (hpos f hf) hm pr hpr

/-- Witness for C3 at a concrete rendered diff. -/
theorem c3_diff_line_numbers_witness :
    diffLinesFor (parse_diff "--- a/f\n+++ b/f\n@@ -1,1 +1,2 @@\n c\n+y") ("f".data)
      = (fileAdded ⟨"--- a/f".data, some "f".data,
          [⟨"@@ -1,1 +1,2 @@".data, 1, 1,
            [BodyLine.ctx "c".data, BodyLine.add "y".data]⟩]⟩).map Prod.fst
    ∧ List.Pairwise (· < ·) ((fileAdded ⟨"--- a/f".data, some "f".data,
          [⟨"@@ -1,1 +1,2 @@".data, 1, 1,
            [BodyLine.ctx "c".data, BodyLine.add "y".data]⟩]⟩).map Prod.fst)
    ∧ ∀ orig, hunksMatch orig [⟨"@@ -1,1 +1,2 @@".data, 1, 1,
            [BodyLine.ctx "c".data, BodyLine.add "y".data]⟩] →
        ∀ pr ∈ fileAdded ⟨"--- a/f".data, some "f".data,
          [⟨"@@ -1,1 +1,2 @@".data, 1, 1,
            [BodyLine.ctx "c".data, BodyLine.add "y".data]⟩]⟩,
          1 ≤ pr.1 ∧ (applyFileDiff orig ⟨"--- a/f".data, some "f".data,
            [⟨"@@ -1,1 +1,2 @@".data, 1, 1,
              [BodyLine.ctx "c".data, BodyLine.add "y".data]⟩]⟩)[pr.1 - 1]?
            = some pr.2 :=
  c3_diff_line_numbers
    [⟨"--- a/f".data, some "f".data,
      [⟨"@@ -1,1 +1,2 @@".data, 1, 1,
        [BodyLine.ctx "c".data, BodyLine.add "y".data]⟩]⟩]
    "--- a/f\n+++ b/f\n@@ -1,1 +1,2 @@\n c\n+y"
    (by decide)
    (by decide)
    (by decide)
    (by decide)
    _ (List.mem_cons_self _ _) ("f".data) rfl


/-- **C4, counterexample**: an XML head carrying `<coverage` *with* a
`clover="…"` attribute is accepted by the Cobertura detector and `detect`
selects Cobertura for it — there is no Clover parser to try afterwards.
This falsifies "detection tries Cobertura only for XML without the
`clover=` attribute and selects the Clover parser for clover-style XML". -/
theorem c4_clover_detection_counterexample :
    containsSub ("clover=".data)
      (sniffHead ("<?xml version=\"1.0\"?>\n<coverage clover=\"4.4.1\">".data)) = true
    ∧ containsSub ("<coverage".data)
      (sniffHead ("<?xml version=\"1.0\"?>\n<coverage clover=\"4.4.1\">".data)) = true
    ∧ detect ⟨"clover.xml".data, some "xml".data⟩
        ("<?xml version=\"1.0\"?>\n<coverage clover=\"4.4.1\">".data)
        = some Format.cobertura := by
  exact ⟨by decide, by decide, by decide⟩

/-- **C4** (amended): the registered parser list is exactly LCOV, Go cover,
Istanbul, JaCoCo, Cobertura — no Clover parser exists; the Cobertura
detector accepts every XML head containing `<coverage`, with no exclusion
of the `clover=` attribute; and a clover-attribute XML input is detected
as Cobertura. -/
theorem c4_clover_detection (p : PathInfo) (content : List Char) :
    allParsers = [Format.lcov, Format.gocover, Format.istanbul,
      Format.jacoco, Format.cobertura]
    ∧ coberturaCanParse p content =
        (looks_like_xml (sniffHead content)
          && containsSub ("<coverage".data) (sniffHead content))
    ∧ detect ⟨"clover.xml".data, some "xml".data⟩
        ("<?xml version=\"1.0\"?>\n<coverage clover=\"4.4.1\">".data)
        = some Format.cobertura := by
  exact ⟨rfl, rfl, by decide⟩

/-- With no `<source>` prefixes, class filenames resolve to themselves. -/
theorem rsp_nil (f : String) : resolve_source_path f [] = f := by
  rw [resolve_source_path]
  split <;> rfl

/-- The branch-arm loop on a first-encountered line emits exactly `total`
arms with dense indices `0..total-1`, the first `covered` of them hit. -/
theorem pushArms_spec (file : FileCoverage) (L c : Nat) :
    ∀ t, pushArms file [] L c t =
      ({ file with branches := file.branches
          ++ (List.range t).map (fun i => ⟨L, i, if i < c then 1 else 0⟩) },
        if t = 0 then [] else [(L, t)]) := by
  intro t
  induction t with
  | zero => simp [pushArms]
  | succ n ih =>
    rw [pushArms, List.range_succ, List.foldl_append]
    rw [show (List.range n).foldl _ (file, []) = pushArms file [] L c n from rfl]
    rw [ih]
    simp only [List.foldl_cons, List.foldl_nil]
    by_cases hn : n = 0
    · subst hn
      simp [alistGet, alistPut, List.range_succ]
    · rw [if_neg hn, if_neg (Nat.succ_ne_zero n)]
      simp only [alistGet, alistPut]
      simp [List.range_succ, List.append_assoc]

/-- **C7** (Cobertura branch de-duplication): for every line element with
`branch="true"` and a condition-coverage of `c/t` appearing both inside a
`<method>` block and directly under `<class>`, the parser records the
line's branch arms only on the first encounter: exactly `t` arms with
dense indices `0..t-1`, the first `c` with hit count 1 and the rest 0; in
particular a `50% (1/2)` line in both blocks yields exactly 2 arms
(hit counts 1 then 0), not 4. -/
theorem c7_cobertura_branch_dedup (f m numStr hitsStr cc : String) (L hits c t : Nat)
    (hL : parseU32Str numStr = some L)
    (hh : parseU64Str hitsStr = some hits)
    (hcc : branchRe cc = some (c, t))
    (hc32 : c < 4294967296) (ht32 : t < 4294967296) :
    cobertura_parse
      [.start "coverage" [], .start "class" [("filename", f)],
       .start "method" [("name", m)],
       .emptyTag "line" [("number", numStr), ("hits", hitsStr), ("branch", "true"),
         ("condition-coverage", cc)],
       .endTag "method",
       .emptyTag "line" [("number", numStr), ("hits", hitsStr), ("branch", "true"),
         ("condition-coverage", cc)],
       .endTag "class"]
      = [⟨f, [⟨L, hits⟩],
          (List.range t).map (fun i => ⟨L, i, if i < c then 1 else 0⟩),
          [⟨m, some L, none, if 0 < hits then 1 else 0⟩]⟩]
    ∧ cobertura_parse
        [.start "coverage" [], .start "class" [("filename", "f.py")],
         .start "method" [("name", "m")],
         .emptyTag "line" [("number", "3"), ("hits", "2"), ("branch", "true"),
           ("condition-coverage", "50% (1/2)")],
         .endTag "method",
         .emptyTag "line" [("number", "3"), ("hits", "2"), ("branch", "true"),
           ("condition-coverage", "50% (1/2)")],
         .endTag "class"]
        = [⟨"f.py", [⟨3, 2⟩], [⟨3, 0, 1⟩, ⟨3, 1, 0⟩], [⟨"m", some 3, none, 1⟩]⟩] := by
  refine ⟨?_, by decide⟩
  rw [cobertura_parse]
  simp only [List.foldl_cons, List.foldl_nil]
  by_cases ht0 : t = 0
  · subst ht0
    simp [cobStep, cobStart, getAttr, scanLineAttrs, List.find?, recordLine, alistGet,
      alistPut, hL, hh, hcc, rsp_nil, pushArms_spec, hc32, ht32, sortByLe, insertByLe,
      FileCoverage.new]
  · simp [cobStep, cobStart, getAttr, scanLineAttrs, List.find?, recordLine, alistGet,
      alistPut, hL, hh, hcc, rsp_nil, pushArms_spec, hc32, ht32, ht0, sortByLe,
      insertByLe, FileCoverage.new]

/-- Witness for C7 at the concrete `50% (1/2)` instance. -/
theorem c7_cobertura_branch_dedup_witness :
    cobertura_parse
      [.start "coverage" [], .start "class" [("filename", "f.py")],
       .start "method" [("name", "m")],
       .emptyTag "line" [("number", "3"), ("hits", "2"), ("branch", "true"),
         ("condition-coverage", "50% (1/2)")],
       .endTag "method",
       .emptyTag "line" [("number", "3"), ("hits", "2"), ("branch", "true"),
         ("condition-coverage", "50% (1/2)")],
       .endTag "class"]
      = [⟨"f.py", [⟨3, 2⟩],
          (List.range 2).map (fun i => ⟨3, i, if i < 1 then 1 else 0⟩),
          [⟨"m", some 3, none, if 0 < 2 then 1 else 0⟩]⟩]
    ∧ cobertura_parse
        [.start "coverage" [], .start "class" [("filename", "f.py")],
         .start "method" [("name", "m")],
         .emptyTag "line" [("number", "3"), ("hits", "2"), ("branch", "true"),
           ("condition-coverage", "50% (1/2)")],
         .endTag "method",
         .emptyTag "line" [("number", "3"), ("hits", "2"), ("branch", "true"),
           ("condition-coverage", "50% (1/2)")],
         .endTag "class"]
        = [⟨"f.py", [⟨3, 2⟩], [⟨3, 0, 1⟩, ⟨3, 1, 0⟩], [⟨"m", some 3, none, 1⟩]⟩] :=
  c7_cobertura_branch_dedup "f.py" "m" "3" "2" "50% (1/2)" 3 2 1 2
    (by decide) (by decide) (by decide) (by decide) (by decide)


/-! ### C8: Go cover line expansion -/
theorem alistGet_put_self (m : List (Nat × Nat)) (k v : Nat) :
    alistGet (alistPut m k v) k = some v := by
  rw [alistPut]
  split
  · next hany =>
    rw [alistGet, List.find?_map]
    have hcomp : ((fun q : Nat × Nat => decide (q.1 = k))
        ∘ (fun q : Nat × Nat => if q.1 = k then (k, v) else q))
        = (fun q : Nat × Nat => decide (q.1 = k)) := by
      funext q
      by_cases hq : q.1 = k <;> simp [hq]
    rw [hcomp]
    rw [List.any_eq_true] at hany
    have hsome : (m.find? fun q => decide (q.1 = k)).isSome := by
      rw [List.find?_isSome]
      obtain ⟨q, hqm, hqk⟩ := hany
      exact ⟨q, hqm, hqk⟩
    cases hf : m.find? fun q => decide (q.1 = k) with
    | none => rw [hf] at hsome; simp at hsome
    | some q0 =>
      have hq0 : q0.1 = k := by simpa using List.find?_some hf
      simp [hq0]
  · next hany =>
    rw [alistGet, List.find?_append]
    have hnone : m.find? (fun q => decide (q.1 = k)) = none := by
      rw [List.find?_eq_none]
      intro q hq hqk
      exact hany (List.any_eq_true.mpr ⟨q, hq, hqk⟩)
    rw [hnone]
    simp [List.find?]

theorem alistGet_put_other (m : List (Nat × Nat)) (k v L : Nat) (h : L ≠ k) :
    alistGet (alistPut m k v) L = alistGet m L := by
  rw [alistPut]
  split
  · rw [alistGet, List.find?_map]
    have hcomp : ((fun q : Nat × Nat => decide (q.1 = L))
        ∘ (fun q : Nat × Nat => if q.1 = k then (k, v) else q))
        = (fun q : Nat × Nat => decide (q.1 = L)) := by
      funext q
      by_cases hq : q.1 = k <;> simp [hq, h, Ne.symm h]
    rw [hcomp, alistGet]
    cases hf : m.find? fun q => decide (q.1 = L) with
    | none => rfl
    | some q0 =>
      have hq0 : q0.1 = L := by simpa using List.find?_some hf
      have : ¬ (q0.1 = k) := by rw [hq0]; exact h
      simp [this]
  · rw [alistGet, List.find?_append, alistGet]
    have hsingle : List.find? (fun q : Nat × Nat => decide (q.1 = L)) [(k, v)] = none := by
      rw [List.find?_eq_none]
      intro x hx
      simp at hx
      simp [hx, Ne.symm h]
    rw [hsingle]
    cases hf : m.find? fun q => decide (q.1 = L) <;> rfl

theorem goLineUpd_self (b : Block) (m : List (Nat × Nat)) (ln : Nat) :
    alistGet (goLineUpd b m ln) ln = some (max ((alistGet m ln).getD 0) b.count) := by
  rw [goLineUpd]
  cases hv : alistGet m ln with
  | some v =>
    simp only [hv, Option.isSome_some, if_pos, Option.getD_some]
    by_cases hc : b.count > v
    · rw [if_pos hc, alistGet_put_self]
      congr 1
      omega
    · rw [if_neg hc, hv]
      congr 1
      omega
  | none =>
    simp only [hv, Option.isSome_none, Bool.false_eq_true, if_false, if_neg,
      alistGet_put_self, Option.getD_some, Option.getD_none]
    by_cases hc : b.count > 0
    · rw [if_pos hc, alistGet_put_self]
      congr 1
      omega
    · rw [if_neg hc, alistGet_put_self]
      congr 1
      omega

theorem goLineUpd_other (b : Block) (m : List (Nat × Nat)) (ln L : Nat) (h : L ≠ ln) :
    alistGet (goLineUpd b m ln) L = alistGet m L := by
  rw [goLineUpd]
  cases hv : alistGet m ln with
  | some v =>
    simp only [hv, Option.isSome_some, if_pos, Option.getD_some]
    by_cases hc : b.count > v
    · rw [if_pos hc, alistGet_put_other _ _ _ _ h]
    · rw [if_neg hc]
  | none =>
    simp only [hv, Option.isSome_none, Bool.false_eq_true, if_false, if_neg,
      alistGet_put_self, Option.getD_some]
    by_cases hc : b.count > 0
    · rw [if_pos hc, alistGet_put_other _ _ _ _ h, alistGet_put_other _ _ _ _ h]
    · rw [if_neg hc, alistGet_put_other _ _ _ _ h]

theorem foldLines_get (b : Block) (ls : List Nat) (m : List (Nat × Nat)) (L : Nat) :
    alistGet (ls.foldl (goLineUpd b) m) L
      = if L ∈ ls then some (max ((alistGet m L).getD 0) b.count) else alistGet m L := by
  induction ls generalizing m with
  | nil => simp
  | cons a t ih =>
    rw [List.foldl_cons, ih]
    by_cases hL : L = a
    · subst hL
      by_cases ht : L ∈ t
      · rw [if_pos ht, if_pos (by simp), goLineUpd_self]
        simp only [Option.getD_some]
        congr 1
        omega
      · rw [if_neg ht, if_pos (by simp), goLineUpd_self]
    · rw [goLineUpd_other _ _ _ _ hL]
      by_cases ht : L ∈ t
      · rw [if_pos ht, if_pos (by simp [ht])]
      · rw [if_neg ht, if_neg (by simp [ht, hL])]

theorem foldBlockLines_get (b : Block) (m : List (Nat × Nat)) (L : Nat) :
    alistGet (foldBlockLines m b) L
      = if b.start_line ≤ L ∧ L ≤ b.end_line
          then some (max ((alistGet m L).getD 0) b.count) else alistGet m L := by
  rw [foldBlockLines, foldLines_get]
  congr 1
  simp only [List.mem_range'_1, eq_iff_iff]
  omega

theorem maxFold_nocover (L : Nat) (bs : List Block) (x : Nat)
    (h : ∀ b ∈ bs, ¬(b.start_line ≤ L ∧ L ≤ b.end_line)) :
    bs.foldl (fun m b => if b.start_line ≤ L ∧ L ≤ b.end_line then max m b.count else m) x
      = x := by
  induction bs generalizing x with
  | nil => rfl
  | cons b t ih =>
    rw [List.foldl_cons, if_neg (h b (by simp))]
    exact ih x fun b' hb' => h b' (by simp [hb'])

theorem foldBlocks_get (blocks : List Block) (m : List (Nat × Nat)) (L : Nat) :
    alistGet (blocks.foldl foldBlockLines m) L
      = if ∃ b ∈ blocks, b.start_line ≤ L ∧ L ≤ b.end_line
          then some (blocks.foldl
            (fun acc b => if b.start_line ≤ L ∧ L ≤ b.end_line then max acc b.count else acc)
            ((alistGet m L).getD 0))
        else alistGet m L := by
  induction blocks generalizing m with
  | nil => simp
  | cons b bs ih =>
    rw [List.foldl_cons, List.foldl_cons, ih, foldBlockLines_get]
    by_cases hb : b.start_line ≤ L ∧ L ≤ b.end_line
    · simp only [hb, if_true, if_pos, Option.getD_some]
      by_cases hex : ∃ b' ∈ bs, b'.start_line ≤ L ∧ L ≤ b'.end_line
      · simp [hb, hex]
      · rw [if_neg hex]
        rw [maxFold_nocover L bs _ (fun b' hb' hc => hex ⟨b', hb', hc⟩)]
        simp [hb]
    · simp only [hb, if_false, if_neg]
      by_cases hex : ∃ b' ∈ bs, b'.start_line ≤ L ∧ L ≤ b'.end_line
      · simp [hb, hex]
      · simp [hb, hex]

theorem lineHits_get (blocks : List Block) (L : Nat) :
    alistGet (lineHitsOfBlocks blocks) L
      = if ∃ b ∈ blocks, b.start_line ≤ L ∧ L ≤ b.end_line
          then some (maxCount blocks L) else none := by
  rw [lineHitsOfBlocks, foldBlocks_get, maxCount]
  rfl

theorem alistPut_keys_nodup (m : List (Nat × Nat)) (k v : Nat)
    (h : (m.map Prod.fst).Nodup) : ((alistPut m k v).map Prod.fst).Nodup := by
  rw [alistPut]
  split
  · have : ((m.map fun q => if q.1 = k then (k, v) else q).map Prod.fst) = m.map Prod.fst := by
      rw [List.map_map]
      apply List.map_congr_left
      intro q _
      by_cases hq : q.1 = k <;> simp [hq]
    rw [this]
    exact h
  · next hany =>
    have hk : k ∉ m.map Prod.fst := by
      intro hmem
      obtain ⟨q, hqm, hqk⟩ := List.mem_map.mp hmem
      exact hany (List.any_eq_true.mpr ⟨q, hqm, by simp [hqk]⟩)
    simp [List.nodup_append, h, hk]

theorem alistGet_isSome_iff (m : List (Nat × Nat)) (L : Nat) :
    (alistGet m L).isSome ↔ L ∈ m.map Prod.fst := by
  have hmap : (Option.map (fun x : Nat × Nat => x.2)
      (List.find? (fun q => decide (q.1 = L)) m)).isSome
      = (List.find? (fun q => decide (q.1 = L)) m).isSome := by
    cases List.find? (fun q => decide (q.1 = L)) m <;> rfl
  rw [alistGet, hmap, List.find?_isSome]
  constructor
  · rintro ⟨q, hqm, hq⟩
    exact List.mem_map.mpr ⟨q, hqm, by simpa using hq⟩
  · intro hmem
    obtain ⟨q, hqm, hqk⟩ := List.mem_map.mp hmem
    exact ⟨q, hqm, by simp [hqk]⟩

theorem goLineUpd_keys_nodup (b : Block) (m : List (Nat × Nat)) (ln : Nat)
    (h : (m.map Prod.fst).Nodup) : ((goLineUpd b m ln).map Prod.fst).Nodup := by
  simp only [goLineUpd]
  by_cases h1 : (alistGet m ln).isSome
  · rw [if_pos h1]
    split
    · exact alistPut_keys_nodup _ _ _ h
    · exact h
  · rw [if_neg h1]
    split
    · exact alistPut_keys_nodup _ _ _ (alistPut_keys_nodup _ _ _ h)
    · exact alistPut_keys_nodup _ _ _ h

theorem foldLines_keys_nodup (b : Block) (ls : List Nat) (m : List (Nat × Nat))
    (h : (m.map Prod.fst).Nodup) :
    ((ls.foldl (goLineUpd b) m).map Prod.fst).Nodup := by
  induction ls generalizing m with
  | nil => exact h
  | cons a t ih => exact ih _ (goLineUpd_keys_nodup b m a h)

theorem foldBlocks_keys_nodup (blocks : List Block) (m : List (Nat × Nat))
    (h : (m.map Prod.fst).Nodup) :
    ((blocks.foldl foldBlockLines m).map Prod.fst).Nodup := by
  induction blocks generalizing m with
  | nil => exact h
  | cons b bs ih => exact ih _ (foldLines_keys_nodup b _ m h)

theorem lineHits_keys_nodup (blocks : List Block) :
    ((lineHitsOfBlocks blocks).map Prod.fst).Nodup :=
  foldBlocks_keys_nodup blocks [] (by simp)

theorem alistGet_of_mem_nodup (m : List (Nat × Nat)) (q : Nat × Nat)
    (h : (m.map Prod.fst).Nodup) (hq : q ∈ m) : alistGet m q.1 = some q.2 := by
  induction m with
  | nil => cases hq
  | cons a t ih =>
    rcases List.mem_cons.mp hq with heq | hmem
    · subst heq
      simp [alistGet, List.find?]
    · have hne : ¬(a.1 = q.1) := by
        intro he
        have : q.1 ∈ t.map Prod.fst := List.mem_map.mpr ⟨q, hmem, rfl⟩
        rw [List.map_cons, List.nodup_cons] at h
        exact h.1 (he ▸ this)
      rw [List.map_cons, List.nodup_cons] at h
      rw [alistGet, List.find?_cons_of_neg _ (by simp [hne]), ← alistGet]
      exact ih h.2 hmem

theorem insertByLe_perm (le : α → α → Bool) (a : α) (l : List α) :
    (insertByLe le a l).Perm (a :: l) := by
  induction l with
  | nil => exact List.Perm.refl _
  | cons b t ih =>
    rw [insertByLe]
    by_cases hle : le b a
    · rw [if_pos hle]
      exact (ih.cons b).trans (List.Perm.swap a b t)
    · rw [if_neg hle]

theorem sortFoldPerm (le : α → α → Bool) (l acc : List α) :
    (l.foldl (fun acc a => insertByLe le a acc) acc).Perm (acc ++ l) := by
  induction l generalizing acc with
  | nil => simp
  | cons a t ih =>
    rw [List.foldl_cons]
    exact (ih _).trans (((insertByLe_perm le a acc).append_right t).trans
      (List.perm_middle).symm)

theorem sortByLe_perm (le : α → α → Bool) (l : List α) :
    (sortByLe le l).Perm l := by
  simpa using sortFoldPerm le l []

theorem insertByLe_sorted (le : α → α → Bool)
    (htrans : ∀ a b c, le a b = true → le b c = true → le a c = true)
    (htot : ∀ a b, le a b = false → le b a = true)
    (a : α) (l : List α) (h : l.Pairwise (fun x y => le x y = true)) :
    (insertByLe le a l).Pairwise (fun x y => le x y = true) := by
  induction l with
  | nil => simp [insertByLe]
  | cons b t ih =>
    rw [List.pairwise_cons] at h
    rw [insertByLe]
    by_cases hle : le b a
    · rw [if_pos hle]
      rw [List.pairwise_cons]
      refine ⟨?_, ih h.2⟩
      intro x hx
      rcases List.mem_cons.mp ((insertByLe_perm le a t).mem_iff.mp hx) with hxa | hxt
      · exact hxa ▸ hle
      · exact h.1 x hxt
    · rw [if_neg hle]
      rw [List.pairwise_cons]
      refine ⟨?_, List.pairwise_cons.mpr h⟩
      intro x hx
      rcases List.mem_cons.mp hx with hxb | hxt
      · exact hxb ▸ htot b a (by simpa using hle)
      · exact htrans a b x (htot b a (by simpa using hle)) (h.1 x hxt)

theorem sortFoldSorted (le : α → α → Bool)
    (htrans : ∀ a b c, le a b = true → le b c = true → le a c = true)
    (htot : ∀ a b, le a b = false → le b a = true)
    (l acc : List α) (hacc : acc.Pairwise (fun x y => le x y = true)) :
    (l.foldl (fun acc a => insertByLe le a acc) acc).Pairwise
      (fun x y => le x y = true) := by
  induction l generalizing acc with
  | nil => exact hacc
  | cons a t ih =>
    rw [List.foldl_cons]
    exact ih _ (insertByLe_sorted le htrans htot a acc hacc)

theorem sortByLe_sorted (le : α → α → Bool)
    (htrans : ∀ a b c, le a b = true → le b c = true → le a c = true)
    (htot : ∀ a b, le a b = false → le b a = true)
    (l : List α) :
    (sortByLe le l).Pairwise (fun x y => le x y = true) :=
  sortFoldSorted le htrans htot l [] (by simp)

theorem alistGet_mem (m : List (Nat × Nat)) (L v : Nat)
    (h : alistGet m L = some v) : (L, v) ∈ m := by
  rw [alistGet] at h
  cases hf : m.find? fun q => decide (q.1 = L) with
  | none => rw [hf] at h; cases h
  | some q0 =>
    rw [hf] at h
    have hq1 : q0.1 = L := by simpa using List.find?_some hf
    have hq2 : q0.2 = v := by simpa using h
    have : (L, v) = q0 := by
      cases q0
      simp_all
    exact this ▸ List.mem_of_find?_eq_some hf

theorem btfc_lines_mem (path : String) (blocks : List Block) (lc : LineCoverage) :
    lc ∈ (blocks_to_file_coverage path blocks).lines ↔
      (∃ b ∈ blocks, b.start_line ≤ lc.line_number ∧ lc.line_number ≤ b.end_line)
        ∧ lc.hit_count = maxCount blocks lc.line_number := by
  rw [blocks_to_file_coverage]
  rw [(sortByLe_perm _ _).mem_iff]
  rw [List.mem_map]
  constructor
  · rintro ⟨q, hq, rfl⟩
    have hget := alistGet_of_mem_nodup _ q (lineHits_keys_nodup blocks) hq
    rw [lineHits_get] at hget
    by_cases hc : ∃ b ∈ blocks, b.start_line ≤ q.1 ∧ q.1 ≤ b.end_line
    · rw [if_pos hc] at hget
      exact ⟨hc, by simpa using hget.symm⟩
    · rw [if_neg hc] at hget
      cases hget
  · rintro ⟨hc, hh⟩
    refine ⟨(lc.line_number, lc.hit_count), ?_, rfl⟩
    apply alistGet_mem
    rw [lineHits_get, if_pos hc, hh]

theorem btfc_lines_pairwise (path : String) (blocks : List Block) :
    (blocks_to_file_coverage path blocks).lines.Pairwise
      (fun x y => x.line_number < y.line_number) := by
  have hle : (blocks_to_file_coverage path blocks).lines.Pairwise
      (fun x y => x.line_number ≤ y.line_number) := by
    have := sortByLe_sorted (fun a b : LineCoverage => a.line_number ≤ b.line_number)
      (by intro a b c hab hbc; simp only [decide_eq_true_eq] at *; omega)
      (by intro a b hab; simp only [decide_eq_false_iff_not, decide_eq_true_eq] at *; omega)
      ((lineHitsOfBlocks blocks).map fun q => LineCoverage.mk q.1 q.2)
    rw [blocks_to_file_coverage]
    exact this.imp (by intro a b hab; simpa using hab)
  have hne : (blocks_to_file_coverage path blocks).lines.Pairwise
      (fun x y => x.line_number ≠ y.line_number) := by
    have hperm : ((blocks_to_file_coverage path blocks).lines.map
        LineCoverage.line_number).Perm ((lineHitsOfBlocks blocks).map Prod.fst) := by
      rw [blocks_to_file_coverage]
      have h1 := (sortByLe_perm (fun a b : LineCoverage => a.line_number ≤ b.line_number)
        ((lineHitsOfBlocks blocks).map fun q => LineCoverage.mk q.1 q.2)).map
        LineCoverage.line_number
      rw [List.map_map] at h1
      exact h1
    have hnod : ((blocks_to_file_coverage path blocks).lines.map
        LineCoverage.line_number).Nodup :=
      hperm.nodup_iff.mpr (lineHits_keys_nodup blocks)
    have hnod' : List.Pairwise (fun a b => a ≠ b)
        ((blocks_to_file_coverage path blocks).lines.map LineCoverage.line_number) := hnod
    rw [List.pairwise_map] at hnod'
    exact hnod'
  exact (hle.and hne).imp (by intro a b hab; omega)

theorem balistGet_append_self (m : List (Line × List Block)) (k : Line) (b : Block) :
    balistGet (balistAppend m k b) k = some ((balistGet m k).getD [] ++ [b]) := by
  rw [balistAppend]
  split
  · next hany =>
    rw [balistGet, List.find?_map]
    have hcomp : ((fun q : Line × List Block => decide (q.1 = k))
        ∘ (fun q : Line × List Block => if q.1 = k then (q.1, q.2 ++ [b]) else q))
        = (fun q : Line × List Block => decide (q.1 = k)) := by
      funext q
      by_cases hq : q.1 = k <;> simp [hq]
    rw [hcomp]
    rw [List.any_eq_true] at hany
    have hsome : (m.find? fun q => decide (q.1 = k)).isSome := by
      rw [List.find?_isSome]
      obtain ⟨q, hqm, hqk⟩ := hany
      exact ⟨q, hqm, hqk⟩
    cases hf : m.find? fun q => decide (q.1 = k) with
    | none => rw [hf] at hsome; simp at hsome
    | some q0 =>
      have hq0 : q0.1 = k := by simpa using List.find?_some hf
      rw [balistGet, hf]
      simp [hq0]
  · next hany =>
    have hnone : m.find? (fun q => decide (q.1 = k)) = none := by
      rw [List.find?_eq_none]
      intro q hq hqk
      exact hany (List.any_eq_true.mpr ⟨q, hq, hqk⟩)
    rw [balistGet, List.find?_append, hnone, balistGet, hnone]
    simp [List.find?]

theorem balistGet_append_other (m : List (Line × List Block)) (k : Line) (b : Block)
    (p : Line) (h : p ≠ k) :
    balistGet (balistAppend m k b) p = balistGet m p := by
  rw [balistAppend]
  split
  · rw [balistGet, List.find?_map]
    have hcomp : ((fun q : Line × List Block => decide (q.1 = p))
        ∘ (fun q : Line × List Block => if q.1 = k then (q.1, q.2 ++ [b]) else q))
        = (fun q : Line × List Block => decide (q.1 = p)) := by
      funext q
      by_cases hq : q.1 = k <;> simp [hq]
    rw [hcomp, balistGet]
    cases hf : m.find? fun q => decide (q.1 = p) with
    | none => rfl
    | some q0 =>
      have hq0 : q0.1 = p := by simpa using List.find?_some hf
      have : ¬ (q0.1 = k) := by rw [hq0]; exact h
      simp [this]
  · rw [balistGet, List.find?_append, balistGet]
    have hsingle : List.find? (fun q : Line × List Block => decide (q.1 = p)) [(k, [b])]
        = none := by
      rw [List.find?_eq_none]
      intro x hx
      simp at hx
      simp [hx, Ne.symm h]
    rw [hsingle]
    cases hf : m.find? fun q => decide (q.1 = p) <;> rfl

theorem balist_any_iff (m : List (Line × List Block)) (k : Line) :
    (m.any fun q => q.1 = k) = true ↔ (balistGet m k).isSome = true := by
  rw [List.any_eq_true, balistGet]
  have hmap : (Option.map (fun x : Line × List Block => x.2)
      (List.find? (fun q => decide (q.1 = k)) m)).isSome
      = (List.find? (fun q => decide (q.1 = k)) m).isSome := by
    cases List.find? (fun q => decide (q.1 = k)) m <;> rfl
  rw [hmap, List.find?_isSome]

theorem dedupFirstSeen_append (ps : List (Line × Block)) (p : Line × Block) :
    dedupFirstSeen (ps ++ [p])
      = if (dedupFirstSeen ps).contains p.1
          then dedupFirstSeen ps else dedupFirstSeen ps ++ [p.1] := by
  simp [dedupFirstSeen, List.foldl_append]

theorem dedupFoldMem (ps : List (Line × Block)) (acc : List Line) (x : Line) :
    x ∈ ps.foldl (fun acc p => if acc.contains p.1 then acc else acc ++ [p.1]) acc
      ↔ x ∈ acc ∨ x ∈ ps.map Prod.fst := by
  induction ps generalizing acc with
  | nil => simp
  | cons q t ih =>
    rw [List.foldl_cons, ih]
    by_cases hc : acc.contains q.1
    · rw [if_pos hc]
      have hq : q.1 ∈ acc := by simpa using hc
      rw [List.map_cons]
      constructor
      · rintro (hx | hx)
        · exact Or.inl hx
        · exact Or.inr (List.mem_cons_of_mem _ hx)
      · rintro (hx | hx)
        · exact Or.inl hx
        · rcases List.mem_cons.mp hx with hxq | hxt
          · exact Or.inl (hxq ▸ hq)
          · exact Or.inr hxt
    · rw [if_neg hc]
      rw [List.map_cons]
      simp only [List.mem_append, List.mem_singleton, List.mem_cons]
      tauto

theorem dedupFirstSeen_mem (ps : List (Line × Block)) (x : Line) :
    x ∈ dedupFirstSeen ps ↔ x ∈ ps.map Prod.fst := by
  rw [dedupFirstSeen, dedupFoldMem]
  simp only [List.not_mem_nil, false_or]

theorem blocksForPath_append (ps : List (Line × Block)) (q : Line × Block) (p : Line) :
    blocksForPath (ps ++ [q]) p
      = blocksForPath ps p ++ if q.1 = p then [q.2] else [] := by
  rw [blocksForPath, blocksForPath, List.filter_append, List.map_append]
  by_cases h : q.1 = p <;> simp [h, List.filter]

theorem blocksForPath_nil_of_not_mem (ps : List (Line × Block)) (p : Line)
    (h : p ∉ ps.map Prod.fst) : blocksForPath ps p = [] := by
  rw [blocksForPath]
  have : ps.filter (fun q => q.1 = p) = [] := by
    rw [List.filter_eq_nil_iff]
    intro q hq
    simp only [decide_eq_true_eq]
    intro he
    exact h (List.mem_map.mpr ⟨q, hq, he⟩)
  rw [this]
  rfl

theorem goFold_inv (input : List Line) (st : List Line × List (Line × List Block))
    (ps : List (Line × Block))
    (h1 : st.1 = dedupFirstSeen ps)
    (h2 : ∀ p : Line, balistGet st.2 p
        = if p ∈ ps.map Prod.fst then some (blocksForPath ps p) else none) :
    (input.foldl goLineStep st).1 = dedupFirstSeen (ps ++ goBlocksOf input)
    ∧ ∀ p : Line, balistGet (input.foldl goLineStep st).2 p
        = if p ∈ (ps ++ goBlocksOf input).map Prod.fst
            then some (blocksForPath (ps ++ goBlocksOf input) p) else none := by
  induction input generalizing st ps with
  | nil =>
    simp only [List.foldl_nil, goBlocksOf, List.filterMap_nil, List.append_nil]
    exact ⟨h1, h2⟩
  | cons raw rest ih =>
    rw [List.foldl_cons]
    by_cases hskip : ((trimChars raw).isEmpty || ("mode:".data).isPrefixOf (trimChars raw)) = true
    · have hstep : goLineStep st raw = st := by
        rw [goLineStep]
        simp only [hskip, if_true]
      have hblocks : goBlocksOf (raw :: rest) = goBlocksOf rest := by
        rw [goBlocksOf, List.filterMap_cons, goBlocksOf]
        simp only [hskip, if_true]
      rw [hstep, hblocks]
      exact ih st ps h1 h2
    · cases hpb : parse_block_line (trimChars raw) with
      | none =>
        have hstep : goLineStep st raw = st := by
          rw [goLineStep]
          simp only [hskip, Bool.false_eq_true, if_false, hpb]
        have hblocks : goBlocksOf (raw :: rest) = goBlocksOf rest := by
          rw [goBlocksOf, List.filterMap_cons, goBlocksOf]
          simp only [hskip, Bool.false_eq_true, if_false, hpb]
        rw [hstep, hblocks]
        exact ih st ps h1 h2
      | some fb =>
        obtain ⟨file, block⟩ := fb
        have hstep : goLineStep st raw
            = (if st.2.any (fun q => q.1 = file) then st.1 else st.1 ++ [file],
                balistAppend st.2 file block) := by
          rw [goLineStep]
          simp only [hskip, Bool.false_eq_true, if_false, hpb]
        have hblocks : goBlocksOf (raw :: rest) = (file, block) :: goBlocksOf rest := by
          rw [goBlocksOf, List.filterMap_cons, goBlocksOf]
          simp only [hskip, Bool.false_eq_true, if_false, hpb]
        rw [hstep, hblocks]
        have hanyiff : (st.2.any fun q => q.1 = file) = true ↔ file ∈ ps.map Prod.fst := by
          rw [balist_any_iff, h2 file]
          by_cases hmem : file ∈ ps.map Prod.fst <;> simp [hmem]
        have h1' : (if st.2.any (fun q => q.1 = file) then st.1 else st.1 ++ [file])
            = dedupFirstSeen (ps ++ [(file, block)]) := by
          rw [dedupFirstSeen_append]
          have hciff : ((dedupFirstSeen ps).contains file) = true ↔ file ∈ ps.map Prod.fst := by
            constructor
            · intro hh
              exact (dedupFirstSeen_mem ps file).mp (by simpa using hh)
            · intro hh
              simpa using (dedupFirstSeen_mem ps file).mpr hh
          by_cases hmem : file ∈ ps.map Prod.fst
          · rw [if_pos (hanyiff.mpr hmem), if_pos (hciff.mpr hmem), h1]
          · rw [if_neg (fun hh => hmem (hanyiff.mp hh)),
              if_neg (fun hh => hmem (hciff.mp hh)), h1]
        have h2' : ∀ p : Line, balistGet (balistAppend st.2 file block) p
            = if p ∈ (ps ++ [(file, block)]).map Prod.fst
                then some (blocksForPath (ps ++ [(file, block)]) p) else none := by
          intro p
          by_cases hp : p = file
          · subst hp
            rw [balistGet_append_self, h2 p, blocksForPath_append]
            have hmem' : p ∈ (ps ++ [(p, block)]).map Prod.fst := by
              rw [List.map_append, List.map_cons, List.map_nil]
              exact List.mem_append.mpr (Or.inr (List.mem_singleton.mpr rfl))
            rw [if_pos hmem']
            have hifp : (if (p, block).1 = p then [(p, block).2] else []) = [block] := by
              show (if p = p then [block] else []) = [block]
              rw [if_pos rfl]
            rw [hifp]
            by_cases hmem : p ∈ ps.map Prod.fst
            · rw [if_pos hmem, Option.getD_some]
            · rw [if_neg hmem, blocksForPath_nil_of_not_mem ps p hmem, Option.getD_none]
          · rw [balistGet_append_other _ _ _ _ hp, h2 p, blocksForPath_append]
            have hnil : (if (file, block).1 = p then [(file, block).2] else []) = [] := by
              show (if file = p then [block] else []) = []
              rw [if_neg (Ne.symm hp)]
            rw [hnil, List.append_nil]
            have hiff : p ∈ (ps ++ [(file, block)]).map Prod.fst ↔ p ∈ ps.map Prod.fst := by
              rw [List.map_append, List.map_cons, List.map_nil]
              constructor
              · intro hh
                rcases List.mem_append.mp hh with h' | h'
                · exact h'
                · exact absurd (List.mem_singleton.mp h') hp
              · intro hh
                exact List.mem_append.mpr (Or.inl hh)
            by_cases hmem : p ∈ ps.map Prod.fst
            · rw [if_pos hmem, if_pos (hiff.mpr hmem)]
            · rw [if_neg hmem, if_neg (fun hh => hmem (hiff.mp hh))]
        have := ih (if st.2.any (fun q => q.1 = file) then st.1 else st.1 ++ [file],
            balistAppend st.2 file block) (ps ++ [(file, block)]) h1' h2'
        rwa [List.append_assoc, List.singleton_append] at this

/-- C8: Go cover line expansion. For every Go cover profile, the parser groups
block lines by file path preserving first-seen order (one `FileCoverage` per
path, in that order); each emitted file's lines are exactly the integer lines
covered by some of its blocks' inclusive `[start_line, end_line]` ranges, each
carrying the maximum `count` over all its blocks covering that line, sorted
strictly by line number, with no branch or function entries. In particular the
spec's example `f.go:5.1,10.10 3 2` + `f.go:8.1,12.10 2 7` yields lines 5-7
with hit count 2 and lines 8-12 with hit count 7. -/
theorem c8_gocover (input : List Line) :
    ((gocover_parse_lines input).map FileCoverage.path
        = (dedupFirstSeen (goBlocksOf input)).map String.mk)
    ∧ (∀ fc ∈ gocover_parse_lines input,
        (∀ L : Nat, (∃ lc ∈ fc.lines, lc.line_number = L) ↔
            ∃ b ∈ blocksForPath (goBlocksOf input) fc.path.data,
              b.start_line ≤ L ∧ L ≤ b.end_line)
        ∧ (∀ lc ∈ fc.lines,
            lc.hit_count
              = maxCount (blocksForPath (goBlocksOf input) fc.path.data) lc.line_number)
        ∧ fc.lines.Pairwise (fun x y => x.line_number < y.line_number)
        ∧ fc.branches = [] ∧ fc.functions = [])
    ∧ gocover_parse
          "mode: count\nexample.com/pkg/f.go:5.1,10.10 3 2\nexample.com/pkg/f.go:8.1,12.10 2 7"
        = [⟨"example.com/pkg/f.go",
            [⟨5, 2⟩, ⟨6, 2⟩, ⟨7, 2⟩, ⟨8, 7⟩, ⟨9, 7⟩, ⟨10, 7⟩, ⟨11, 7⟩, ⟨12, 7⟩],
            [], []⟩] := by
  have hinv := goFold_inv input ([], []) [] rfl (by
    intro p
    simp [balistGet])
  rw [List.nil_append] at hinv
  obtain ⟨hinv1, hinv2⟩ := hinv
  refine ⟨?_, ?_, by decide⟩
  · simp only [gocover_parse_lines]
    rw [List.map_map, hinv1]
    apply List.map_congr_left
    intro p hp
    rfl
  · intro fc hfc
    simp only [gocover_parse_lines] at hfc
    rw [List.mem_map] at hfc
    obtain ⟨p, hp, rfl⟩ := hfc
    have hpmem : p ∈ (goBlocksOf input).map Prod.fst :=
      (dedupFirstSeen_mem _ _).mp (hinv1 ▸ hp)
    have hbg : (balistGet (input.foldl goLineStep ([], [])).2 p).getD []
        = blocksForPath (goBlocksOf input) p := by
      rw [hinv2 p, if_pos hpmem, Option.getD_some]
    rw [hbg]
    have hpath : (blocks_to_file_coverage ⟨p⟩
        (blocksForPath (goBlocksOf input) p)).path.data = p := rfl
    rw [hpath]
    refine ⟨?_, ?_, btfc_lines_pairwise _ _, rfl, rfl⟩
    · intro L
      constructor
      · rintro ⟨lc, hlc, rfl⟩
        exact ((btfc_lines_mem _ _ lc).mp hlc).1
      · intro hb
        exact ⟨⟨L, maxCount (blocksForPath (goBlocksOf input) p) L⟩,
          (btfc_lines_mem _ _ _).mpr ⟨hb, rfl⟩, rfl⟩
    · intro lc hlc
      exact ((btfc_lines_mem _ _ lc).mp hlc).2

/-- Witness for C8 at the spec's example profile: line 8 of `f.go` carries the
maximum count (7) over the two overlapping blocks. -/
theorem c8_gocover_witness :
    (LineCoverage.mk 8 7).hit_count
      = maxCount
          (blocksForPath
            (goBlocksOf (linesOfChars
              ("mode: count\nexample.com/pkg/f.go:5.1,10.10 3 2\nexample.com/pkg/f.go:8.1,12.10 2 7".data)))
            (FileCoverage.mk "example.com/pkg/f.go"
              [⟨5, 2⟩, ⟨6, 2⟩, ⟨7, 2⟩, ⟨8, 7⟩, ⟨9, 7⟩, ⟨10, 7⟩, ⟨11, 7⟩, ⟨12, 7⟩]
              [] []).path.data)
          (LineCoverage.mk 8 7).line_number :=
  ((c8_gocover (linesOfChars
      ("mode: count\nexample.com/pkg/f.go:5.1,10.10 3 2\nexample.com/pkg/f.go:8.1,12.10 2 7".data))).2.1
    (FileCoverage.mk "example.com/pkg/f.go"
      [⟨5, 2⟩, ⟨6, 2⟩, ⟨7, 2⟩, ⟨8, 7⟩, ⟨9, 7⟩, ⟨10, 7⟩, ⟨11, 7⟩, ⟨12, 7⟩] [] [])
    (by decide)).2.1 (LineCoverage.mk 8 7) (by decide)


/-! ### C5 and C10: store queries and ingest frame -/
theorem c5_rows_nil (st : DBState) (path : String)
    (habs : ∀ sf ∈ st.sourceFiles, sf.path ≠ path) :
    ((linePerFileSrc (needs_union st) (lineView st)).filter fun r =>
      st.sourceFiles.any fun sf => sf.id = r.1 ∧ sf.path = path) = [] := by
  rw [List.filter_eq_nil_iff]
  intro r _
  intro hany
  rw [List.any_eq_true] at hany
  obtain ⟨sf, hsf, hm⟩ := hany
  rw [decide_eq_true_eq] at hm
  exact habs sf hsf hm.2

/-- C5: `get_file_line_rate` on a path absent from the store. The spec says it
returns successfully with `None`; the code's aggregate reads
`SUM(CASE …)` as `u64`, and over the empty join SQL `SUM` is NULL, so the read
fails with `InvalidColumnType` instead — the function errors rather than
returning `Ok(None)`. -/
theorem c5_file_line_rate (st : DBState) (path : String)
    (habs : ∀ sf ∈ st.sourceFiles, sf.path ≠ path) :
    get_file_line_rate st path = .error "InvalidColumnType: NULL SUM read as u64"
    ∧ get_file_line_rate st path ≠ .ok none := by
  have h : get_file_line_rate st path
      = .error "InvalidColumnType: NULL SUM read as u64" := by
    rw [get_file_line_rate]
    rw [c5_rows_nil st path habs]
    rfl
  exact ⟨h, by rw [h]; exact fun hc => nomatch hc⟩

/-- Witness for C5: the empty database and the path `src/main.rs`. -/
theorem c5_file_line_rate_witness :
    get_file_line_rate ⟨[], [], [], [], [], 0, 0⟩ "src/main.rs"
        = .error "InvalidColumnType: NULL SUM read as u64"
    ∧ get_file_line_rate ⟨[], [], [], [], [], 0, 0⟩ "src/main.rs" ≠ .ok none :=
  c5_file_line_rate ⟨[], [], [], [], [], 0, 0⟩ "src/main.rs" (by decide)

theorem upsertLineFold_frame (rid fid : Nat) (ls : List LineCoverage)
    (base : List LineRow) (hbase : ∀ l ∈ base, ¬ l.report_id = rid) :
    ∀ added : List LineRow, (∀ l ∈ added, l.report_id = rid) →
    ∃ added', ls.foldl
        (fun rs l => upsertLine rs ⟨rid, fid, l.line_number, l.hit_count⟩)
        (base ++ added) = base ++ added'
      ∧ ∀ l ∈ added', l.report_id = rid := by
  induction ls with
  | nil => exact fun added hadded => ⟨added, rfl, hadded⟩
  | cons c t ih =>
    intro added hadded
    rw [List.foldl_cons]
    have hstep : upsertLine (base ++ added) ⟨rid, fid, c.line_number, c.hit_count⟩
        = base ++ ((added.filter fun x => ¬(x.report_id = rid
            ∧ x.source_file_id = fid ∧ x.line_number = c.line_number))
          ++ [⟨rid, fid, c.line_number, c.hit_count⟩]) := by
      rw [upsertLine, List.filter_append, List.append_assoc]
      congr 1
      rw [List.filter_eq_self]
      intro l hl
      simp only [decide_eq_true_eq]
      intro hc
      exact hbase l hl hc.1
    rw [hstep]
    apply ih
    intro l hl
    rcases List.mem_append.mp hl with hl | hl
    · exact hadded l (List.mem_of_mem_filter hl)
    · rw [List.mem_singleton] at hl
      rw [hl]

theorem upsertBranchFold_frame (rid fid : Nat) (bs : List BranchCoverage)
    (base : List BranchRow) (hbase : ∀ b ∈ base, ¬ b.report_id = rid) :
    ∀ added : List BranchRow, (∀ b ∈ added, b.report_id = rid) →
    ∃ added', bs.foldl
        (fun rs b => upsertBranch rs ⟨rid, fid, b.line_number, b.branch_index, b.hit_count⟩)
        (base ++ added) = base ++ added'
      ∧ ∀ b ∈ added', b.report_id = rid := by
  induction bs with
  | nil => exact fun added hadded => ⟨added, rfl, hadded⟩
  | cons c t ih =>
    intro added hadded
    rw [List.foldl_cons]
    have hstep : upsertBranch (base ++ added)
        ⟨rid, fid, c.line_number, c.branch_index, c.hit_count⟩
        = base ++ ((added.filter fun x => ¬(x.report_id = rid
            ∧ x.source_file_id = fid ∧ x.line_number = c.line_number
            ∧ x.branch_index = c.branch_index))
          ++ [⟨rid, fid, c.line_number, c.branch_index, c.hit_count⟩]) := by
      rw [upsertBranch, List.filter_append, List.append_assoc]
      congr 1
      rw [List.filter_eq_self]
      intro b hb
      simp only [decide_eq_true_eq]
      intro hc
      exact hbase b hb hc.1
    rw [hstep]
    apply ih
    intro b hb
    rcases List.mem_append.mp hb with hb | hb
    · exact hadded b (List.mem_of_mem_filter hb)
    · rw [List.mem_singleton] at hb
      rw [hb]

theorem upsertFunc_frame (r : FuncRow) (base : List FuncRow)
    (hbase : ∀ x ∈ base, ¬ x.report_id = r.report_id)
    (added : List FuncRow) (hadded : ∀ x ∈ added, x.report_id = r.report_id) :
    ∃ added', upsertFunc (base ++ added) r = base ++ added'
      ∧ ∀ x ∈ added', x.report_id = r.report_id := by
  rw [upsertFunc]
  split
  · refine ⟨added.map fun x => if funcKeyMatch x r
        then { x with hit_count := r.hit_count, end_line := r.end_line } else x, ?_, ?_⟩
    · rw [List.map_append]
      congr 1
      have hb : ∀ x ∈ base, (if funcKeyMatch x r
          then { x with hit_count := r.hit_count, end_line := r.end_line } else x) = id x := by
        intro x hx
        rw [if_neg]
        · rfl
        · intro hk
          exact hbase x hx hk.1
      rw [List.map_congr_left hb, List.map_id]
    · intro x hx
      obtain ⟨y, hy, rfl⟩ := List.mem_map.mp hx
      split
      · exact hadded y hy
      · exact hadded y hy
  · exact ⟨added ++ [r], by rw [List.append_assoc], by
      intro x hx
      rcases List.mem_append.mp hx with hx | hx
      · exact hadded x hx
      · rw [List.mem_singleton] at hx
        rw [hx]⟩

theorem upsertFuncFold_frame (rid fid : Nat) (fs : List FunctionCoverage)
    (base : List FuncRow) (hbase : ∀ x ∈ base, ¬ x.report_id = rid) :
    ∀ added : List FuncRow, (∀ x ∈ added, x.report_id = rid) →
    ∃ added', fs.foldl
        (fun rs f => upsertFunc rs ⟨rid, fid, f.name, f.start_line, f.end_line, f.hit_count⟩)
        (base ++ added) = base ++ added'
      ∧ ∀ x ∈ added', x.report_id = rid := by
  induction fs with
  | nil => exact fun added hadded => ⟨added, rfl, hadded⟩
  | cons c t ih =>
    intro added hadded
    rw [List.foldl_cons]
    obtain ⟨a', ha', hr'⟩ := upsertFunc_frame
      ⟨rid, fid, c.name, c.start_line, c.end_line, c.hit_count⟩ base hbase added hadded
    rw [ha']
    exact ih a' hr'

theorem ingestFile_inv (st : DBState) (rid : Nat) (acc : IngestAcc) (fc : FileCoverage)
    (hL : ∀ l ∈ st.lineCov, ¬ l.report_id = rid)
    (hB : ∀ b ∈ st.branchCov, ¬ b.report_id = rid)
    (hF : ∀ f ∈ st.funcCov, ¬ f.report_id = rid)
    (h : FrameInv st rid acc) : FrameInv st rid (ingestFile rid acc fc) := by
  obtain ⟨⟨aS, haS, hfresh⟩, hn, ⟨aL, haL, hLr⟩, ⟨aB, haB, hBr⟩, ⟨aF, haF, hFr⟩⟩ := h
  cases hfind : acc.sourceFiles.find? fun sf => sf.path = fc.path with
  | some sf =>
    simp only [ingestFile, hfind]
    refine ⟨⟨aS, haS, hfresh⟩, hn, ?_, ?_, ?_⟩
    · rw [haL] at *
      exact upsertLineFold_frame rid sf.id fc.lines st.lineCov hL aL hLr
    · rw [haB] at *
      exact upsertBranchFold_frame rid sf.id fc.branches st.branchCov hB aB hBr
    · rw [haF] at *
      exact upsertFuncFold_frame rid sf.id fc.functions st.funcCov hF aF hFr
  | none =>
    simp only [ingestFile, hfind]
    have hnotmem : fc.path ∉ st.sourceFiles.map SourceFileRow.path := by
      intro hmem
      obtain ⟨sf, hsf, hp⟩ := List.mem_map.mp hmem
      have : acc.sourceFiles.find? (fun sf => sf.path = fc.path) ≠ none := by
        rw [Ne, List.find?_eq_none]
        intro hall
        exact absurd (by simpa using hall sf (by rw [haS]; exact List.mem_append_left _ hsf)) (by simp [hp])
      exact this hfind
    refine ⟨⟨aS ++ [⟨acc.nextFileId, fc.path⟩], by rw [haS, List.append_assoc], ?_⟩,
      by show st.nextFileId ≤ acc.nextFileId + 1; omega, ?_, ?_, ?_⟩
    · intro sf hsf
      rcases List.mem_append.mp hsf with hsf | hsf
      · exact hfresh sf hsf
      · rw [List.mem_singleton] at hsf
        rw [hsf]
        exact ⟨hn, hnotmem⟩
    · rw [haL] at *
      exact upsertLineFold_frame rid acc.nextFileId fc.lines st.lineCov hL aL hLr
    · rw [haB] at *
      exact upsertBranchFold_frame rid acc.nextFileId fc.branches st.branchCov hB aB hBr
    · rw [haF] at *
      exact upsertFuncFold_frame rid acc.nextFileId fc.functions st.funcCov hF aF hFr

theorem ingestFold_inv (st : DBState) (rid : Nat) (files : List FileCoverage)
    (hL : ∀ l ∈ st.lineCov, ¬ l.report_id = rid)
    (hB : ∀ b ∈ st.branchCov, ¬ b.report_id = rid)
    (hF : ∀ f ∈ st.funcCov, ¬ f.report_id = rid) :
    ∀ acc, FrameInv st rid acc → FrameInv st rid (files.foldl (ingestFile rid) acc) := by
  induction files with
  | nil => exact fun acc h => h
  | cons fc t ih =>
    intro acc h
    rw [List.foldl_cons]
    exact ih _ (ingestFile_inv st rid acc fc hL hB hF h)

/-- C10: ingest frame property (spec-modelled schema: cascade and constraints
from spec section 3, `schema.sql` not in `src/`). A successful
`insert_coverage_streaming` with `overwrite = false` only adds rows: every
pre-existing report, line, branch and function row is preserved unchanged (the
old tables are a prefix of the new ones), everything added carries the fresh
report id, and source files are only appended, with fresh ids and previously
unknown paths — the upsert on a known path reuses the existing row. -/
theorem c10_ingest_frame (st : DBState) (hWF : DBWF st) (name source_format : String)
    (source_file : Option String) (files : List FileCoverage) (now : String)
    (rid : Nat) (st' : DBState)
    (hok : insert_coverage_streaming st name source_format source_file files false now
        = .ok (rid, st')) :
    rid = st.nextReportId
    ∧ st'.reports = st.reports ++ [⟨rid, name, source_format, source_file, now⟩]
    ∧ (∃ added, st'.lineCov = st.lineCov ++ added ∧ ∀ l ∈ added, l.report_id = rid)
    ∧ (∃ added, st'.branchCov = st.branchCov ++ added ∧ ∀ b ∈ added, b.report_id = rid)
    ∧ (∃ added, st'.funcCov = st.funcCov ++ added ∧ ∀ f ∈ added, f.report_id = rid)
    ∧ (∃ added, st'.sourceFiles = st.sourceFiles ++ added
        ∧ ∀ sf ∈ added, st.nextFileId ≤ sf.id
          ∧ sf.path ∉ st.sourceFiles.map SourceFileRow.path) := by
  by_cases hany : (st.reports.any fun r => r.name = name) = true
  · rw [insert_coverage_streaming, insert_coverage_tx] at hok
    simp only [if_neg Bool.false_ne_true, hany, if_true] at hok
    exact Except.noConfusion hok
  · rw [insert_coverage_streaming, insert_coverage_tx] at hok
    simp only [if_neg Bool.false_ne_true, hany, Bool.false_eq_true, if_false] at hok
    rw [Except.ok.injEq, Prod.mk.injEq] at hok
    obtain ⟨hrid, hst⟩ := hok
    obtain ⟨hWF1, hWF2, hWF3, hWF4, hWF5, hWF6, hWF7, hWF8, hWF9⟩ := hWF
    have hinv := ingestFold_inv st st.nextReportId files
      (fun l hl h => absurd h (Nat.ne_of_lt (hWF2 l hl)))
      (fun b hb h => absurd h (Nat.ne_of_lt (hWF3 b hb)))
      (fun f hf h => absurd h (Nat.ne_of_lt (hWF4 f hf)))
      ⟨st.sourceFiles, st.nextFileId, st.lineCov, st.branchCov, st.funcCov⟩
      ⟨⟨[], (List.append_nil _).symm, by intro sf h; cases h⟩, Nat.le_refl _,
        ⟨[], (List.append_nil _).symm, by intro l h; cases h⟩,
        ⟨[], (List.append_nil _).symm, by intro b h; cases h⟩,
        ⟨[], (List.append_nil _).symm, by intro f h; cases h⟩⟩
    obtain ⟨⟨aS, haS, hfS⟩, _, ⟨aL, haL, hLr⟩, ⟨aB, haB, hBr⟩, ⟨aF, haF, hFr⟩⟩ := hinv
    subst hst
    subst hrid
    exact ⟨rfl, rfl, ⟨aL, haL, hLr⟩, ⟨aB, haB, hBr⟩, ⟨aF, haF, hFr⟩, ⟨aS, haS, hfS⟩⟩

/-- Witness for C10: a one-report, one-file store ingesting a payload that
touches the known path `a.rs` and a new path `b.rs`. -/
theorem c10_ingest_frame_witness :
    1 = (⟨[⟨0, "r1", "lcov", none, "t0"⟩], [⟨0, "a.rs"⟩],
        [⟨0, 0, 1, 5⟩], [], [], 1, 1⟩ : DBState).nextReportId
    ∧ (⟨[⟨0, "r1", "lcov", none, "t0"⟩, ⟨1, "r2", "lcov", none, "t1"⟩],
        [⟨0, "a.rs"⟩, ⟨1, "b.rs"⟩],
        [⟨0, 0, 1, 5⟩, ⟨1, 0, 1, 7⟩, ⟨1, 1, 2, 3⟩], [], [], 2, 2⟩ : DBState).reports
      = (⟨[⟨0, "r1", "lcov", none, "t0"⟩], [⟨0, "a.rs"⟩],
          [⟨0, 0, 1, 5⟩], [], [], 1, 1⟩ : DBState).reports
        ++ [⟨1, "r2", "lcov", none, "t1"⟩]
    ∧ (∃ added, (⟨[⟨0, "r1", "lcov", none, "t0"⟩, ⟨1, "r2", "lcov", none, "t1"⟩],
        [⟨0, "a.rs"⟩, ⟨1, "b.rs"⟩],
        [⟨0, 0, 1, 5⟩, ⟨1, 0, 1, 7⟩, ⟨1, 1, 2, 3⟩], [], [], 2, 2⟩ : DBState).lineCov
      = (⟨[⟨0, "r1", "lcov", none, "t0"⟩], [⟨0, "a.rs"⟩],
          [⟨0, 0, 1, 5⟩], [], [], 1, 1⟩ : DBState).lineCov ++ added
        ∧ ∀ l ∈ added, l.report_id = 1)
    ∧ (∃ added, (⟨[⟨0, "r1", "lcov", none, "t0"⟩, ⟨1, "r2", "lcov", none, "t1"⟩],
        [⟨0, "a.rs"⟩, ⟨1, "b.rs"⟩],
        [⟨0, 0, 1, 5⟩, ⟨1, 0, 1, 7⟩, ⟨1, 1, 2, 3⟩], [], [], 2, 2⟩ : DBState).branchCov
      = (⟨[⟨0, "r1", "lcov", none, "t0"⟩], [⟨0, "a.rs"⟩],
          [⟨0, 0, 1, 5⟩], [], [], 1, 1⟩ : DBState).branchCov ++ added
        ∧ ∀ b ∈ added, b.report_id = 1)
    ∧ (∃ added, (⟨[⟨0, "r1", "lcov", none, "t0"⟩, ⟨1, "r2", "lcov", none, "t1"⟩],
        [⟨0, "a.rs"⟩, ⟨1, "b.rs"⟩],
        [⟨0, 0, 1, 5⟩, ⟨1, 0, 1, 7⟩, ⟨1, 1, 2, 3⟩], [], [], 2, 2⟩ : DBState).funcCov
      = (⟨[⟨0, "r1", "lcov", none, "t0"⟩], [⟨0, "a.rs"⟩],
          [⟨0, 0, 1, 5⟩], [], [], 1, 1⟩ : DBState).funcCov ++ added
        ∧ ∀ f ∈ added, f.report_id = 1)
    ∧ (∃ added, (⟨[⟨0, "r1", "lcov", none, "t0"⟩, ⟨1, "r2", "lcov", none, "t1"⟩],
        [⟨0, "a.rs"⟩, ⟨1, "b.rs"⟩],
        [⟨0, 0, 1, 5⟩, ⟨1, 0, 1, 7⟩, ⟨1, 1, 2, 3⟩], [], [], 2, 2⟩ : DBState).sourceFiles
      = (⟨[⟨0, "r1", "lcov", none, "t0"⟩], [⟨0, "a.rs"⟩],
          [⟨0, 0, 1, 5⟩], [], [], 1, 1⟩ : DBState).sourceFiles ++ added
        ∧ ∀ sf ∈ added,
            (⟨[⟨0, "r1", "lcov", none, "t0"⟩], [⟨0, "a.rs"⟩],
              [⟨0, 0, 1, 5⟩], [], [], 1, 1⟩ : DBState).nextFileId ≤ sf.id
            ∧ sf.path ∉ ((⟨[⟨0, "r1", "lcov", none, "t0"⟩], [⟨0, "a.rs"⟩],
                [⟨0, 0, 1, 5⟩], [], [], 1, 1⟩ : DBState)).sourceFiles.map
                  SourceFileRow.path) :=
  c10_ingest_frame
    ⟨[⟨0, "r1", "lcov", none, "t0"⟩], [⟨0, "a.rs"⟩], [⟨0, 0, 1, 5⟩], [], [], 1, 1⟩
    (by decide) "r2" "lcov" none
    [⟨"a.rs", [⟨1, 7⟩], [], []⟩, ⟨"b.rs", [⟨2, 3⟩], [], []⟩] "t1" 1
    ⟨[⟨0, "r1", "lcov", none, "t0"⟩, ⟨1, "r2", "lcov", none, "t1"⟩],
      [⟨0, "a.rs"⟩, ⟨1, "b.rs"⟩],
      [⟨0, 0, 1, 5⟩, ⟨1, 0, 1, 7⟩, ⟨1, 1, 2, 3⟩], [], [], 2, 2⟩
    rfl


/-! ### C1: union semantics across reports -/
theorem maxFoldMono (f ln : Nat) (t : List (Nat × Nat × Nat)) :
    ∀ m m' : Nat, m ≤ m' →
      t.foldl (fun m r => if r.1 = f ∧ r.2.1 = ln then max m r.2.2 else m) m
        ≤ t.foldl (fun m r => if r.1 = f ∧ r.2.1 = ln then max m r.2.2 else m) m' := by
  induction t with
  | nil => exact fun m m' h => h
  | cons b u ihu =>
    intro m m' hmm
    rw [List.foldl_cons, List.foldl_cons]
    by_cases hb : b.1 = f ∧ b.2.1 = ln
    · rw [if_pos hb, if_pos hb]
      exact ihu _ _ (by omega)
    · rw [if_neg hb, if_neg hb]
      exact ihu _ _ hmm

theorem maxFoldInit (f ln : Nat) (t : List (Nat × Nat × Nat)) :
    ∀ m : Nat, m ≤ t.foldl (fun m r => if r.1 = f ∧ r.2.1 = ln then max m r.2.2 else m) m := by
  induction t with
  | nil => exact fun m => Nat.le_refl m
  | cons b u ihu =>
    intro m
    rw [List.foldl_cons]
    by_cases hb : b.1 = f ∧ b.2.1 = ln
    · rw [if_pos hb]
      exact Nat.le_trans (Nat.le_max_left m b.2.2) (ihu _)
    · rw [if_neg hb]
      exact ihu m

theorem maxHitLine_le (lv : List (Nat × Nat × Nat)) (f ln : Nat) :
    ∀ r ∈ lv, r.1 = f → r.2.1 = ln → r.2.2 ≤ maxHitLine lv f ln := by
  have hgen : ∀ (l : List (Nat × Nat × Nat)) (m : Nat), ∀ r ∈ l, r.1 = f → r.2.1 = ln →
      r.2.2 ≤ l.foldl (fun m r => if r.1 = f ∧ r.2.1 = ln then max m r.2.2 else m) m := by
    intro l
    induction l with
    | nil => intro m r hr; cases hr
    | cons a t ih =>
      intro m r hr h1 h2
      rcases List.mem_cons.mp hr with rfl | hrt
      · rw [List.foldl_cons, if_pos ⟨h1, h2⟩]
        exact Nat.le_trans (Nat.le_max_right m r.2.2) (maxFoldInit f ln t _)
      · rw [List.foldl_cons]
        exact ih _ r hrt h1 h2
  exact hgen lv 0

theorem maxHitLine_attained (lv : List (Nat × Nat × Nat)) (f ln : Nat)
    (h : ∃ r ∈ lv, r.1 = f ∧ r.2.1 = ln) :
    ∃ r ∈ lv, r.1 = f ∧ r.2.1 = ln ∧ maxHitLine lv f ln = r.2.2 := by
  have hgen : ∀ (l : List (Nat × Nat × Nat)) (m : Nat),
      (l.foldl (fun m r => if r.1 = f ∧ r.2.1 = ln then max m r.2.2 else m) m = m
        ∨ ∃ r ∈ l, r.1 = f ∧ r.2.1 = ln
          ∧ l.foldl (fun m r => if r.1 = f ∧ r.2.1 = ln then max m r.2.2 else m) m = r.2.2) := by
    intro l
    induction l with
    | nil => exact fun m => Or.inl rfl
    | cons a t ih =>
      intro m
      rw [List.foldl_cons]
      by_cases ha : a.1 = f ∧ a.2.1 = ln
      · rw [if_pos ha]
        rcases ih (max m a.2.2) with he | ⟨r, hr, h1, h2, h3⟩
        · rw [he]
          rcases Nat.le_total m a.2.2 with hle | hle
          · exact Or.inr ⟨a, List.mem_cons_self a t, ha.1, ha.2, by omega⟩
          · left
            omega
        · exact Or.inr ⟨r, List.mem_cons_of_mem a hr, h1, h2, h3⟩
      · rw [if_neg ha]
        rcases ih m with he | ⟨r, hr, h1, h2, h3⟩
        · exact Or.inl he
        · exact Or.inr ⟨r, List.mem_cons_of_mem a hr, h1, h2, h3⟩
  obtain ⟨r0, hr0, hf0, hl0⟩ := h
  rcases hgen lv 0 with he | ⟨r, hr, h1, h2, h3⟩
  · refine ⟨r0, hr0, hf0, hl0, ?_⟩
    have := maxHitLine_le lv f ln r0 hr0 hf0 hl0
    rw [maxHitLine] at *
    omega
  · exact ⟨r, hr, h1, h2, h3⟩

theorem maxHitLine_filter (lv : List (Nat × Nat × Nat)) (f ln : Nat)
    (q : Nat × Nat × Nat → Bool) (hq : ∀ r, r.1 = f → r.2.1 = ln → q r = true) :
    maxHitLine (lv.filter q) f ln = maxHitLine lv f ln := by
  have hgen : ∀ (l : List (Nat × Nat × Nat)) (m : Nat),
      (l.filter q).foldl (fun m r => if r.1 = f ∧ r.2.1 = ln then max m r.2.2 else m) m
        = l.foldl (fun m r => if r.1 = f ∧ r.2.1 = ln then max m r.2.2 else m) m := by
    intro l
    induction l with
    | nil => exact fun m => rfl
    | cons a t ih =>
      intro m
      rw [List.foldl_cons, List.filter_cons]
      by_cases ha : a.1 = f ∧ a.2.1 = ln
      · rw [if_pos (hq a ha.1 ha.2), List.foldl_cons, if_pos ha]
        exact ih _
      · rw [if_neg ha]
        cases hqa : q a
        · rw [if_neg (by simp [hqa])]
          exact ih m
        · rw [if_pos (by simp), List.foldl_cons, if_neg ha]
          exact ih m
  exact hgen lv 0

theorem firstSeenFoldMem {κ : Type} [DecidableEq κ] (ks : List κ) (acc : List κ) (x : κ) :
    x ∈ ks.foldl (fun acc k => if k ∈ acc then acc else acc ++ [k]) acc
      ↔ x ∈ acc ∨ x ∈ ks := by
  induction ks generalizing acc with
  | nil => simp
  | cons k t ih =>
    rw [List.foldl_cons, ih]
    by_cases hk : k ∈ acc
    · rw [if_pos hk]
      constructor
      · rintro (hx | hx)
        · exact Or.inl hx
        · exact Or.inr (List.mem_cons_of_mem k hx)
      · rintro (hx | hx)
        · exact Or.inl hx
        · rcases List.mem_cons.mp hx with rfl | hxt
          · exact Or.inl hk
          · exact Or.inr hxt
    · rw [if_neg hk]
      constructor
      · rintro (hx | hx)
        · rcases List.mem_append.mp hx with hx | hx
          · exact Or.inl hx
          · rw [List.mem_singleton] at hx
            exact Or.inr (hx ▸ List.mem_cons_self k t)
        · exact Or.inr (List.mem_cons_of_mem k hx)
      · rintro (hx | hx)
        · exact Or.inl (List.mem_append_left _ hx)
        · rcases List.mem_cons.mp hx with rfl | hxt
          · exact Or.inl (List.mem_append_right _ (List.mem_singleton.mpr rfl))
          · exact Or.inr hxt

theorem firstSeen_mem {κ : Type} [DecidableEq κ] (ks : List κ) (x : κ) :
    x ∈ firstSeen ks ↔ x ∈ ks := by
  rw [firstSeen, firstSeenFoldMem]
  simp only [List.not_mem_nil, false_or]

/-- C1: union semantics across reports (spec-modelled schema, see section 3 of
the spec; `schema.sql` is not in `src/`). With more than one report, for any
two reports recording line `L` of a stored file with counts `c1`, `c2`,
`get_lines` emits one detail for `L` whose hit count is the maximum over all
reports recording `L` (an actual stored count, at least `c1` and `c2`, and an
upper bound of every stored count for `L`), and the `diff_coverage` per-file
query reports the same maximal count for `L`. With at most one report both
queries read the raw table: the emitted details are exactly the raw rows. -/
theorem c1_union_semantics (st : DBState) (path : String) (sf : SourceFileRow)
    (L c1 c2 rid1 rid2 : Nat) (lns : List Nat)
    (hsf : (st.sourceFiles.find? fun s => s.path = path) = some sf)
    (hmulti : 1 < st.reports.length)
    (h1 : LineRow.mk rid1 sf.id L c1 ∈ st.lineCov)
    (h2 : LineRow.mk rid2 sf.id L c2 ∈ st.lineCov)
    (hL : L ∈ lns) :
    (∃ ds, get_lines st path = .ok ds
      ∧ ∃ d ∈ ds, d.line_number = L
        ∧ (L, d.hit_count) ∈ diffQueryRows st sf.id lns
        ∧ c1 ≤ d.hit_count ∧ c2 ≤ d.hit_count
        ∧ (∃ l ∈ st.lineCov, l.source_file_id = sf.id ∧ l.line_number = L
            ∧ l.hit_count = d.hit_count)
        ∧ (∀ l ∈ st.lineCov, l.source_file_id = sf.id → l.line_number = L
            → l.hit_count ≤ d.hit_count))
    ∧ (∀ (st' : DBState) (path' : String) (sf' : SourceFileRow) (ds' : List LineDetail),
        st'.reports.length ≤ 1 →
        (st'.sourceFiles.find? fun s => s.path = path') = some sf' →
        get_lines st' path' = .ok ds' →
        (ds'.map fun d => (d.line_number, d.hit_count)).Perm
          (((lineView st').filter fun r => r.1 = sf'.id).map fun r => (r.2.1, r.2.2))) := by
  have hu : needs_union st = true := by
    simp only [needs_union, decide_eq_true_eq]
    exact hmulti
  constructor
  · have hget : get_lines st path = .ok ((sortByLe (fun a b : Nat => a ≤ b)
        (firstSeen (((lineView st).filter fun r => r.1 = sf.id).map (·.2.1)))).map
        fun ln => ⟨ln, maxHitLine ((lineView st).filter fun r => r.1 = sf.id) sf.id ln⟩) := by
      simp only [get_lines, hsf, hu, if_true]
    have hr1lv : ((sf.id, L, c1) : Nat × Nat × Nat) ∈ lineView st :=
      List.mem_map.mpr ⟨⟨rid1, sf.id, L, c1⟩, h1, rfl⟩
    have hr2lv : ((sf.id, L, c2) : Nat × Nat × Nat) ∈ lineView st :=
      List.mem_map.mpr ⟨⟨rid2, sf.id, L, c2⟩, h2, rfl⟩
    have hr1rows : ((sf.id, L, c1) : Nat × Nat × Nat)
        ∈ (lineView st).filter fun r => r.1 = sf.id :=
      List.mem_filter.mpr ⟨hr1lv, by simp⟩
    have hr2rows : ((sf.id, L, c2) : Nat × Nat × Nat)
        ∈ (lineView st).filter fun r => r.1 = sf.id :=
      List.mem_filter.mpr ⟨hr2lv, by simp⟩
    have hkey : L ∈ ((lineView st).filter fun r => r.1 = sf.id).map (·.2.1) :=
      List.mem_map.mpr ⟨(sf.id, L, c1), hr1rows, rfl⟩
    refine ⟨_, hget,
      ⟨L, maxHitLine ((lineView st).filter fun r => r.1 = sf.id) sf.id L⟩,
      List.mem_map.mpr ⟨L,
        (sortByLe_perm _ _).mem_iff.mpr ((firstSeen_mem _ _).mpr hkey), rfl⟩,
      rfl, ?_, ?_, ?_, ?_, ?_⟩
    · have hr1rows' : ((sf.id, L, c1) : Nat × Nat × Nat)
          ∈ (lineView st).filter fun r => r.1 = sf.id ∧ r.2.1 ∈ lns :=
        List.mem_filter.mpr ⟨hr1lv, by simp [hL]⟩
      have hmax : maxHitLine ((lineView st).filter fun r => r.1 = sf.id ∧ r.2.1 ∈ lns)
          sf.id L
          = maxHitLine ((lineView st).filter fun r => r.1 = sf.id) sf.id L := by
        rw [maxHitLine_filter _ _ _ _ (fun r hf hl => by simp [hf, hl, hL]),
          maxHitLine_filter _ _ _ _ (fun r hf hl => by simp [hf])]
      simp only [diffQueryRows, hu, if_true]
      refine List.mem_map.mpr ⟨L, (firstSeen_mem _ _).mpr
        (List.mem_map.mpr ⟨(sf.id, L, c1), hr1rows', rfl⟩), ?_⟩
      rw [hmax]
    · exact maxHitLine_le _ sf.id L (sf.id, L, c1) hr1rows rfl rfl
    · exact maxHitLine_le _ sf.id L (sf.id, L, c2) hr2rows rfl rfl
    · obtain ⟨r, hrrows, hrf, hrln, heq⟩ := maxHitLine_attained
        ((lineView st).filter fun r => r.1 = sf.id) sf.id L
        ⟨(sf.id, L, c1), hr1rows, rfl, rfl⟩
      obtain ⟨ra, rb, rc⟩ := r
      obtain ⟨l, hl, hproj⟩ := List.mem_map.mp (List.mem_of_mem_filter hrrows)
      simp only [Prod.mk.injEq] at hproj
      refine ⟨l, hl, ?_, ?_, ?_⟩
      · exact hproj.1.trans hrf
      · exact hproj.2.1.trans hrln
      · exact hproj.2.2.trans heq.symm
    · intro l hl hlf hlln
      have hmem : ((l.source_file_id, l.line_number, l.hit_count) : Nat × Nat × Nat)
          ∈ (lineView st).filter fun r => r.1 = sf.id :=
        List.mem_filter.mpr ⟨List.mem_map.mpr ⟨l, hl, rfl⟩, by simp [hlf]⟩
      exact maxHitLine_le _ sf.id L _ hmem hlf hlln
  · intro st' path' sf' ds' hle hsf' hok
    have hu' : needs_union st' = false := by
      simp only [needs_union, decide_eq_false_iff_not]
      omega
    simp only [get_lines, hsf', hu', Bool.false_eq_true, if_false,
      Except.ok.injEq] at hok
    rw [← hok, List.map_map]
    exact (sortByLe_perm _ _).map _

/-- Witness for C1: two reports, hit counts 3 and 7 for line 10 of `f.rs`. -/
theorem c1_union_semantics_witness :
    (∃ ds, get_lines ⟨[⟨0, "a", "lcov", none, "t0"⟩, ⟨1, "b", "lcov", none, "t1"⟩],
        [⟨0, "f.rs"⟩], [⟨0, 0, 10, 3⟩, ⟨1, 0, 10, 7⟩], [], [], 2, 1⟩ "f.rs" = .ok ds
      ∧ ∃ d ∈ ds, d.line_number = 10
        ∧ (10, d.hit_count) ∈ diffQueryRows
            ⟨[⟨0, "a", "lcov", none, "t0"⟩, ⟨1, "b", "lcov", none, "t1"⟩],
              [⟨0, "f.rs"⟩], [⟨0, 0, 10, 3⟩, ⟨1, 0, 10, 7⟩], [], [], 2, 1⟩
            (⟨0, "f.rs"⟩ : SourceFileRow).id [10]
        ∧ 3 ≤ d.hit_count ∧ 7 ≤ d.hit_count
        ∧ (∃ l ∈ (⟨[⟨0, "a", "lcov", none, "t0"⟩, ⟨1, "b", "lcov", none, "t1"⟩],
              [⟨0, "f.rs"⟩], [⟨0, 0, 10, 3⟩, ⟨1, 0, 10, 7⟩], [], [], 2, 1⟩ : DBState).lineCov,
            l.source_file_id = (⟨0, "f.rs"⟩ : SourceFileRow).id ∧ l.line_number = 10
            ∧ l.hit_count = d.hit_count)
        ∧ (∀ l ∈ (⟨[⟨0, "a", "lcov", none, "t0"⟩, ⟨1, "b", "lcov", none, "t1"⟩],
              [⟨0, "f.rs"⟩], [⟨0, 0, 10, 3⟩, ⟨1, 0, 10, 7⟩], [], [], 2, 1⟩ : DBState).lineCov,
            l.source_file_id = (⟨0, "f.rs"⟩ : SourceFileRow).id → l.line_number = 10
            → l.hit_count ≤ d.hit_count))
    ∧ (∀ (st' : DBState) (path' : String) (sf' : SourceFileRow) (ds' : List LineDetail),
        st'.reports.length ≤ 1 →
        (st'.sourceFiles.find? fun s => s.path = path') = some sf' →
        get_lines st' path' = .ok ds' →
        (ds'.map fun d => (d.line_number, d.hit_count)).Perm
          (((lineView st').filter fun r => r.1 = sf'.id).map fun r => (r.2.1, r.2.2))) :=
  c1_union_semantics
    ⟨[⟨0, "a", "lcov", none, "t0"⟩, ⟨1, "b", "lcov", none, "t1"⟩],
      [⟨0, "f.rs"⟩], [⟨0, 0, 10, 3⟩, ⟨1, 0, 10, 7⟩], [], [], 2, 1⟩
    "f.rs" ⟨0, "f.rs"⟩ 10 3 7 0 1 [10]
    (by decide) (by decide) (by decide) (by decide) (by decide)


/-! ### C6: overwrite idempotence -/
theorem mem_upsertLineFold (rid fid : Nat) (ls : List LineCoverage)
    (P : LineRow → Prop)
    (hnew : ∀ l : LineCoverage, P ⟨rid, fid, l.line_number, l.hit_count⟩) :
    ∀ rows : List LineRow, (∀ r ∈ rows, P r) →
    ∀ r ∈ ls.foldl (fun rs l => upsertLine rs ⟨rid, fid, l.line_number, l.hit_count⟩) rows,
      P r := by
  induction ls with
  | nil => exact fun rows h => h
  | cons c t ih =>
    intro rows h
    rw [List.foldl_cons]
    apply ih
    intro r hr
    rcases List.mem_append.mp hr with hr | hr
    · exact h r (List.mem_of_mem_filter hr)
    · rw [List.mem_singleton] at hr
      exact hr ▸ hnew c

theorem mem_upsertBranchFold (rid fid : Nat) (bs : List BranchCoverage)
    (P : BranchRow → Prop)
    (hnew : ∀ b : BranchCoverage, P ⟨rid, fid, b.line_number, b.branch_index, b.hit_count⟩) :
    ∀ rows : List BranchRow, (∀ r ∈ rows, P r) →
    ∀ r ∈ bs.foldl
        (fun rs b => upsertBranch rs ⟨rid, fid, b.line_number, b.branch_index, b.hit_count⟩)
        rows, P r := by
  induction bs with
  | nil => exact fun rows h => h
  | cons c t ih =>
    intro rows h
    rw [List.foldl_cons]
    apply ih
    intro r hr
    rcases List.mem_append.mp hr with hr | hr
    · exact h r (List.mem_of_mem_filter hr)
    · rw [List.mem_singleton] at hr
      exact hr ▸ hnew c

theorem mem_upsertFuncFold (rid fid : Nat) (fs : List FunctionCoverage)
    (P : FuncRow → Prop)
    (hnew : ∀ f : FunctionCoverage, P ⟨rid, fid, f.name, f.start_line, f.end_line, f.hit_count⟩)
    (hupd : ∀ x : FuncRow, P x → ∀ h : Nat, ∀ e : Option Nat,
      P { x with hit_count := h, end_line := e }) :
    ∀ rows : List FuncRow, (∀ r ∈ rows, P r) →
    ∀ r ∈ fs.foldl
        (fun rs f => upsertFunc rs ⟨rid, fid, f.name, f.start_line, f.end_line, f.hit_count⟩)
        rows, P r := by
  induction fs with
  | nil => exact fun rows h => h
  | cons c t ih =>
    intro rows h
    rw [List.foldl_cons]
    apply ih
    intro r hr
    rw [upsertFunc] at hr
    split at hr
    · obtain ⟨x, hx, rfl⟩ := List.mem_map.mp hr
      split
      · exact hupd x (h x hx) _ _
      · exact h x hx
    · rcases List.mem_append.mp hr with hr | hr
      · exact h r hr
      · rw [List.mem_singleton] at hr
        exact hr ▸ hnew c

theorem run1WF_ingest (r1 : Nat) (a : IngestAcc) (fc : FileCoverage)
    (h : Run1WF r1 a) : Run1WF r1 (ingestFile r1 a fc) := by
  obtain ⟨hL, hB, hF, hS, hLf, hBf, hFf, hN⟩ := h
  have key : ∀ (fid : Nat) (sfs : List SourceFileRow) (nf : Nat),
      fid < nf →
      (∀ sf ∈ sfs, sf.id < nf) →
      (sfs.map SourceFileRow.path).Nodup →
      a.nextFileId ≤ nf →
      ingestFile r1 a fc = IngestAcc.mk sfs nf
        (fc.lines.foldl
          (fun rs l => upsertLine rs ⟨r1, fid, l.line_number, l.hit_count⟩) a.lineCov)
        (fc.branches.foldl
          (fun rs b => upsertBranch rs ⟨r1, fid, b.line_number, b.branch_index, b.hit_count⟩)
          a.branchCov)
        (fc.functions.foldl
          (fun rs f => upsertFunc rs ⟨r1, fid, f.name, f.start_line, f.end_line, f.hit_count⟩)
          a.funcCov) →
      Run1WF r1 (ingestFile r1 a fc) := by
    intro fid sfs nf hfid hsfs hnd hmono heq
    rw [heq]
    refine ⟨?_, ?_, ?_, hsfs, ?_, ?_, ?_, hnd⟩
    · exact mem_upsertLineFold r1 fid fc.lines _ (fun l => Or.inl rfl) a.lineCov hL
    · exact mem_upsertBranchFold r1 fid fc.branches _ (fun b => Or.inl rfl) a.branchCov hB
    · exact mem_upsertFuncFold r1 fid fc.functions _ (fun f => Or.inl rfl)
        (fun x hx _ _ => hx) a.funcCov hF
    · exact mem_upsertLineFold r1 fid fc.lines _ (fun l => hfid) a.lineCov
        (fun l hl => Nat.lt_of_lt_of_le (hLf l hl) hmono)
    · exact mem_upsertBranchFold r1 fid fc.branches _ (fun b => hfid) a.branchCov
        (fun b hb => Nat.lt_of_lt_of_le (hBf b hb) hmono)
    · exact mem_upsertFuncFold r1 fid fc.functions _ (fun f => hfid)
        (fun x hx _ _ => hx) a.funcCov
        (fun f hf => Nat.lt_of_lt_of_le (hFf f hf) hmono)
  cases hfind : a.sourceFiles.find? fun sf => sf.path = fc.path with
  | some sf =>
    refine key sf.id a.sourceFiles a.nextFileId
      (hS sf (List.mem_of_find?_eq_some hfind)) hS hN (Nat.le_refl _) ?_
    simp only [ingestFile, hfind]
  | none =>
    refine key a.nextFileId (a.sourceFiles ++ [⟨a.nextFileId, fc.path⟩]) (a.nextFileId + 1)
      (Nat.lt_succ_self _) ?_ ?_ (Nat.le_succ _) ?_
    · intro sf hsf
      rcases List.mem_append.mp hsf with hsf | hsf
      · exact Nat.lt_succ_of_lt (hS sf hsf)
      · rw [List.mem_singleton] at hsf
        rw [hsf]
        exact Nat.lt_succ_self _
    · rw [List.map_append]
      simp only [List.map_cons, List.map_nil]
      rw [List.nodup_append]
      refine ⟨hN, List.nodup_singleton _, ?_⟩
      intro p hp hq
      rw [List.mem_singleton] at hq
      subst hq
      obtain ⟨sf, hsf, hsfp⟩ := List.mem_map.mp hp
      have := List.find?_eq_none.mp hfind sf hsf
      simp [hsfp] at this
    · simp only [ingestFile, hfind]

theorem run1WF_fold (r1 : Nat) (ds : List FileCoverage) :
    ∀ a : IngestAcc, Run1WF r1 a → Run1WF r1 (ds.foldl (ingestFile r1) a) := by
  induction ds with
  | nil => exact fun a h => h
  | cons fc t ih =>
    intro a h
    rw [List.foldl_cons]
    exact ih _ (run1WF_ingest r1 a fc h)

theorem ingest_counter_le (r : Nat) (a : IngestAcc) (fc : FileCoverage) :
    a.nextFileId ≤ (ingestFile r a fc).nextFileId := by
  cases hfind : a.sourceFiles.find? fun sf => sf.path = fc.path with
  | some sf =>
    simp only [ingestFile, hfind]
    exact Nat.le_refl _
  | none =>
    simp only [ingestFile, hfind]
    exact Nat.le_succ _

theorem fold_counter_le (r : Nat) (ds : List FileCoverage) :
    ∀ a : IngestAcc, a.nextFileId ≤ (ds.foldl (ingestFile r) a).nextFileId := by
  induction ds with
  | nil => exact fun a => Nat.le_refl _
  | cons fc t ih =>
    intro a
    rw [List.foldl_cons]
    exact Nat.le_trans (ingest_counter_le r a fc) (ih _)

theorem ingest_sf_prefix (r : Nat) (a : IngestAcc) (fc : FileCoverage) :
    ∃ suf, (ingestFile r a fc).sourceFiles = a.sourceFiles ++ suf := by
  cases hfind : a.sourceFiles.find? fun sf => sf.path = fc.path with
  | some sf =>
    simp only [ingestFile, hfind]
    exact ⟨[], (List.append_nil _).symm⟩
  | none =>
    simp only [ingestFile, hfind]
    exact ⟨[⟨a.nextFileId, fc.path⟩], rfl⟩

theorem fold_sf_prefix (r : Nat) (ds : List FileCoverage) :
    ∀ a : IngestAcc, ∃ suf, (ds.foldl (ingestFile r) a).sourceFiles = a.sourceFiles ++ suf := by
  induction ds with
  | nil => exact fun a => ⟨[], (List.append_nil _).symm⟩
  | cons fc t ih =>
    intro a
    rw [List.foldl_cons]
    obtain ⟨s1, h1⟩ := ingest_sf_prefix r a fc
    obtain ⟨s2, h2⟩ := ih (ingestFile r a fc)
    exact ⟨s1 ++ s2, by rw [h2, h1, List.append_assoc]⟩

theorem find?_path_of_mem_nodup (l : List SourceFileRow) (p : String)
    (hnd : (l.map SourceFileRow.path).Nodup) (sf : SourceFileRow)
    (hmem : sf ∈ l) (hp : sf.path = p) :
    (l.find? fun s => s.path = p) = some sf := by
  induction l with
  | nil => cases hmem
  | cons a t ih =>
    rw [List.map_cons, List.nodup_cons] at hnd
    rcases List.mem_cons.mp hmem with rfl | hmt
    · rw [List.find?_cons_of_pos _ (by simp [hp])]
    · have hap : ¬ (a.path = p) := by
        intro he
        exact hnd.1 (he ▸ hp ▸ List.mem_map.mpr ⟨sf, hmt, rfl⟩)
      rw [List.find?_cons_of_neg _ (by simp [hap])]
      exact ih hnd.2 hmt

theorem upsertLine_ref (rows : List LineRow) (r : LineRow) (f : Nat)
    (h : ∃ l ∈ rows, l.source_file_id = f) :
    ∃ l ∈ upsertLine rows r, l.source_file_id = f := by
  obtain ⟨l, hl, hf⟩ := h
  rw [upsertLine]
  by_cases hk : l.report_id = r.report_id ∧ l.source_file_id = r.source_file_id
      ∧ l.line_number = r.line_number
  · exact ⟨r, List.mem_append_right _ (List.mem_singleton.mpr rfl), hk.2.1 ▸ hf⟩
  · exact ⟨l, List.mem_append_left _ (List.mem_filter.mpr ⟨hl,
      by simp only [decide_eq_true_eq]; exact hk⟩), hf⟩

theorem upsertBranch_ref (rows : List BranchRow) (r : BranchRow) (f : Nat)
    (h : ∃ b ∈ rows, b.source_file_id = f) :
    ∃ b ∈ upsertBranch rows r, b.source_file_id = f := by
  obtain ⟨l, hl, hf⟩ := h
  rw [upsertBranch]
  by_cases hk : l.report_id = r.report_id ∧ l.source_file_id = r.source_file_id
      ∧ l.line_number = r.line_number ∧ l.branch_index = r.branch_index
  · exact ⟨r, List.mem_append_right _ (List.mem_singleton.mpr rfl), hk.2.1 ▸ hf⟩
  · exact ⟨l, List.mem_append_left _ (List.mem_filter.mpr ⟨hl,
      by simp only [decide_eq_true_eq]; exact hk⟩), hf⟩

theorem upsertFunc_ref (rows : List FuncRow) (r : FuncRow) (f : Nat)
    (h : ∃ x ∈ rows, x.source_file_id = f) :
    ∃ x ∈ upsertFunc rows r, x.source_file_id = f := by
  obtain ⟨l, hl, hf⟩ := h
  rw [upsertFunc]
  split
  · refine ⟨if funcKeyMatch l r
        then { l with hit_count := r.hit_count, end_line := r.end_line } else l,
      List.mem_map.mpr ⟨l, hl, rfl⟩, ?_⟩
    split
    · exact hf
    · exact hf
  · exact ⟨l, List.mem_append_left _ hl, hf⟩

theorem lineFold_ref (rid fid : Nat) (ls : List LineCoverage) (f : Nat) :
    ∀ rows : List LineRow, (∃ l ∈ rows, l.source_file_id = f) →
    ∃ l ∈ ls.foldl (fun rs l => upsertLine rs ⟨rid, fid, l.line_number, l.hit_count⟩) rows,
      l.source_file_id = f := by
  induction ls with
  | nil => exact fun rows h => h
  | cons c t ih =>
    intro rows h
    rw [List.foldl_cons]
    exact ih _ (upsertLine_ref rows _ f h)

theorem branchFold_ref (rid fid : Nat) (bs : List BranchCoverage) (f : Nat) :
    ∀ rows : List BranchRow, (∃ b ∈ rows, b.source_file_id = f) →
    ∃ b ∈ bs.foldl
        (fun rs b => upsertBranch rs ⟨rid, fid, b.line_number, b.branch_index, b.hit_count⟩)
        rows, b.source_file_id = f := by
  induction bs with
  | nil => exact fun rows h => h
  | cons c t ih =>
    intro rows h
    rw [List.foldl_cons]
    exact ih _ (upsertBranch_ref rows _ f h)

theorem funcFold_ref (rid fid : Nat) (fs : List FunctionCoverage) (f : Nat) :
    ∀ rows : List FuncRow, (∃ x ∈ rows, x.source_file_id = f) →
    ∃ x ∈ fs.foldl
        (fun rs x => upsertFunc rs ⟨rid, fid, x.name, x.start_line, x.end_line, x.hit_count⟩)
        rows, x.source_file_id = f := by
  induction fs with
  | nil => exact fun rows h => h
  | cons c t ih =>
    intro rows h
    rw [List.foldl_cons]
    exact ih _ (upsertFunc_ref rows _ f h)

theorem refAcc_ingest (r : Nat) (a : IngestAcc) (fc : FileCoverage) (f : Nat)
    (h : refAcc a f) : refAcc (ingestFile r a fc) f := by
  have key : ∀ (fid : Nat) (sfs : List SourceFileRow) (nf : Nat),
      ingestFile r a fc = IngestAcc.mk sfs nf
        (fc.lines.foldl
          (fun rs l => upsertLine rs ⟨r, fid, l.line_number, l.hit_count⟩) a.lineCov)
        (fc.branches.foldl
          (fun rs b => upsertBranch rs ⟨r, fid, b.line_number, b.branch_index, b.hit_count⟩)
          a.branchCov)
        (fc.functions.foldl
          (fun rs x => upsertFunc rs ⟨r, fid, x.name, x.start_line, x.end_line, x.hit_count⟩)
          a.funcCov) →
      refAcc (ingestFile r a fc) f := by
    intro fid sfs nf heq
    rw [heq]
    rcases h with h | h | h
    · exact Or.inl (lineFold_ref r fid fc.lines f a.lineCov h)
    · exact Or.inr (Or.inl (branchFold_ref r fid fc.branches f a.branchCov h))
    · exact Or.inr (Or.inr (funcFold_ref r fid fc.functions f a.funcCov h))
  cases hfind : a.sourceFiles.find? fun sf => sf.path = fc.path with
  | some sf => exact key sf.id a.sourceFiles a.nextFileId (by simp only [ingestFile, hfind])
  | none =>
    exact key a.nextFileId (a.sourceFiles ++ [⟨a.nextFileId, fc.path⟩]) (a.nextFileId + 1)
      (by simp only [ingestFile, hfind])

theorem refAcc_fold (r : Nat) (ds : List FileCoverage) (f : Nat) :
    ∀ a : IngestAcc, refAcc a f → refAcc (ds.foldl (ingestFile r) a) f := by
  induction ds with
  | nil => exact fun a h => h
  | cons fc t ih =>
    intro a h
    rw [List.foldl_cons]
    exact ih _ (refAcc_ingest r a fc f h)

theorem upsertFunc_self_ref (rows : List FuncRow) (r : FuncRow) :
    ∃ x ∈ upsertFunc rows r, x.source_file_id = r.source_file_id := by
  rw [upsertFunc]
  split
  · next hany =>
    rw [List.any_eq_true] at hany
    obtain ⟨x0, hx0, hk⟩ := hany
    rw [decide_eq_true_eq] at hk
    refine ⟨if funcKeyMatch x0 r
        then { x0 with hit_count := r.hit_count, end_line := r.end_line } else x0,
      List.mem_map.mpr ⟨x0, hx0, rfl⟩, ?_⟩
    split
    · exact hk.2.1
    · exact hk.2.1
  · exact ⟨r, List.mem_append_right _ (List.mem_singleton.mpr rfl), rfl⟩

theorem ingest_content_ref (r : Nat) (a : IngestAcc) (fc : FileCoverage) (fid : Nat)
    (hcontent : ¬(fc.lines = [] ∧ fc.branches = [] ∧ fc.functions = []))
    (hfid : (match a.sourceFiles.find? fun sf => sf.path = fc.path with
      | some sf => sf.id
      | none => a.nextFileId) = fid) :
    refAcc (ingestFile r a fc) fid := by
  have key : ∀ (sfs : List SourceFileRow) (nf : Nat),
      ingestFile r a fc = IngestAcc.mk sfs nf
        (fc.lines.foldl
          (fun rs l => upsertLine rs ⟨r, fid, l.line_number, l.hit_count⟩) a.lineCov)
        (fc.branches.foldl
          (fun rs b => upsertBranch rs ⟨r, fid, b.line_number, b.branch_index, b.hit_count⟩)
          a.branchCov)
        (fc.functions.foldl
          (fun rs x => upsertFunc rs ⟨r, fid, x.name, x.start_line, x.end_line, x.hit_count⟩)
          a.funcCov) →
      refAcc (ingestFile r a fc) fid := by
    intro sfs nf heq
    rw [heq]
    rcases hl : fc.lines with _ | ⟨l0, lt⟩
    · rcases hb : fc.branches with _ | ⟨b0, bt⟩
      · rcases hf : fc.functions with _ | ⟨f0, ft⟩
        · exact absurd ⟨hl, hb, hf⟩ hcontent
        · refine Or.inr (Or.inr ?_)
          rw [List.foldl_cons]
          exact funcFold_ref r fid ft fid _
            (upsertFunc_self_ref a.funcCov ⟨r, fid, f0.name, f0.start_line, f0.end_line, f0.hit_count⟩)
      · refine Or.inr (Or.inl ?_)
        rw [List.foldl_cons]
        exact branchFold_ref r fid bt fid _
          ⟨⟨r, fid, b0.line_number, b0.branch_index, b0.hit_count⟩,
            List.mem_append_right _ (List.mem_singleton.mpr rfl), rfl⟩
    · refine Or.inl ?_
      rw [List.foldl_cons]
      exact lineFold_ref r fid lt fid _
        ⟨⟨r, fid, l0.line_number, l0.hit_count⟩,
          List.mem_append_right _ (List.mem_singleton.mpr rfl), rfl⟩
  cases hfind : a.sourceFiles.find? fun sf => sf.path = fc.path with
  | some sf =>
    rw [hfind] at hfid
    exact key a.sourceFiles a.nextFileId
      (by rw [← hfid]; simp only [ingestFile, hfind])
  | none =>
    rw [hfind] at hfid
    exact key (a.sourceFiles ++ [⟨a.nextFileId, fc.path⟩]) (a.nextFileId + 1)
      (by rw [← hfid]; simp only [ingestFile, hfind])

theorem keepB_iff (a : IngestAcc) (sf : SourceFileRow) :
    keepB a sf = true ↔ refAcc a sf.id := by
  rw [keepB, refAcc]
  rw [Bool.or_eq_true, Bool.or_eq_true]
  rw [List.any_eq_true, List.any_eq_true, List.any_eq_true]
  constructor
  · rintro ((⟨x, hx, he⟩ | ⟨x, hx, he⟩) | ⟨x, hx, he⟩)
    · exact Or.inl ⟨x, hx, by simpa using he⟩
    · exact Or.inr (Or.inl ⟨x, hx, by simpa using he⟩)
    · exact Or.inr (Or.inr ⟨x, hx, by simpa using he⟩)
  · rintro (⟨x, hx, he⟩ | ⟨x, hx, he⟩ | ⟨x, hx, he⟩)
    · exact Or.inl (Or.inl ⟨x, hx, by simpa using he⟩)
    · exact Or.inl (Or.inr ⟨x, hx, by simpa using he⟩)
    · exact Or.inr ⟨x, hx, by simpa using he⟩

theorem upsertLine_tagP (r1 : Nat) (rows : List LineRow)
    (hP : ∀ l ∈ rows, l.report_id = r1 ∨ l.report_id < r1) (x : LineRow)
    (hx : x.report_id = r1) :
    ∀ l ∈ upsertLine rows x, l.report_id = r1 ∨ l.report_id < r1 := by
  intro l hl
  rcases List.mem_append.mp hl with hl | hl
  · exact hP l (List.mem_of_mem_filter hl)
  · rw [List.mem_singleton] at hl
    exact Or.inl (hl ▸ hx)

theorem upsertBranch_tagP (r1 : Nat) (rows : List BranchRow)
    (hP : ∀ b ∈ rows, b.report_id = r1 ∨ b.report_id < r1) (x : BranchRow)
    (hx : x.report_id = r1) :
    ∀ b ∈ upsertBranch rows x, b.report_id = r1 ∨ b.report_id < r1 := by
  intro l hl
  rcases List.mem_append.mp hl with hl | hl
  · exact hP l (List.mem_of_mem_filter hl)
  · rw [List.mem_singleton] at hl
    exact Or.inl (hl ▸ hx)

theorem upsertFunc_tagP (r1 : Nat) (rows : List FuncRow)
    (hP : ∀ f ∈ rows, f.report_id = r1 ∨ f.report_id < r1) (x : FuncRow)
    (hx : x.report_id = r1) :
    ∀ f ∈ upsertFunc rows x, f.report_id = r1 ∨ f.report_id < r1 := by
  intro l hl
  rw [upsertFunc] at hl
  split at hl
  · obtain ⟨y, hy, rfl⟩ := List.mem_map.mp hl
    split
    · exact hP y hy
    · exact hP y hy
  · rcases List.mem_append.mp hl with hl | hl
    · exact hP l hl
    · rw [List.mem_singleton] at hl
      exact Or.inl (hl ▸ hx)

theorem upsertLine_retag (r1 r2 : Nat) (hlt : r1 < r2) (rows : List LineRow)
    (hP : ∀ l ∈ rows, l.report_id = r1 ∨ l.report_id < r1) (fid ln hit : Nat) :
    upsertLine (rows.map (retagLine r1 r2)) ⟨r2, fid, ln, hit⟩
      = (upsertLine rows ⟨r1, fid, ln, hit⟩).map (retagLine r1 r2) := by
  rw [upsertLine, upsertLine, List.map_append, List.filter_map]
  congr 1
  · congr 1
    apply List.filter_congr
    intro x hx
    rcases hP x hx with hx1 | hx1
    · simp [retagLine, hx1]
    · have h1 : ¬ x.report_id = r1 := by omega
      have h2 : ¬ x.report_id = r2 := by omega
      simp [retagLine, h1, h2]
  · simp [retagLine]

theorem upsertBranch_retag (r1 r2 : Nat) (hlt : r1 < r2) (rows : List BranchRow)
    (hP : ∀ b ∈ rows, b.report_id = r1 ∨ b.report_id < r1) (fid ln idx hit : Nat) :
    upsertBranch (rows.map (retagBranch r1 r2)) ⟨r2, fid, ln, idx, hit⟩
      = (upsertBranch rows ⟨r1, fid, ln, idx, hit⟩).map (retagBranch r1 r2) := by
  rw [upsertBranch, upsertBranch, List.map_append, List.filter_map]
  congr 1
  · congr 1
    apply List.filter_congr
    intro x hx
    rcases hP x hx with hx1 | hx1
    · simp [retagBranch, hx1]
    · have h1 : ¬ x.report_id = r1 := by omega
      have h2 : ¬ x.report_id = r2 := by omega
      simp [retagBranch, h1, h2]
  · simp [retagBranch]

theorem upsertFunc_retag (r1 r2 : Nat) (hlt : r1 < r2) (rows : List FuncRow)
    (hP : ∀ f ∈ rows, f.report_id = r1 ∨ f.report_id < r1) (fid : Nat) (nm : String)
    (sl el : Option Nat) (hit : Nat) :
    upsertFunc (rows.map (retagFunc r1 r2)) ⟨r2, fid, nm, sl, el, hit⟩
      = (upsertFunc rows ⟨r1, fid, nm, sl, el, hit⟩).map (retagFunc r1 r2) := by
  have hkey : ∀ x ∈ rows,
      funcKeyMatch (retagFunc r1 r2 x) ⟨r2, fid, nm, sl, el, hit⟩
        ↔ funcKeyMatch x ⟨r1, fid, nm, sl, el, hit⟩ := by
    intro x hx
    rcases hP x hx with hx1 | hx1
    · simp [funcKeyMatch, retagFunc, hx1]
    · have h1 : ¬ x.report_id = r1 := by omega
      have h2 : ¬ x.report_id = r2 := by omega
      simp [funcKeyMatch, retagFunc, h1, h2]
  have hany : ((rows.map (retagFunc r1 r2)).any
        fun x => funcKeyMatch x ⟨r2, fid, nm, sl, el, hit⟩)
      = (rows.any fun x => funcKeyMatch x ⟨r1, fid, nm, sl, el, hit⟩) := by
    rw [Bool.eq_iff_iff, List.any_eq_true, List.any_eq_true]
    constructor
    · rintro ⟨y, hy, hd⟩
      obtain ⟨x, hx, rfl⟩ := List.mem_map.mp hy
      rw [decide_eq_true_eq] at hd
      exact ⟨x, hx, by rw [decide_eq_true_eq]; exact (hkey x hx).mp hd⟩
    · rintro ⟨x, hx, hd⟩
      rw [decide_eq_true_eq] at hd
      exact ⟨retagFunc r1 r2 x, List.mem_map.mpr ⟨x, hx, rfl⟩,
        by rw [decide_eq_true_eq]; exact (hkey x hx).mpr hd⟩
  rw [upsertFunc, upsertFunc, hany]
  split
  · rw [List.map_map, List.map_map]
    apply List.map_congr_left
    intro x hx
    simp only [Function.comp_apply]
    by_cases hk : funcKeyMatch x ⟨r1, fid, nm, sl, el, hit⟩
    · rw [if_pos ((hkey x hx).mpr hk), if_pos hk]
      rcases hP x hx with hx1 | hx1
      · simp [retagFunc, hx1]
      · exact absurd hk.1 (by show ¬ x.report_id = r1; omega)
    · rw [if_neg (fun hc => hk ((hkey x hx).mp hc)), if_neg hk]
  · rw [List.map_append]
    simp [retagFunc]

theorem lineFold_retag (r1 r2 : Nat) (hlt : r1 < r2) (fid : Nat) (ls : List LineCoverage) :
    ∀ rows : List LineRow, (∀ l ∈ rows, l.report_id = r1 ∨ l.report_id < r1) →
    ls.foldl (fun rs l => upsertLine rs ⟨r2, fid, l.line_number, l.hit_count⟩)
        (rows.map (retagLine r1 r2))
      = (ls.foldl (fun rs l => upsertLine rs ⟨r1, fid, l.line_number, l.hit_count⟩)
          rows).map (retagLine r1 r2) := by
  induction ls with
  | nil => exact fun rows _ => rfl
  | cons c t ih =>
    intro rows hP
    rw [List.foldl_cons, List.foldl_cons, upsertLine_retag r1 r2 hlt rows hP]
    exact ih _ (upsertLine_tagP r1 rows hP _ rfl)

theorem branchFold_retag (r1 r2 : Nat) (hlt : r1 < r2) (fid : Nat)
    (bs : List BranchCoverage) :
    ∀ rows : List BranchRow, (∀ b ∈ rows, b.report_id = r1 ∨ b.report_id < r1) →
    bs.foldl (fun rs b => upsertBranch rs ⟨r2, fid, b.line_number, b.branch_index, b.hit_count⟩)
        (rows.map (retagBranch r1 r2))
      = (bs.foldl (fun rs b => upsertBranch rs ⟨r1, fid, b.line_number, b.branch_index, b.hit_count⟩)
          rows).map (retagBranch r1 r2) := by
  induction bs with
  | nil => exact fun rows _ => rfl
  | cons c t ih =>
    intro rows hP
    rw [List.foldl_cons, List.foldl_cons, upsertBranch_retag r1 r2 hlt rows hP]
    exact ih _ (upsertBranch_tagP r1 rows hP _ rfl)

theorem funcFold_retag (r1 r2 : Nat) (hlt : r1 < r2) (fid : Nat)
    (fs : List FunctionCoverage) :
    ∀ rows : List FuncRow, (∀ f ∈ rows, f.report_id = r1 ∨ f.report_id < r1) →
    fs.foldl (fun rs f => upsertFunc rs ⟨r2, fid, f.name, f.start_line, f.end_line, f.hit_count⟩)
        (rows.map (retagFunc r1 r2))
      = (fs.foldl (fun rs f => upsertFunc rs ⟨r1, fid, f.name, f.start_line, f.end_line, f.hit_count⟩)
          rows).map (retagFunc r1 r2) := by
  induction fs with
  | nil => exact fun rows _ => rfl
  | cons c t ih =>
    intro rows hP
    rw [List.foldl_cons, List.foldl_cons, upsertFunc_retag r1 r2 hlt rows hP]
    exact ih _ (upsertFunc_tagP r1 rows hP _ rfl)

theorem ingestSim (r1 r2 : Nat) (hlt : r1 < r2) (ds : List FileCoverage) :
    ∀ b1 b2 : IngestAcc,
    Run1WF r1 b1 →
    (∃ A2, b2.sourceFiles
        = (ds.foldl (ingestFile r1) b1).sourceFiles.filter
            (keepB (ds.foldl (ingestFile r1) b1)) ++ A2
      ∧ (∀ a ∈ A2, (ds.foldl (ingestFile r1) b1).nextFileId ≤ a.id)
      ∧ (∀ a ∈ A2, ∃ sf ∈ b1.sourceFiles, sf.path = a.path
          ∧ keepB (ds.foldl (ingestFile r1) b1) sf = false)
      ∧ (A2.map SourceFileRow.path).Nodup) →
    (ds.foldl (ingestFile r1) b1).nextFileId ≤ b2.nextFileId →
    b2.lineCov = b1.lineCov.map (retagLine r1 r2) →
    b2.branchCov = b1.branchCov.map (retagBranch r1 r2) →
    b2.funcCov = b1.funcCov.map (retagFunc r1 r2) →
    ((ds.foldl (ingestFile r2) b2).lineCov
        = (ds.foldl (ingestFile r1) b1).lineCov.map (retagLine r1 r2)
    ∧ (ds.foldl (ingestFile r2) b2).branchCov
        = (ds.foldl (ingestFile r1) b1).branchCov.map (retagBranch r1 r2)
    ∧ (ds.foldl (ingestFile r2) b2).funcCov
        = (ds.foldl (ingestFile r1) b1).funcCov.map (retagFunc r1 r2)
    ∧ ∃ A2, (ds.foldl (ingestFile r2) b2).sourceFiles
          = (ds.foldl (ingestFile r1) b1).sourceFiles.filter
              (keepB (ds.foldl (ingestFile r1) b1)) ++ A2
        ∧ ∀ a ∈ A2, (ds.foldl (ingestFile r1) b1).nextFileId ≤ a.id) := by
  induction ds with
  | nil =>
    intro b1 b2 hWF1 hA2 hcnt hLrel hBrel hFrel
    obtain ⟨A2, hA2eq, hA2id, _, _⟩ := hA2
    exact ⟨hLrel, hBrel, hFrel, A2, hA2eq, hA2id⟩
  | cons fc rest ih =>
    intro b1 b2 hWF1 hA2 hcnt hLrel hBrel hFrel
    rw [List.foldl_cons] at hA2 hcnt
    simp only [List.foldl_cons]
    obtain ⟨hT1, hT2, hT3, hS, hR1, hR2, hR3, hND⟩ := hWF1
    have hWF1' : Run1WF r1 (ingestFile r1 b1 fc) :=
      run1WF_ingest r1 b1 fc ⟨hT1, hT2, hT3, hS, hR1, hR2, hR3, hND⟩
    have hFnd : ((rest.foldl (ingestFile r1) (ingestFile r1 b1 fc)).sourceFiles.map
        SourceFileRow.path).Nodup :=
      (run1WF_fold r1 rest _ hWF1').2.2.2.2.2.2.2
    obtain ⟨A2, hA2eq, hA2id, hA2w, hA2nd⟩ := hA2
    cases hf1 : b1.sourceFiles.find? fun sf => sf.path = fc.path with
    | some sf1 =>
      have hsf1mem : sf1 ∈ b1.sourceFiles := List.mem_of_find?_eq_some hf1
      have hsf1path : sf1.path = fc.path := by simpa using List.find?_some hf1
      have hb1sf : (ingestFile r1 b1 fc).sourceFiles = b1.sourceFiles := by
        simp only [ingestFile, hf1]
      have hb1cnt : (ingestFile r1 b1 fc).nextFileId = b1.nextFileId := by
        simp only [ingestFile, hf1]
      have hb1line : (ingestFile r1 b1 fc).lineCov = fc.lines.foldl
          (fun rs l => upsertLine rs ⟨r1, sf1.id, l.line_number, l.hit_count⟩) b1.lineCov := by
        simp only [ingestFile, hf1]
      have hb1branch : (ingestFile r1 b1 fc).branchCov = fc.branches.foldl
          (fun rs b => upsertBranch rs ⟨r1, sf1.id, b.line_number, b.branch_index, b.hit_count⟩)
          b1.branchCov := by
        simp only [ingestFile, hf1]
      have hb1func : (ingestFile r1 b1 fc).funcCov = fc.functions.foldl
          (fun rs f => upsertFunc rs ⟨r1, sf1.id, f.name, f.start_line, f.end_line, f.hit_count⟩)
          b1.funcCov := by
        simp only [ingestFile, hf1]
      cases hk : keepB (rest.foldl (ingestFile r1) (ingestFile r1 b1 fc)) sf1 with
      | true =>
        have hsf1F : sf1 ∈ (rest.foldl (ingestFile r1) (ingestFile r1 b1 fc)).sourceFiles := by
          obtain ⟨suf, hsuf⟩ := fold_sf_prefix r1 rest (ingestFile r1 b1 fc)
          rw [hsuf, hb1sf]
          exact List.mem_append_left _ hsf1mem
        have hfindFilter : (((rest.foldl (ingestFile r1) (ingestFile r1 b1 fc)).sourceFiles.filter
            (keepB (rest.foldl (ingestFile r1) (ingestFile r1 b1 fc)))).find?
              fun s => s.path = fc.path) = some sf1 :=
          find?_path_of_mem_nodup _ fc.path
            (List.Nodup.sublist (List.Sublist.map _ (List.filter_sublist _)) hFnd)
            sf1 (List.mem_filter.mpr ⟨hsf1F, hk⟩) hsf1path
        have hf2 : (b2.sourceFiles.find? fun s => s.path = fc.path) = some sf1 := by
          rw [hA2eq, List.find?_append, hfindFilter]
          rfl
        have hb2sf : (ingestFile r2 b2 fc).sourceFiles = b2.sourceFiles := by
          simp only [ingestFile, hf2]
        have hb2cnt : (ingestFile r2 b2 fc).nextFileId = b2.nextFileId := by
          simp only [ingestFile, hf2]
        have hb2line : (ingestFile r2 b2 fc).lineCov = fc.lines.foldl
            (fun rs l => upsertLine rs ⟨r2, sf1.id, l.line_number, l.hit_count⟩) b2.lineCov := by
          simp only [ingestFile, hf2]
        have hb2branch : (ingestFile r2 b2 fc).branchCov = fc.branches.foldl
            (fun rs b => upsertBranch rs ⟨r2, sf1.id, b.line_number, b.branch_index, b.hit_count⟩)
            b2.branchCov := by
          simp only [ingestFile, hf2]
        have hb2func : (ingestFile r2 b2 fc).funcCov = fc.functions.foldl
            (fun rs f => upsertFunc rs ⟨r2, sf1.id, f.name, f.start_line, f.end_line, f.hit_count⟩)
            b2.funcCov := by
          simp only [ingestFile, hf2]
        refine ih (ingestFile r1 b1 fc) (ingestFile r2 b2 fc) hWF1'
          ⟨A2, ?_, hA2id, ?_, hA2nd⟩ (by rw [hb2cnt]; exact hcnt) ?_ ?_ ?_
        · rw [hb2sf, hA2eq]
        · intro a ha
          obtain ⟨sf, hsf, hp, hkp⟩ := hA2w a ha
          exact ⟨sf, by rw [hb1sf]; exact hsf, hp, hkp⟩
        · rw [hb2line, hb1line, hLrel]
          exact lineFold_retag r1 r2 hlt sf1.id fc.lines b1.lineCov hT1
        · rw [hb2branch, hb1branch, hBrel]
          exact branchFold_retag r1 r2 hlt sf1.id fc.branches b1.branchCov hT2
        · rw [hb2func, hb1func, hFrel]
          exact funcFold_retag r1 r2 hlt sf1.id fc.functions b1.funcCov hT3
      | false =>
        by_cases hcont : fc.lines = [] ∧ fc.branches = [] ∧ fc.functions = []
        · obtain ⟨hle, hbe, hfe⟩ := hcont
          have hb1eq : ingestFile r1 b1 fc = b1 := by
            simp only [ingestFile, hf1, hle, hbe, hfe, List.foldl_nil]
          rw [hb1eq] at hA2eq hA2id hA2w hcnt hk hFnd
          rw [hb1eq]
          cases hf2 : b2.sourceFiles.find? fun s => s.path = fc.path with
          | some a =>
            have hb2eq : ingestFile r2 b2 fc = b2 := by
              simp only [ingestFile, hf2, hle, hbe, hfe, List.foldl_nil]
            rw [hb2eq]
            exact ih b1 b2 ⟨hT1, hT2, hT3, hS, hR1, hR2, hR3, hND⟩
              ⟨A2, hA2eq, hA2id, hA2w, hA2nd⟩ hcnt hLrel hBrel hFrel
          | none =>
            have hb2sf : (ingestFile r2 b2 fc).sourceFiles
                = b2.sourceFiles ++ [⟨b2.nextFileId, fc.path⟩] := by
              simp only [ingestFile, hf2]
            have hb2cnt : (ingestFile r2 b2 fc).nextFileId = b2.nextFileId + 1 := by
              simp only [ingestFile, hf2]
            have hb2line : (ingestFile r2 b2 fc).lineCov = b2.lineCov := by
              simp only [ingestFile, hf2, hle, List.foldl_nil]
            have hb2branch : (ingestFile r2 b2 fc).branchCov = b2.branchCov := by
              simp only [ingestFile, hf2, hbe, List.foldl_nil]
            have hb2func : (ingestFile r2 b2 fc).funcCov = b2.funcCov := by
              simp only [ingestFile, hf2, hfe, List.foldl_nil]
            refine ih b1 (ingestFile r2 b2 fc) ⟨hT1, hT2, hT3, hS, hR1, hR2, hR3, hND⟩
              ⟨A2 ++ [⟨b2.nextFileId, fc.path⟩], ?_, ?_, ?_, ?_⟩
              (by rw [hb2cnt]; omega)
              (by rw [hb2line]; exact hLrel)
              (by rw [hb2branch]; exact hBrel)
              (by rw [hb2func]; exact hFrel)
            · rw [hb2sf, hA2eq, List.append_assoc]
            · intro a ha
              rcases List.mem_append.mp ha with ha | ha
              · exact hA2id a ha
              · rw [List.mem_singleton] at ha
                rw [ha]
                exact hcnt
            · intro a ha
              rcases List.mem_append.mp ha with ha | ha
              · exact hA2w a ha
              · rw [List.mem_singleton] at ha
                rw [ha]
                exact ⟨sf1, hsf1mem, hsf1path, hk⟩
            · rw [List.map_append]
              simp only [List.map_cons, List.map_nil]
              rw [List.nodup_append]
              refine ⟨hA2nd, List.nodup_singleton _, ?_⟩
              intro p hp hq
              rw [List.mem_singleton] at hq
              subst hq
              obtain ⟨a, ha, hap⟩ := List.mem_map.mp hp
              have hmem2 : a ∈ b2.sourceFiles := by
                rw [hA2eq]
                exact List.mem_append_right _ ha
              have := List.find?_eq_none.mp hf2 a hmem2
              simp [hap] at this
        · exfalso
          have hfid : (match b1.sourceFiles.find? fun sf => sf.path = fc.path with
              | some sf => sf.id
              | none => b1.nextFileId) = sf1.id := by
            rw [hf1]
          have href := refAcc_fold r1 rest sf1.id (ingestFile r1 b1 fc)
            (ingest_content_ref r1 b1 fc sf1.id hcont hfid)
          rw [← keepB_iff] at href
          rw [hk] at href
          exact Bool.false_ne_true href
    | none =>
      have hb1sf : (ingestFile r1 b1 fc).sourceFiles
          = b1.sourceFiles ++ [⟨b1.nextFileId, fc.path⟩] := by
        simp only [ingestFile, hf1]
      have hb1cnt : (ingestFile r1 b1 fc).nextFileId = b1.nextFileId + 1 := by
        simp only [ingestFile, hf1]
      have hb1line : (ingestFile r1 b1 fc).lineCov = fc.lines.foldl
          (fun rs l => upsertLine rs ⟨r1, b1.nextFileId, l.line_number, l.hit_count⟩)
          b1.lineCov := by
        simp only [ingestFile, hf1]
      have hb1branch : (ingestFile r1 b1 fc).branchCov = fc.branches.foldl
          (fun rs b => upsertBranch rs
            ⟨r1, b1.nextFileId, b.line_number, b.branch_index, b.hit_count⟩)
          b1.branchCov := by
        simp only [ingestFile, hf1]
      have hb1func : (ingestFile r1 b1 fc).funcCov = fc.functions.foldl
          (fun rs f => upsertFunc rs
            ⟨r1, b1.nextFileId, f.name, f.start_line, f.end_line, f.hit_count⟩)
          b1.funcCov := by
        simp only [ingestFile, hf1]
      have hnew1F : (⟨b1.nextFileId, fc.path⟩ : SourceFileRow)
          ∈ (rest.foldl (ingestFile r1) (ingestFile r1 b1 fc)).sourceFiles := by
        obtain ⟨suf, hsuf⟩ := fold_sf_prefix r1 rest (ingestFile r1 b1 fc)
        rw [hsuf, hb1sf, List.append_assoc]
        exact List.mem_append_right _ (List.mem_append_left _ (List.mem_singleton.mpr rfl))
      by_cases hcont : fc.lines = [] ∧ fc.branches = [] ∧ fc.functions = []
      · obtain ⟨hle, hbe, hfe⟩ := hcont
        have hb1line' : (ingestFile r1 b1 fc).lineCov = b1.lineCov := by
          rw [hb1line, hle, List.foldl_nil]
        have hb1branch' : (ingestFile r1 b1 fc).branchCov = b1.branchCov := by
          rw [hb1branch, hbe, List.foldl_nil]
        have hb1func' : (ingestFile r1 b1 fc).funcCov = b1.funcCov := by
          rw [hb1func, hfe, List.foldl_nil]
        cases hf2 : b2.sourceFiles.find? fun s => s.path = fc.path with
        | some a =>
          have hb2eq : ingestFile r2 b2 fc = b2 := by
            simp only [ingestFile, hf2, hle, hbe, hfe, List.foldl_nil]
          rw [hb2eq]
          refine ih (ingestFile r1 b1 fc) b2 hWF1'
            ⟨A2, hA2eq, hA2id, ?_, hA2nd⟩ hcnt
            (by rw [hb1line']; exact hLrel)
            (by rw [hb1branch']; exact hBrel)
            (by rw [hb1func']; exact hFrel)
          intro x hx
          obtain ⟨sf, hsf, hp, hkp⟩ := hA2w x hx
          exact ⟨sf, by rw [hb1sf]; exact List.mem_append_left _ hsf, hp, hkp⟩
        | none =>
          have hkeep1 : keepB (rest.foldl (ingestFile r1) (ingestFile r1 b1 fc))
              ⟨b1.nextFileId, fc.path⟩ = false := by
            cases hkk : keepB (rest.foldl (ingestFile r1) (ingestFile r1 b1 fc))
                ⟨b1.nextFileId, fc.path⟩ with
            | false => rfl
            | true =>
              exfalso
              have hmem2 : (⟨b1.nextFileId, fc.path⟩ : SourceFileRow) ∈ b2.sourceFiles := by
                rw [hA2eq]
                exact List.mem_append_left _ (List.mem_filter.mpr ⟨hnew1F, hkk⟩)
              have := List.find?_eq_none.mp hf2 _ hmem2
              simp at this
          have hb2sf : (ingestFile r2 b2 fc).sourceFiles
              = b2.sourceFiles ++ [⟨b2.nextFileId, fc.path⟩] := by
            simp only [ingestFile, hf2]
          have hb2cnt : (ingestFile r2 b2 fc).nextFileId = b2.nextFileId + 1 := by
            simp only [ingestFile, hf2]
          have hb2line : (ingestFile r2 b2 fc).lineCov = b2.lineCov := by
            simp only [ingestFile, hf2, hle, List.foldl_nil]
          have hb2branch : (ingestFile r2 b2 fc).branchCov = b2.branchCov := by
            simp only [ingestFile, hf2, hbe, List.foldl_nil]
          have hb2func : (ingestFile r2 b2 fc).funcCov = b2.funcCov := by
            simp only [ingestFile, hf2, hfe, List.foldl_nil]
          refine ih (ingestFile r1 b1 fc) (ingestFile r2 b2 fc) hWF1'
            ⟨A2 ++ [⟨b2.nextFileId, fc.path⟩], ?_, ?_, ?_, ?_⟩
            (by rw [hb2cnt]; omega)
            (by rw [hb2line, hb1line']; exact hLrel)
            (by rw [hb2branch, hb1branch']; exact hBrel)
            (by rw [hb2func, hb1func']; exact hFrel)
          · rw [hb2sf, hA2eq, List.append_assoc]
          · intro a ha
            rcases List.mem_append.mp ha with ha | ha
            · exact hA2id a ha
            · rw [List.mem_singleton] at ha
              rw [ha]
              exact hcnt
          · intro a ha
            rcases List.mem_append.mp ha with ha | ha
            · obtain ⟨sf, hsf, hp, hkp⟩ := hA2w a ha
              exact ⟨sf, by rw [hb1sf]; exact List.mem_append_left _ hsf, hp, hkp⟩
            · rw [List.mem_singleton] at ha
              subst ha
              exact ⟨⟨b1.nextFileId, fc.path⟩,
                by rw [hb1sf]; exact List.mem_append_right _ (List.mem_singleton.mpr rfl),
                rfl, hkeep1⟩
          · rw [List.map_append]
            simp only [List.map_cons, List.map_nil]
            rw [List.nodup_append]
            refine ⟨hA2nd, List.nodup_singleton _, ?_⟩
            intro p hp hq
            rw [List.mem_singleton] at hq
            subst hq
            obtain ⟨a, ha, hap⟩ := List.mem_map.mp hp
            have hmem2 : a ∈ b2.sourceFiles := by
              rw [hA2eq]
              exact List.mem_append_right _ ha
            have := List.find?_eq_none.mp hf2 a hmem2
            simp [hap] at this
      · have hfid : (match b1.sourceFiles.find? fun sf => sf.path = fc.path with
            | some sf => sf.id
            | none => b1.nextFileId) = b1.nextFileId := by
          rw [hf1]
        have href := refAcc_fold r1 rest b1.nextFileId (ingestFile r1 b1 fc)
          (ingest_content_ref r1 b1 fc b1.nextFileId hcont hfid)
        have hkeep1 : keepB (rest.foldl (ingestFile r1) (ingestFile r1 b1 fc))
            ⟨b1.nextFileId, fc.path⟩ = true :=
          (keepB_iff _ ⟨b1.nextFileId, fc.path⟩).mpr href
        have hfindFilter : (((rest.foldl (ingestFile r1) (ingestFile r1 b1 fc)).sourceFiles.filter
            (keepB (rest.foldl (ingestFile r1) (ingestFile r1 b1 fc)))).find?
              fun s => s.path = fc.path) = some ⟨b1.nextFileId, fc.path⟩ :=
          find?_path_of_mem_nodup _ fc.path
            (List.Nodup.sublist (List.Sublist.map _ (List.filter_sublist _)) hFnd)
            ⟨b1.nextFileId, fc.path⟩ (List.mem_filter.mpr ⟨hnew1F, hkeep1⟩) rfl
        have hf2 : (b2.sourceFiles.find? fun s => s.path = fc.path)
            = some ⟨b1.nextFileId, fc.path⟩ := by
          rw [hA2eq, List.find?_append, hfindFilter]
          rfl
        have hb2sf : (ingestFile r2 b2 fc).sourceFiles = b2.sourceFiles := by
          simp only [ingestFile, hf2]
        have hb2cnt : (ingestFile r2 b2 fc).nextFileId = b2.nextFileId := by
          simp only [ingestFile, hf2]
        have hb2line : (ingestFile r2 b2 fc).lineCov = fc.lines.foldl
            (fun rs l => upsertLine rs ⟨r2, b1.nextFileId, l.line_number, l.hit_count⟩)
            b2.lineCov := by
          simp only [ingestFile, hf2]
        have hb2branch : (ingestFile r2 b2 fc).branchCov = fc.branches.foldl
            (fun rs b => upsertBranch rs
              ⟨r2, b1.nextFileId, b.line_number, b.branch_index, b.hit_count⟩)
            b2.branchCov := by
          simp only [ingestFile, hf2]
        have hb2func : (ingestFile r2 b2 fc).funcCov = fc.functions.foldl
            (fun rs f => upsertFunc rs
              ⟨r2, b1.nextFileId, f.name, f.start_line, f.end_line, f.hit_count⟩)
            b2.funcCov := by
          simp only [ingestFile, hf2]
        refine ih (ingestFile r1 b1 fc) (ingestFile r2 b2 fc) hWF1'
          ⟨A2, ?_, hA2id, ?_, hA2nd⟩ (by rw [hb2cnt]; exact hcnt) ?_ ?_ ?_
        · rw [hb2sf, hA2eq]
        · intro a ha
          obtain ⟨sf, hsf, hp, hkp⟩ := hA2w a ha
          exact ⟨sf, by rw [hb1sf]; exact List.mem_append_left _ hsf, hp, hkp⟩
        · rw [hb2line, hb1line, hLrel]
          exact lineFold_retag r1 r2 hlt b1.nextFileId fc.lines b1.lineCov hT1
        · rw [hb2branch, hb1branch, hBrel]
          exact branchFold_retag r1 r2 hlt b1.nextFileId fc.branches b1.branchCov hT2
        · rw [hb2func, hb1func, hFrel]
          exact funcFold_retag r1 r2 hlt b1.nextFileId fc.functions b1.funcCov hT3

theorem get_lines_congr (s s' : DBState) (p : String)
    (h1 : s.reports.length = s'.reports.length)
    (h2 : s.sourceFiles = s'.sourceFiles)
    (h3 : lineView s = lineView s') :
    get_lines s p = get_lines s' p := by
  simp only [get_lines, needs_union, h1, h2, h3]

theorem diffQueryRows_congr (s s' : DBState) (fid : Nat) (lns : List Nat)
    (h1 : s.reports.length = s'.reports.length)
    (h3 : lineView s = lineView s') :
    diffQueryRows s fid lns = diffQueryRows s' fid lns := by
  simp only [diffQueryRows, needs_union, h1, h3]

theorem diff_coverage_congr (s s' : DBState) (dl : List (String × List Nat))
    (h1 : s.reports.length = s'.reports.length)
    (h2 : s.sourceFiles = s'.sourceFiles)
    (h3 : lineView s = lineView s') :
    diff_coverage s dl = diff_coverage s' dl := by
  have hq : ∀ fid lns, diffQueryRows s fid lns = diffQueryRows s' fid lns :=
    fun fid lns => diffQueryRows_congr s s' fid lns h1 h3
  simp only [diff_coverage, h2, hq]

theorem get_summary_congr (s s' : DBState)
    (h1 : s.reports.length = s'.reports.length)
    (h3 : lineView s = lineView s')
    (h4 : branchView s = branchView s')
    (h5 : funcView s = funcView s') :
    get_summary s = get_summary s' := by
  simp only [get_summary, needs_union, h1, h3, h4, h5]

theorem get_file_summaries_congr (s s' : DBState)
    (h1 : s.reports.length = s'.reports.length)
    (h2 : s.sourceFiles = s'.sourceFiles)
    (h3 : lineView s = lineView s')
    (h4 : branchView s = branchView s') :
    get_file_summaries s = get_file_summaries s' := by
  simp only [get_file_summaries, needs_union, h1, h2, h3, h4]

theorem delete_noname (st : DBState) (N : String) :
    ((deleteReportCascade st N).reports.any fun r => r.name = N) = false := by
  rw [Bool.eq_false_iff, Ne, List.any_eq_true]
  rintro ⟨r, hr, hname⟩
  rw [deleteReportCascade] at hr
  have := List.of_mem_filter hr
  rw [decide_eq_true_eq] at this hname
  exact this hname

theorem retagLine_sf (r1 r2 : Nat) (l : LineRow) :
    (retagLine r1 r2 l).source_file_id = l.source_file_id := by
  rw [retagLine]
  split <;> rfl

theorem retagBranch_sf (r1 r2 : Nat) (b : BranchRow) :
    (retagBranch r1 r2 b).source_file_id = b.source_file_id := by
  rw [retagBranch]
  split <;> rfl

theorem retagFunc_sf (r1 r2 : Nat) (f : FuncRow) :
    (retagFunc r1 r2 f).source_file_id = f.source_file_id := by
  rw [retagFunc]
  split <;> rfl

theorem retagLine_noop (r1 r2 : Nat) (rows : List LineRow)
    (h : ∀ l ∈ rows, ¬ l.report_id = r1) : rows.map (retagLine r1 r2) = rows := by
  have : ∀ l ∈ rows, retagLine r1 r2 l = id l := by
    intro l hl
    rw [retagLine, if_neg (h l hl)]
    rfl
  rw [List.map_congr_left this, List.map_id]

theorem retagBranch_noop (r1 r2 : Nat) (rows : List BranchRow)
    (h : ∀ b ∈ rows, ¬ b.report_id = r1) : rows.map (retagBranch r1 r2) = rows := by
  have : ∀ b ∈ rows, retagBranch r1 r2 b = id b := by
    intro b hb
    rw [retagBranch, if_neg (h b hb)]
    rfl
  rw [List.map_congr_left this, List.map_id]

theorem retagFunc_noop (r1 r2 : Nat) (rows : List FuncRow)
    (h : ∀ f ∈ rows, ¬ f.report_id = r1) : rows.map (retagFunc r1 r2) = rows := by
  have : ∀ f ∈ rows, retagFunc r1 r2 f = id f := by
    intro f hf
    rw [retagFunc, if_neg (h f hf)]
    rfl
  rw [List.map_congr_left this, List.map_id]

theorem anyMapSf_line (r1 r2 : Nat) (rows : List LineRow) (i : Nat) :
    ((rows.map (retagLine r1 r2)).any fun l => l.source_file_id = i)
      = (rows.any fun l => l.source_file_id = i) := by
  rw [Bool.eq_iff_iff, List.any_eq_true, List.any_eq_true]
  constructor
  · rintro ⟨y, hy, hd⟩
    obtain ⟨x, hx, rfl⟩ := List.mem_map.mp hy
    exact ⟨x, hx, by rw [decide_eq_true_eq] at *; rw [← retagLine_sf r1 r2 x]; exact hd⟩
  · rintro ⟨x, hx, hd⟩
    exact ⟨retagLine r1 r2 x, List.mem_map.mpr ⟨x, hx, rfl⟩,
      by rw [decide_eq_true_eq] at *; rw [retagLine_sf r1 r2 x]; exact hd⟩

theorem anyMapSf_branch (r1 r2 : Nat) (rows : List BranchRow) (i : Nat) :
    ((rows.map (retagBranch r1 r2)).any fun b => b.source_file_id = i)
      = (rows.any fun b => b.source_file_id = i) := by
  rw [Bool.eq_iff_iff, List.any_eq_true, List.any_eq_true]
  constructor
  · rintro ⟨y, hy, hd⟩
    obtain ⟨x, hx, rfl⟩ := List.mem_map.mp hy
    exact ⟨x, hx, by rw [decide_eq_true_eq] at *; rw [← retagBranch_sf r1 r2 x]; exact hd⟩
  · rintro ⟨x, hx, hd⟩
    exact ⟨retagBranch r1 r2 x, List.mem_map.mpr ⟨x, hx, rfl⟩,
      by rw [decide_eq_true_eq] at *; rw [retagBranch_sf r1 r2 x]; exact hd⟩

theorem anyMapSf_func (r1 r2 : Nat) (rows : List FuncRow) (i : Nat) :
    ((rows.map (retagFunc r1 r2)).any fun f => f.source_file_id = i)
      = (rows.any fun f => f.source_file_id = i) := by
  rw [Bool.eq_iff_iff, List.any_eq_true, List.any_eq_true]
  constructor
  · rintro ⟨y, hy, hd⟩
    obtain ⟨x, hx, rfl⟩ := List.mem_map.mp hy
    exact ⟨x, hx, by rw [decide_eq_true_eq] at *; rw [← retagFunc_sf r1 r2 x]; exact hd⟩
  · rintro ⟨x, hx, hd⟩
    exact ⟨retagFunc r1 r2 x, List.mem_map.mpr ⟨x, hx, rfl⟩,
      by rw [decide_eq_true_eq] at *; rw [retagFunc_sf r1 r2 x]; exact hd⟩

theorem keepB_retag (r1 r2 : Nat) (a1 a2 : IngestAcc)
    (hL : a2.lineCov = a1.lineCov.map (retagLine r1 r2))
    (hB : a2.branchCov = a1.branchCov.map (retagBranch r1 r2))
    (hF : a2.funcCov = a1.funcCov.map (retagFunc r1 r2)) (sf : SourceFileRow) :
    keepB a2 sf = keepB a1 sf := by
  rw [keepB, keepB, hL, hB, hF, anyMapSf_line, anyMapSf_branch, anyMapSf_func]

theorem keepB_false_of_fresh (a : IngestAcc) (sf : SourceFileRow)
    (hL : ∀ l ∈ a.lineCov, l.source_file_id < a.nextFileId)
    (hB : ∀ b ∈ a.branchCov, b.source_file_id < a.nextFileId)
    (hF : ∀ f ∈ a.funcCov, f.source_file_id < a.nextFileId)
    (hid : a.nextFileId ≤ sf.id) : keepB a sf = false := by
  rw [keepB]
  have h1 : (a.lineCov.any fun l => l.source_file_id = sf.id) = false := by
    rw [Bool.eq_false_iff, Ne, List.any_eq_true]
    rintro ⟨l, hl, he⟩
    rw [decide_eq_true_eq] at he
    have := hL l hl
    omega
  have h2 : (a.branchCov.any fun b => b.source_file_id = sf.id) = false := by
    rw [Bool.eq_false_iff, Ne, List.any_eq_true]
    rintro ⟨b, hb, he⟩
    rw [decide_eq_true_eq] at he
    have := hB b hb
    omega
  have h3 : (a.funcCov.any fun f => f.source_file_id = sf.id) = false := by
    rw [Bool.eq_false_iff, Ne, List.any_eq_true]
    rintro ⟨f, hf, he⟩
    rw [decide_eq_true_eq] at he
    have := hF f hf
    omega
  rw [h1, h2, h3]
  rfl

theorem filter_keep_idem {α : Type} (p : α → Bool) (l : List α) :
    (l.filter p).filter p = l.filter p :=
  List.filter_eq_self.mpr fun _ hx => List.of_mem_filter hx

theorem eraseView_retagLine (r1 r2 : Nat) (rows : List LineRow) :
    (rows.map (retagLine r1 r2)).map
        (fun l => (l.source_file_id, l.line_number, l.hit_count))
      = rows.map (fun l => (l.source_file_id, l.line_number, l.hit_count)) := by
  rw [List.map_map]
  apply List.map_congr_left
  intro l _
  simp only [Function.comp_apply, retagLine]
  split <;> rfl

theorem eraseView_retagBranch (r1 r2 : Nat) (rows : List BranchRow) :
    (rows.map (retagBranch r1 r2)).map
        (fun b => (b.source_file_id, b.line_number, b.branch_index, b.hit_count))
      = rows.map (fun b => (b.source_file_id, b.line_number, b.branch_index, b.hit_count)) := by
  rw [List.map_map]
  apply List.map_congr_left
  intro b _
  simp only [Function.comp_apply, retagBranch]
  split <;> rfl

theorem eraseView_retagFunc (r1 r2 : Nat) (rows : List FuncRow) :
    (rows.map (retagFunc r1 r2)).map
        (fun f => (f.source_file_id, f.name, f.start_line, f.end_line, f.hit_count))
      = rows.map (fun f => (f.source_file_id, f.name, f.start_line, f.end_line, f.hit_count)) := by
  rw [List.map_map]
  apply List.map_congr_left
  intro f _
  simp only [Function.comp_apply, retagFunc]
  split <;> rfl

/-- C6: overwrite idempotence (spec-modelled schema: cascade delete, UNIQUE
constraints and orphan purge modelled from spec section 3; `schema.sql` is not
in `src/`). Re-ingesting the same payload under the same name with overwrite
leaves every query (`get_summary`, `get_file_summaries`, `get_lines`,
`diff_coverage`) with exactly the results of the single ingest; the second
ingest deletes the one same-named report first (exactly one remains, the fresh
one) and the store keeps no orphaned source files. -/
theorem c6_overwrite_idempotent (st : DBState) (hWF : DBWF st) (N fmt : String)
    (src : Option String) (D : List FileCoverage) (now1 now2 : String)
    (r1 : Nat) (st1 : DBState) (r2 : Nat) (st2 : DBState)
    (h1 : insert_coverage_streaming st N fmt src D true now1 = .ok (r1, st1))
    (h2 : insert_coverage_streaming st1 N fmt src D true now2 = .ok (r2, st2)) :
    get_summary st2 = get_summary st1
    ∧ get_file_summaries st2 = get_file_summaries st1
    ∧ (∀ p, get_lines st2 p = get_lines st1 p)
    ∧ (∀ dl, diff_coverage st2 dl = diff_coverage st1 dl)
    ∧ (st2.reports.filter fun r => r.name = N) = [⟨r2, N, fmt, src, now2⟩]
    ∧ (∀ sf ∈ st2.sourceFiles,
        (st2.lineCov.any (fun l => l.source_file_id = sf.id)
          || st2.branchCov.any (fun b => b.source_file_id = sf.id)
          || st2.funcCov.any (fun f => f.source_file_id = sf.id)) = true) := by
  simp only [insert_coverage_streaming, insert_coverage_tx, delete_noname,
    Bool.false_eq_true, if_false, if_true] at h1 h2
  rw [Except.ok.injEq, Prod.mk.injEq] at h1 h2
  obtain ⟨hr1, hst1⟩ := h1
  obtain ⟨hr2, hst2⟩ := h2
  rw [hr1] at hst1
  rw [hr2] at hst2
  obtain ⟨W1, W2, W3, W4, W5, W6, W7, W8, W9⟩ := hWF
  have hr1' : st.nextReportId = r1 := hr1
  -- rows of the delete-cleaned store carry strictly older report ids
  have hnl : ∀ l ∈ (deleteReportCascade st N).lineCov, l.report_id < r1 := by
    intro l hl
    rw [← hr1']
    exact W2 l (List.mem_of_mem_filter hl)
  have hnb : ∀ b ∈ (deleteReportCascade st N).branchCov, b.report_id < r1 := by
    intro b hb
    rw [← hr1']
    exact W3 b (List.mem_of_mem_filter hb)
  have hnf : ∀ f ∈ (deleteReportCascade st N).funcCov, f.report_id < r1 := by
    intro f hf
    rw [← hr1']
    exact W4 f (List.mem_of_mem_filter hf)
  -- name the first ingest fold
  obtain ⟨acc1, hacc1⟩ : ∃ a : IngestAcc, List.foldl (ingestFile r1)
      ⟨(deleteReportCascade st N).sourceFiles, (deleteReportCascade st N).nextFileId,
        (deleteReportCascade st N).lineCov, (deleteReportCascade st N).branchCov,
        (deleteReportCascade st N).funcCov⟩ D = a := ⟨_, rfl⟩
  rw [hacc1] at hst1
  -- first-state component equations
  have e1rep : st1.reports = (deleteReportCascade st N).reports
      ++ [⟨r1, N, fmt, src, now1⟩] := by
    rw [← hst1]
    rfl
  have e1sf : st1.sourceFiles = acc1.sourceFiles.filter (keepB acc1) := by
    rw [← hst1]
    rfl
  have e1line : st1.lineCov = acc1.lineCov := by
    rw [← hst1]
    rfl
  have e1branch : st1.branchCov = acc1.branchCov := by
    rw [← hst1]
    rfl
  have e1func : st1.funcCov = acc1.funcCov := by
    rw [← hst1]
    rfl
  have e1nrid : st1.nextReportId = r1 + 1 := by
    rw [← hst1]
    rfl
  have e1nfid : st1.nextFileId = acc1.nextFileId := by
    rw [← hst1]
    rfl
  -- well-formedness of the first run
  have hrun1 : Run1WF r1 (⟨(deleteReportCascade st N).sourceFiles,
      (deleteReportCascade st N).nextFileId, (deleteReportCascade st N).lineCov,
      (deleteReportCascade st N).branchCov, (deleteReportCascade st N).funcCov⟩ : IngestAcc) :=
    ⟨(fun l hl => Or.inr (hnl l hl)), (fun b hb => Or.inr (hnb b hb)),
      (fun f hf => Or.inr (hnf f hf)), W5,
      (fun l hl => W6 l (List.mem_of_mem_filter hl)),
      (fun b hb => W7 b (List.mem_of_mem_filter hb)),
      (fun f hf => W8 f (List.mem_of_mem_filter hf)), W9⟩
  have hrunAcc1 := run1WF_fold r1 D _ hrun1
  rw [hacc1] at hrunAcc1
  obtain ⟨hrA1, hrA2, hrA3, hrA4, hrA5, hrA6, hrA7, hrA8⟩ := hrunAcc1
  -- frame decomposition of the first ingest
  have hfr := ingestFold_inv (deleteReportCascade st N) r1 D
    (fun l hl h => absurd h (Nat.ne_of_lt (hnl l hl)))
    (fun b hb h => absurd h (Nat.ne_of_lt (hnb b hb)))
    (fun f hf h => absurd h (Nat.ne_of_lt (hnf f hf)))
    ⟨(deleteReportCascade st N).sourceFiles, (deleteReportCascade st N).nextFileId,
      (deleteReportCascade st N).lineCov, (deleteReportCascade st N).branchCov,
      (deleteReportCascade st N).funcCov⟩
    ⟨⟨[], (List.append_nil _).symm, (fun sf h => nomatch h)⟩, Nat.le_refl _,
      ⟨[], (List.append_nil _).symm, (fun l h => nomatch h)⟩,
      ⟨[], (List.append_nil _).symm, (fun b h => nomatch h)⟩,
      ⟨[], (List.append_nil _).symm, (fun f h => nomatch h)⟩⟩
  rw [hacc1] at hfr
  obtain ⟨⟨aS1, haS1, haS1w⟩, hc1, ⟨aL1, haL1, haL1r⟩, ⟨aB1, haB1, haB1r⟩,
    ⟨aF1, haF1, haF1r⟩⟩ := hfr
  -- no report of the cleaned store is named N
  have hstDrepN : ∀ r ∈ (deleteReportCascade st N).reports, ¬ (r.name = N) := by
    intro r hr
    have := List.of_mem_filter hr
    rw [decide_eq_true_eq] at this
    exact this
  -- the only N-named report of st1 is the fresh one
  have hdead : ((st1.reports.filter fun r => r.name = N).map (·.id)) = [r1] := by
    rw [e1rep, List.filter_append]
    have ha : (deleteReportCascade st N).reports.filter (fun r => r.name = N) = [] := by
      rw [List.filter_eq_nil_iff]
      intro r hr
      simp only [decide_eq_true_eq]
      exact hstDrepN r hr
    rw [ha]
    simp [List.filter]
  -- the second delete restores the cleaned store's tables
  have ed1rep : (deleteReportCascade st1 N).reports = (deleteReportCascade st N).reports := by
    show st1.reports.filter (fun r => ¬ r.name = N) = _
    rw [e1rep, List.filter_append]
    have ha : (deleteReportCascade st N).reports.filter (fun r => ¬ r.name = N)
        = (deleteReportCascade st N).reports := by
      rw [List.filter_eq_self]
      intro r hr
      simp only [decide_eq_true_eq]
      exact hstDrepN r hr
    have hb : ([(⟨r1, N, fmt, src, now1⟩ : ReportRow)]).filter (fun r => ¬ r.name = N)
        = [] := by
      simp [List.filter]
    rw [ha, hb, List.append_nil]
  have ed1line : (deleteReportCascade st1 N).lineCov = (deleteReportCascade st N).lineCov := by
    show st1.lineCov.filter (fun l => ¬ l.report_id
        ∈ ((st1.reports.filter fun r => r.name = N).map (·.id))) = _
    rw [hdead, e1line, haL1, List.filter_append]
    have ha : (deleteReportCascade st N).lineCov.filter
        (fun l => ¬ l.report_id ∈ [r1]) = (deleteReportCascade st N).lineCov := by
      rw [List.filter_eq_self]
      intro l hl
      simp only [decide_eq_true_eq, List.mem_singleton]
      have := hnl l hl
      omega
    have hb : aL1.filter (fun l => ¬ l.report_id ∈ [r1]) = [] := by
      rw [List.filter_eq_nil_iff]
      intro l hl
      simp only [decide_eq_true_eq, List.mem_singleton]
      intro hc
      exact hc (haL1r l hl)
    rw [ha, hb, List.append_nil]
  have ed1branch : (deleteReportCascade st1 N).branchCov
      = (deleteReportCascade st N).branchCov := by
    show st1.branchCov.filter (fun b => ¬ b.report_id
        ∈ ((st1.reports.filter fun r => r.name = N).map (·.id))) = _
    rw [hdead, e1branch, haB1, List.filter_append]
    have ha : (deleteReportCascade st N).branchCov.filter
        (fun b => ¬ b.report_id ∈ [r1]) = (deleteReportCascade st N).branchCov := by
      rw [List.filter_eq_self]
      intro b hb
      simp only [decide_eq_true_eq, List.mem_singleton]
      have := hnb b hb
      omega
    have hb : aB1.filter (fun b => ¬ b.report_id ∈ [r1]) = [] := by
      rw [List.filter_eq_nil_iff]
      intro b hb
      simp only [decide_eq_true_eq, List.mem_singleton]
      intro hc
      exact hc (haB1r b hb)
    rw [ha, hb, List.append_nil]
  have ed1func : (deleteReportCascade st1 N).funcCov
      = (deleteReportCascade st N).funcCov := by
    show st1.funcCov.filter (fun f => ¬ f.report_id
        ∈ ((st1.reports.filter fun r => r.name = N).map (·.id))) = _
    rw [hdead, e1func, haF1, List.filter_append]
    have ha : (deleteReportCascade st N).funcCov.filter
        (fun f => ¬ f.report_id ∈ [r1]) = (deleteReportCascade st N).funcCov := by
      rw [List.filter_eq_self]
      intro f hf
      simp only [decide_eq_true_eq, List.mem_singleton]
      have := hnf f hf
      omega
    have hb : aF1.filter (fun f => ¬ f.report_id ∈ [r1]) = [] := by
      rw [List.filter_eq_nil_iff]
      intro f hf
      simp only [decide_eq_true_eq, List.mem_singleton]
      intro hc
      exact hc (haF1r f hf)
    rw [ha, hb, List.append_nil]
  have ed1sf : (deleteReportCascade st1 N).sourceFiles
      = acc1.sourceFiles.filter (keepB acc1) := by
    show st1.sourceFiles = _
    exact e1sf
  have ed1nfid : (deleteReportCascade st1 N).nextFileId = acc1.nextFileId := by
    show st1.nextFileId = _
    exact e1nfid
  have hr21 : r2 = r1 + 1 := by
    rw [← hr2]
    show st1.nextReportId = r1 + 1
    exact e1nrid
  -- rewrite the second ingest's start state into cleaned-store form
  rw [ed1rep, ed1sf, ed1nfid, ed1line, ed1branch, ed1func] at hst2
  obtain ⟨acc2, hacc2⟩ : ∃ a : IngestAcc, List.foldl (ingestFile r2)
      ⟨acc1.sourceFiles.filter (keepB acc1), acc1.nextFileId,
        (deleteReportCascade st N).lineCov, (deleteReportCascade st N).branchCov,
        (deleteReportCascade st N).funcCov⟩ D = a := ⟨_, rfl⟩
  rw [hacc2] at hst2
  -- second-state component equations
  have e2rep : st2.reports = (deleteReportCascade st N).reports
      ++ [⟨r2, N, fmt, src, now2⟩] := by
    rw [← hst2]
    rfl
  have e2sf : st2.sourceFiles = acc2.sourceFiles.filter (keepB acc2) := by
    rw [← hst2]
    rfl
  have e2line : st2.lineCov = acc2.lineCov := by
    rw [← hst2]
    rfl
  have e2branch : st2.branchCov = acc2.branchCov := by
    rw [← hst2]
    rfl
  have e2func : st2.funcCov = acc2.funcCov := by
    rw [← hst2]
    rfl
  -- the simulation between the two ingest runs
  have hsim := ingestSim r1 r2 (by omega) D
    ⟨(deleteReportCascade st N).sourceFiles, (deleteReportCascade st N).nextFileId,
      (deleteReportCascade st N).lineCov, (deleteReportCascade st N).branchCov,
      (deleteReportCascade st N).funcCov⟩
    ⟨acc1.sourceFiles.filter (keepB acc1), acc1.nextFileId,
      (deleteReportCascade st N).lineCov, (deleteReportCascade st N).branchCov,
      (deleteReportCascade st N).funcCov⟩
    hrun1
    ⟨[], by rw [hacc1, List.append_nil], (fun a h => nomatch h), (fun a h => nomatch h),
      List.nodup_nil⟩
    (by rw [hacc1])
    ((retagLine_noop r1 r2 _ (fun l hl => Nat.ne_of_lt (hnl l hl))).symm)
    ((retagBranch_noop r1 r2 _ (fun b hb => Nat.ne_of_lt (hnb b hb))).symm)
    ((retagFunc_noop r1 r2 _ (fun f hf => Nat.ne_of_lt (hnf f hf))).symm)
  rw [hacc1, hacc2] at hsim
  obtain ⟨hsimL, hsimB, hsimF, A2f, hsimS, hsimSid⟩ := hsim
  -- keep predicates of the two final accumulators agree
  have hkeq : keepB acc2 = keepB acc1 :=
    funext (keepB_retag r1 r2 acc1 acc2 hsimL hsimB hsimF)
  -- the second purge restores the first store's source files
  have hsf21 : st2.sourceFiles = st1.sourceFiles := by
    rw [e2sf, e1sf, hkeq, hsimS, List.filter_append, filter_keep_idem]
    have hnil : A2f.filter (keepB acc1) = [] := by
      rw [List.filter_eq_nil_iff]
      intro a ha
      rw [keepB_false_of_fresh acc1 a hrA5 hrA6 hrA7 (hsimSid a ha)]
      exact Bool.false_ne_true
    rw [hnil, List.append_nil]
  -- all three coverage views agree
  have hview1 : lineView st2 = lineView st1 := by
    rw [lineView, lineView, e2line, e1line, hsimL]
    exact eraseView_retagLine r1 r2 acc1.lineCov
  have hview2 : branchView st2 = branchView st1 := by
    rw [branchView, branchView, e2branch, e1branch, hsimB]
    exact eraseView_retagBranch r1 r2 acc1.branchCov
  have hview3 : funcView st2 = funcView st1 := by
    rw [funcView, funcView, e2func, e1func, hsimF]
    exact eraseView_retagFunc r1 r2 acc1.funcCov
  have hreplen : st2.reports.length = st1.reports.length := by
    rw [e2rep, e1rep, List.length_append, List.length_append]
    rfl
  refine ⟨get_summary_congr st2 st1 hreplen hview1 hview2 hview3,
    get_file_summaries_congr st2 st1 hreplen hsf21 hview1 hview2,
    (fun p => get_lines_congr st2 st1 p hreplen hsf21 hview1),
    (fun dl => diff_coverage_congr st2 st1 dl hreplen hsf21 hview1), ?_, ?_⟩
  · rw [e2rep, List.filter_append]
    have ha : (deleteReportCascade st N).reports.filter (fun r => r.name = N) = [] := by
      rw [List.filter_eq_nil_iff]
      intro r hr
      simp only [decide_eq_true_eq]
      exact hstDrepN r hr
    rw [ha]
    simp [List.filter]
  · intro sf hsf
    rw [e2sf] at hsf
    have hk := List.of_mem_filter hsf
    rw [e2line, e2branch, e2func]
    exact hk

/-- Witness for C6: ingesting one file with one line twice under name `r`. -/
theorem c6_overwrite_idempotent_witness :
    get_summary ⟨[⟨1, "r", "lcov", none, "t2"⟩], [⟨0, "a.rs"⟩],
        [⟨1, 0, 1, 2⟩], [], [], 2, 1⟩
      = get_summary ⟨[⟨0, "r", "lcov", none, "t1"⟩], [⟨0, "a.rs"⟩],
        [⟨0, 0, 1, 2⟩], [], [], 1, 1⟩
    ∧ get_file_summaries ⟨[⟨1, "r", "lcov", none, "t2"⟩], [⟨0, "a.rs"⟩],
        [⟨1, 0, 1, 2⟩], [], [], 2, 1⟩
      = get_file_summaries ⟨[⟨0, "r", "lcov", none, "t1"⟩], [⟨0, "a.rs"⟩],
        [⟨0, 0, 1, 2⟩], [], [], 1, 1⟩
    ∧ (∀ p, get_lines ⟨[⟨1, "r", "lcov", none, "t2"⟩], [⟨0, "a.rs"⟩],
        [⟨1, 0, 1, 2⟩], [], [], 2, 1⟩ p
      = get_lines ⟨[⟨0, "r", "lcov", none, "t1"⟩], [⟨0, "a.rs"⟩],
        [⟨0, 0, 1, 2⟩], [], [], 1, 1⟩ p)
    ∧ (∀ dl, diff_coverage ⟨[⟨1, "r", "lcov", none, "t2"⟩], [⟨0, "a.rs"⟩],
        [⟨1, 0, 1, 2⟩], [], [], 2, 1⟩ dl
      = diff_coverage ⟨[⟨0, "r", "lcov", none, "t1"⟩], [⟨0, "a.rs"⟩],
        [⟨0, 0, 1, 2⟩], [], [], 1, 1⟩ dl)
    ∧ ((⟨[⟨1, "r", "lcov", none, "t2"⟩], [⟨0, "a.rs"⟩],
        [⟨1, 0, 1, 2⟩], [], [], 2, 1⟩ : DBState).reports.filter fun r => r.name = "r")
      = [⟨1, "r", "lcov", none, "t2"⟩]
    ∧ (∀ sf ∈ (⟨[⟨1, "r", "lcov", none, "t2"⟩], [⟨0, "a.rs"⟩],
          [⟨1, 0, 1, 2⟩], [], [], 2, 1⟩ : DBState).sourceFiles,
        ((⟨[⟨1, "r", "lcov", none, "t2"⟩], [⟨0, "a.rs"⟩],
            [⟨1, 0, 1, 2⟩], [], [], 2, 1⟩ : DBState).lineCov.any
            (fun l => l.source_file_id = sf.id)
          || (⟨[⟨1, "r", "lcov", none, "t2"⟩], [⟨0, "a.rs"⟩],
              [⟨1, 0, 1, 2⟩], [], [], 2, 1⟩ : DBState).branchCov.any
              (fun b => b.source_file_id = sf.id)
          || (⟨[⟨1, "r", "lcov", none, "t2"⟩], [⟨0, "a.rs"⟩],
              [⟨1, 0, 1, 2⟩], [], [], 2, 1⟩ : DBState).funcCov.any
              (fun f => f.source_file_id = sf.id)) = true) :=
  c6_overwrite_idempotent ⟨[], [], [], [], [], 0, 0⟩ (by decide) "r" "lcov" none
    [⟨"a.rs", [⟨1, 2⟩], [], []⟩] "t1" "t2" 0
    ⟨[⟨0, "r", "lcov", none, "t1"⟩], [⟨0, "a.rs"⟩], [⟨0, 0, 1, 2⟩], [], [], 1, 1⟩ 1
    ⟨[⟨1, "r", "lcov", none, "t2"⟩], [⟨0, "a.rs"⟩], [⟨1, 0, 1, 2⟩], [], [], 2, 1⟩
    rfl rfl

end Covrs
